import Mathlib

/-! text2image: break point planner and markdown emphasis normaliser.

A shallow embedding of `src/breakpointCalculator.js`, `src/markdownProcessor.js` and
`src/viewportManager.js`.

* JavaScript numbers are rationals (`ℚ`).  `findOptimalBreakPoints` computes in exact
  arithmetic; `findOptimalBreakPointsR` rounds the result of every operation, and with
  `binary64` for the rounding it is the function on IEEE doubles.  The two agree on
  whole-pixel inputs (`findOptimalBreakPointsR_binary64_pixel`).  `NaN`, infinities and
  subnormal numbers are outside the model.
* A container is the list of its children, each child carrying `offsetTop` and
  `offsetHeight`.
* The `while` loop of `findOptimalBreakPoints` is a recursion on an iteration
  budget; `none` means the budget ran out before the loop condition became
  false.  `mainLoop_terminates` shows that the budget `iterationBound` always
  suffices when `targetHeight > 0`.
* JavaScript strings are lists of UTF-16 code units (`List Nat`); the regular
  expressions of `normalizeMultibyteEmphasis` are run by a greedy backtracking
  matcher.
* `getViewportDimensions` takes the builtin conversion `Number` as a parameter and
  returns the value together with the `console.error` calls it made.
-/

namespace Text2Image

/-! ## breakpointCalculator.js -/

/-- One child of the container: the two layout properties the algorithm reads. -/
structure Child where
  offsetTop : ℚ
  offsetHeight : ℚ
  deriving DecidableEq

/-- Minimum content ratio to break before an element (50% of target height). -/
def MIN_CONTENT_RATIO : ℚ := 1 / 2

/-- Maximum content ratio to include an entire element (150% of target height). -/
def MAX_CONTENT_RATIO : ℚ := 3 / 2

/-- The `for (const child of children)` scan of one loop iteration: the value
assigned to `breakBeforeElement` by the first child that straddles
`idealBreakPoint`, or `none` when the scan ends with `elementWouldBeCut` false. -/
def scanChildren (currentOffset targetHeight idealBreakPoint : ℚ) : List Child → Option ℚ
  | [] => none
  | child :: rest =>
    let childTop := child.offsetTop
    let childBottom := childTop + child.offsetHeight
    if childTop < idealBreakPoint ∧ childBottom > idealBreakPoint then
      let contentBeforeElement := childTop - currentOffset
      let contentIncludingElement := childBottom - currentOffset
      if contentBeforeElement ≥ targetHeight * MIN_CONTENT_RATIO then
        some childTop
      else if contentIncludingElement ≤ targetHeight * MAX_CONTENT_RATIO then
        some childBottom
      else
        some childTop
    else
      scanChildren currentOffset targetHeight idealBreakPoint rest

/-- The body of the `while` loop: the break point pushed in an iteration that
starts at `currentOffset` (it also becomes the new `currentOffset`). -/
def nextBreakPoint (children : List Child) (targetHeight currentOffset : ℚ) : ℚ :=
  let idealBreakPoint := currentOffset + targetHeight
  match scanChildren currentOffset targetHeight idealBreakPoint children with
  | some breakBeforeElement =>
    if breakBeforeElement ≤ currentOffset then currentOffset + targetHeight
    else breakBeforeElement
  | none => idealBreakPoint

/-- The `while (currentOffset + targetHeight < totalHeight)` loop in exact arithmetic, run
for at most `fuel` iterations.  `none`: the loop condition still holds when the budget is
spent. -/
def mainLoop (children : List Child) (targetHeight totalHeight : ℚ) :
    Nat → ℚ → List ℚ → Option (List ℚ)
  | 0, currentOffset, breakPoints =>
    if currentOffset + targetHeight < totalHeight then none else some breakPoints
  | fuel + 1, currentOffset, breakPoints =>
    if currentOffset + targetHeight < totalHeight then
      let b := nextBreakPoint children targetHeight currentOffset
      mainLoop children targetHeight totalHeight fuel b (breakPoints ++ [b])
    else some breakPoints

/-- The fallback for a container without children, in exact arithmetic: `[0]` followed by
`i * targetHeight` for `i = 1, ..., numImages - 1`, `numImages = ceil(totalHeight / targetHeight)`. -/
def fixedIntervals (targetHeight totalHeight : ℚ) : List ℚ :=
  let numImages : ℤ := ⌈totalHeight / targetHeight⌉
  0 :: (List.range' 1 (numImages.toNat - 1)).map (fun (i : ℕ) => (i : ℚ) * targetHeight)

/-- The function `findOptimalBreakPoints(container, targetHeight, totalHeight)` in exact
arithmetic, with the container given by its children and the main loop given `fuel`
iterations. -/
def findOptimalBreakPoints (fuel : Nat) (children : List Child) (targetHeight totalHeight : ℚ) :
    Option (List ℚ) :=
  if children.length = 0 then some (fixedIntervals targetHeight totalHeight)
  else mainLoop children targetHeight totalHeight fuel 0 [0]

/-- An iteration budget that is enough for the main loop whenever `targetHeight > 0`:
two iterations per half target height still to cover, plus two. -/
def iterationBound (targetHeight totalHeight : ℚ) : Nat :=
  2 * ⌈2 * (totalHeight - targetHeight) / targetHeight⌉.toNat + 2

/-- The child's span strictly contains the offset `x`. -/
def Straddles (x : ℚ) (c : Child) : Prop :=
  c.offsetTop < x ∧ c.offsetTop + c.offsetHeight > x

instance (x : ℚ) (c : Child) : Decidable (Straddles x c) := by
  unfold Straddles; infer_instance

/-- The three-way choice made for a straddling child. -/
def chooseBreak (currentOffset targetHeight : ℚ) (c : Child) : ℚ :=
  if c.offsetTop - currentOffset ≥ targetHeight * MIN_CONTENT_RATIO then c.offsetTop
  else if c.offsetTop + c.offsetHeight - currentOffset ≤ targetHeight * MAX_CONTENT_RATIO then
    c.offsetTop + c.offsetHeight
  else c.offsetTop

/-- One iteration of the main loop, as a relation between consecutive offsets. -/
def LoopStep (children : List Child) (targetHeight totalHeight a b : ℚ) : Prop :=
  a + targetHeight < totalHeight ∧ b = nextBreakPoint children targetHeight a

/-- The open spans of two children have no point in common. -/
def SpansDisjoint (a b : Child) : Prop :=
  ∀ x : ℚ, ¬ (Straddles x a ∧ Straddles x b)

/-- The first child, in list order, that straddles the offset `x`. -/
def firstStraddling (children : List Child) (x : ℚ) : Option Child :=
  children.find? (fun c => decide (Straddles x c))

/-! ### The same function with rounded arithmetic

`findOptimalBreakPoints` above computes in exact arithmetic.  The definitions below apply a
rounding function `rnd` to the result of every arithmetic operation of the source; with
`binary64` for `rnd` they are the program on IEEE doubles, with the identity they are the
exact definitions (`findOptimalBreakPointsR_id`). -/

/-- Rounding to the nearest integer, ties to the even one. -/
def roundHalfEven (q : ℚ) : ℤ :=
  let f := ⌊q⌋
  let d := q - f
  if d < 1 / 2 then f else if 1 / 2 < d then f + 1 else if f % 2 = 0 then f else f + 1

/-- The number of halvings that bring `n` below 2, at most `fuel` of them: the floor of the
binary logarithm of `n ≥ 1` when `fuel ≥ n`. -/
def log2Fuel : Nat → Nat → Nat
  | 0, _ => 0
  | fuel + 1, n => if n < 2 then 0 else log2Fuel fuel (n / 2) + 1

/-- The floor of the binary logarithm of `|q|`, for `q ≠ 0`: the difference of the
logarithms of numerator and denominator, or one less. -/
def log2Floor (q : ℚ) : ℤ :=
  let k : ℤ := (log2Fuel q.num.natAbs q.num.natAbs : ℤ) - (log2Fuel q.den q.den : ℤ)
  if (2 : ℚ) ^ k ≤ |q| then k else k - 1

/-- IEEE 754 binary64 rounding of a rational number, to nearest with ties to even: the
value is scaled to a significand between `2^52` and `2^53`, which is rounded to an integer.
Overflow to infinity and the subnormal range are not modelled. -/
def binary64 (q : ℚ) : ℚ :=
  if q = 0 then 0
  else
    let e : ℤ := log2Floor q - 52
    (roundHalfEven (q / 2 ^ e) : ℚ) * 2 ^ e

/-- The scan of the children, every operation rounded by `rnd`. -/
def scanChildrenR (rnd : ℚ → ℚ) (currentOffset targetHeight idealBreakPoint : ℚ) :
    List Child → Option ℚ
  | [] => none
  | child :: rest =>
    let childTop := child.offsetTop
    let childBottom := rnd (childTop + child.offsetHeight)
    if childTop < idealBreakPoint ∧ childBottom > idealBreakPoint then
      let contentBeforeElement := rnd (childTop - currentOffset)
      let contentIncludingElement := rnd (childBottom - currentOffset)
      if contentBeforeElement ≥ rnd (targetHeight * MIN_CONTENT_RATIO) then
        some childTop
      else if contentIncludingElement ≤ rnd (targetHeight * MAX_CONTENT_RATIO) then
        some childBottom
      else
        some childTop
    else
      scanChildrenR rnd currentOffset targetHeight idealBreakPoint rest

/-- The body of the `while` loop, every operation rounded by `rnd`. -/
def nextBreakPointR (rnd : ℚ → ℚ) (children : List Child) (targetHeight currentOffset : ℚ) :
    ℚ :=
  let idealBreakPoint := rnd (currentOffset + targetHeight)
  match scanChildrenR rnd currentOffset targetHeight idealBreakPoint children with
  | some breakBeforeElement =>
    if breakBeforeElement ≤ currentOffset then rnd (currentOffset + targetHeight)
    else breakBeforeElement
  | none => idealBreakPoint

/-- The `while` loop, every operation rounded by `rnd`, run for at most `fuel` iterations. -/
def mainLoopR (rnd : ℚ → ℚ) (children : List Child) (targetHeight totalHeight : ℚ) :
    Nat → ℚ → List ℚ → Option (List ℚ)
  | 0, currentOffset, breakPoints =>
    if rnd (currentOffset + targetHeight) < totalHeight then none else some breakPoints
  | fuel + 1, currentOffset, breakPoints =>
    if rnd (currentOffset + targetHeight) < totalHeight then
      let b := nextBreakPointR rnd children targetHeight currentOffset
      mainLoopR rnd children targetHeight totalHeight fuel b (breakPoints ++ [b])
    else some breakPoints

/-- The fallback for a container without children, with `Math.ceil` taken of the rounded
quotient and every product rounded. -/
def fixedIntervalsR (rnd : ℚ → ℚ) (targetHeight totalHeight : ℚ) : List ℚ :=
  let numImages : ℤ := ⌈rnd (totalHeight / targetHeight)⌉
  0 :: (List.range' 1 (numImages.toNat - 1)).map
    (fun (i : ℕ) => rnd ((i : ℚ) * targetHeight))

/-- The function `findOptimalBreakPoints(container, targetHeight, totalHeight)` with every
arithmetic operation rounded by `rnd`. -/
def findOptimalBreakPointsR (rnd : ℚ → ℚ) (fuel : Nat) (children : List Child)
    (targetHeight totalHeight : ℚ) : Option (List ℚ) :=
  if children.length = 0 then some (fixedIntervalsR rnd targetHeight totalHeight)
  else mainLoopR rnd children targetHeight totalHeight fuel 0 [0]

/-- A whole number of pixels, of magnitude at most `2^49`. -/
def IsPixel (x : ℚ) : Prop := ∃ z : ℤ, x = (z : ℚ) ∧ |z| ≤ 2 ^ 49

/-- All inputs are whole numbers of pixels: on such inputs no operation of the function
rounds. -/
def PixelInputs (children : List Child) (targetHeight totalHeight : ℚ) : Prop :=
  (∀ c ∈ children, IsPixel c.offsetTop ∧ IsPixel c.offsetHeight) ∧
    IsPixel targetHeight ∧ IsPixel totalHeight

/-- The rounding function is exact on halves of integers below `2^53` in magnitude. -/
def ExactOnHalves (rnd : ℚ → ℚ) : Prop :=
  ∀ k : ℤ, |k| < 2 ^ 53 → rnd ((k : ℚ) / 2) = (k : ℚ) / 2

/-- Rounding the quotient of two integers does not change its ceiling. -/
def KeepsCeilOfQuotient (rnd : ℚ → ℚ) : Prop :=
  ∀ a b : ℤ, 0 ≤ a → a < 2 ^ 53 → 0 < b → ⌈rnd ((a : ℚ) / b)⌉ = ⌈(a : ℚ) / b⌉

/-! ## markdownProcessor.js -/

/-- One element of a regular expression of the source: a character class (or literal)
matched once, a greedy `*` or `+` over a class, or a capture-group parenthesis.  A class is
a predicate on UTF-16 code units. -/
inductive Tok where
  | one (p : Nat → Bool)
  | star (p : Nat → Bool)
  | plus (p : Nat → Bool)
  | gopen
  | gclose

/-- Greedy repetition with backtracking: consume code units satisfying `p` as long as
possible, then try the continuation `k`; when it fails give back one code unit and try
again.  `cur` is the text consumed since the last parenthesis. -/
def greedy {R : Type} (p : Nat → Bool) (k : List Nat → List Nat → Option R) :
    List Nat → List Nat → Option R
  | cur, [] => k cur []
  | cur, c :: s =>
    if p c then
      match greedy p k (cur ++ [c]) s with
      | some r => some r
      | none => k cur (c :: s)
    else k cur (c :: s)

/-- Backtracking match of a pattern at the start of the input.  `done` holds the finished
capture groups, `cur` the text consumed since the last parenthesis.  On success: the
capture groups and the input left after the match. -/
def matchHere : List Tok → List Nat → List (List Nat) → List Nat →
    Option (List (List Nat) × List Nat)
  | [], s, done, _ => some (done, s)
  | .gopen :: ts, s, done, _ => matchHere ts s done []
  | .gclose :: ts, s, done, cur => matchHere ts s (done ++ [cur]) []
  | .one _ :: _, [], _, _ => none
  | .one p :: ts, c :: s, done, cur =>
    if p c then matchHere ts s done (cur ++ [c]) else none
  | .star p :: ts, s, done, cur =>
    greedy p (fun cur2 rest => matchHere ts rest done cur2) cur s
  | .plus _ :: _, [], _, _ => none
  | .plus p :: ts, c :: s, done, cur =>
    if p c then greedy p (fun cur2 rest => matchHere ts rest done cur2) (cur ++ [c]) s else none

/-- One piece of a replacement string: literal text or a group reference `$n`. -/
inductive Repl where
  | lit (s : List Nat)
  | group (n : Nat)

/-- The replacement text for a match with the given capture groups. -/
def expand (tpl : List Repl) (caps : List (List Nat)) : List Nat :=
  tpl.flatMap fun
    | .lit s => s
    | .group n => caps.getD (n - 1) []

/-- The scan of `text.replace(/pat/g, tpl)`: at each position try the pattern; on a match
emit the replacement and go on after the match (`skip` counts the matched code units still
to pass over), otherwise copy one code unit.  An empty match emits the replacement and
copies one code unit. -/
def replaceFrom (pat : List Tok) (tpl : List Repl) : Nat → List Nat → List Nat
  | 0, [] =>
    match matchHere pat [] [] [] with
    | some (caps, _) => expand tpl caps
    | none => []
  | _ + 1, [] => []
  | skip + 1, _ :: s => replaceFrom pat tpl skip s
  | 0, c :: s =>
    match matchHere pat (c :: s) [] [] with
    | some (caps, rest) =>
      let n := (c :: s).length - rest.length
      if n = 0 then expand tpl caps ++ c :: replaceFrom pat tpl 0 s
      else expand tpl caps ++ replaceFrom pat tpl (n - 1) s
    | none => c :: replaceFrom pat tpl 0 s

/-- The call `text.replace(/pat/g, tpl)`. -/
def replaceAll (pat : List Tok) (tpl : List Repl) (text : List Nat) : List Nat :=
  replaceFrom pat tpl 0 text

/-- The UTF-16 code units of a string, as JavaScript stores it. -/
def utf16 (s : String) : List Nat :=
  s.toList.flatMap fun c =>
    if c.toNat < 0x10000 then [c.toNat]
    else [0xD800 + (c.toNat - 0x10000) / 0x400, 0xDC00 + (c.toNat - 0x10000) % 0x400]

/-- A literal code unit. -/
def lit (c : Nat) : Nat → Bool := fun u => u == c

/-- The class `[\u0080-\uFFFF]`. -/
def wide : Nat → Bool := fun u => 0x80 ≤ u && u ≤ 0xFFFF

/-- The class `[^_\n]`. -/
def notUnderscoreNewline : Nat → Bool := fun u => u != 0x5F && u != 0x0A

/-- The class `[\u3000-\u303F\uFF00-\uFFEF]`. -/
def cjkPunct : Nat → Bool := fun u => (0x3000 ≤ u && u ≤ 0x303F) || (0xFF00 ≤ u && u ≤ 0xFFEF)

/-- The class `[^\*\n]`. -/
def notStarNewline : Nat → Bool := fun u => u != 0x2A && u != 0x0A

/-- The literal `_`. -/
def us : Tok := .one (lit 0x5F)

/-- The literal `\*`. -/
def ast : Tok := .one (lit 0x2A)

/-- The pattern `/__([^_\n]*[\u0080-\uFFFF][^_\n]*)__/`. -/
def rule1 : List Tok :=
  [us, us, .gopen, .star notUnderscoreNewline, .one wide, .star notUnderscoreNewline, .gclose,
    us, us]

/-- The pattern `/([\u0080-\uFFFF])__([^_\n]+)__/`. -/
def rule2 : List Tok :=
  [.gopen, .one wide, .gclose, us, us, .gopen, .plus notUnderscoreNewline, .gclose, us, us]

/-- The pattern `/__([^_\n]+)__([\u0080-\uFFFF])/`. -/
def rule3 : List Tok :=
  [us, us, .gopen, .plus notUnderscoreNewline, .gclose, us, us, .gopen, .one wide, .gclose]

/-- The pattern `/_([^_\n]*[\u0080-\uFFFF][^_\n]*)_/`. -/
def rule4 : List Tok :=
  [us, .gopen, .star notUnderscoreNewline, .one wide, .star notUnderscoreNewline, .gclose, us]

/-- The pattern `/([\u0080-\uFFFF])_([^_\n]+)_/`. -/
def rule5 : List Tok :=
  [.gopen, .one wide, .gclose, us, .gopen, .plus notUnderscoreNewline, .gclose, us]

/-- The pattern `/_([^_\n]+)_([\u0080-\uFFFF])/`. -/
def rule6 : List Tok :=
  [us, .gopen, .plus notUnderscoreNewline, .gclose, us, .gopen, .one wide, .gclose]

/-- The pattern `/\*\*([\u3000-\u303F\uFF00-\uFFEF][^\*\n]*[\u3000-\u303F\uFF00-\uFFEF])\*\*/`. -/
def rule7 : List Tok :=
  [ast, ast, .gopen, .one cjkPunct, .star notStarNewline, .one cjkPunct, .gclose, ast, ast]

/-- The replacement `'<strong>$1</strong>'`. -/
def strongTpl : List Repl := [.lit (utf16 "<strong>"), .group 1, .lit (utf16 "</strong>")]

/-- The six underscore replacements of `normalizeMultibyteEmphasis`, in source order. -/
def underscoreRules (text : List Nat) : List Nat :=
  let text := replaceAll rule1 [.lit (utf16 "**"), .group 1, .lit (utf16 "**")] text
  let text := replaceAll rule2 [.group 1, .lit (utf16 "**"), .group 2, .lit (utf16 "**")] text
  let text := replaceAll rule3 [.lit (utf16 "**"), .group 1, .lit (utf16 "**"), .group 2] text
  let text := replaceAll rule4 [.lit (utf16 "*"), .group 1, .lit (utf16 "*")] text
  let text := replaceAll rule5 [.group 1, .lit (utf16 "*"), .group 2, .lit (utf16 "*")] text
  let text := replaceAll rule6 [.lit (utf16 "*"), .group 1, .lit (utf16 "*"), .group 2] text
  text

/-- The function `normalizeMultibyteEmphasis(text)`: the six underscore replacements, then
the CJK punctuation replacement. -/
def normalizeMultibyteEmphasis (text : List Nat) : List Nat :=
  replaceAll rule7 strongTpl (underscoreRules text)

/-- The pattern element cannot consume the code unit `u`. -/
def Tok.rejects (u : Nat) : Tok → Prop
  | .one p => p u = false
  | .star p => p u = false
  | .plus p => p u = false
  | .gopen => True
  | .gclose => True

/-! ## viewportManager.js -/

/-- A JavaScript number, as far as `getViewportDimensions` looks at it: NaN, an infinity or
a finite value (every finite double is a rational). -/
inductive JSNumber where
  | nan
  | negInf
  | fin (q : ℚ)
  | posInf
  deriving DecidableEq

/-- The test `isNaN(n)`. -/
def JSNumber.isNaN : JSNumber → Bool
  | .nan => true
  | _ => false

/-- The test `n <= 0`, false for NaN. -/
def JSNumber.leZero : JSNumber → Bool
  | .nan => false
  | .negInf => true
  | .fin q => decide (q ≤ 0)
  | .posInf => false

/-- The test `n > 0`, false for NaN. -/
def JSNumber.gtZero : JSNumber → Bool
  | .nan => false
  | .negInf => false
  | .fin q => decide (0 < q)
  | .posInf => true

/-- The object `{ width, height }`. -/
structure Dimensions where
  width : JSNumber
  height : JSNumber
  deriving DecidableEq

/-- An argument of a `console.error` call. -/
inductive ConsoleArg where
  | str (s : List Nat)
  | num (n : JSNumber)
  deriving DecidableEq

/-- The call `selectedSize.split('x')`: the segments between the occurrences of `x`. -/
def splitX : List Nat → List (List Nat)
  | [] => [[]]
  | c :: s =>
    if c = 0x78 then [] :: splitX s
    else
      match splitX s with
      | seg :: segs => (c :: seg) :: segs
      | [] => [[c]]

/-- The function `getViewportDimensions(selectedSize)` on a string.  The builtin conversion
`Number` is a parameter.  The result is the returned value (`none` for `null`) and the list
of `console.error` calls, each with its arguments.  A missing array element is `undefined`,
for which `isNaN` holds; it is rendered as NaN and cannot occur, as the text contains `x`. -/
def getViewportDimensions (Number : List Nat → JSNumber) (selectedSize : List Nat) :
    Option Dimensions × List (List ConsoleArg) :=
  if selectedSize = utf16 "auto" then (none, [])
  else if ¬ (0x78 ∈ selectedSize) then
    (none, [[.str (utf16 "Invalid viewport size format:"), .str selectedSize]])
  else
    let parts := (splitX selectedSize).map Number
    let width := parts.getD 0 .nan
    let height := parts.getD 1 .nan
    if width.isNaN || height.isNaN || width.leZero || height.leZero then
      (none, [[.str (utf16 "Invalid viewport dimensions:"), .num width, .num height]])
    else (some ⟨width, height⟩, [])

/-- The decimal digits of `n`, most significant first, before those in `acc`. -/
def decimalAux : Nat → Nat → List Nat → List Nat
  | 0, _, acc => acc
  | fuel + 1, n, acc =>
    if n < 10 then (0x30 + n) :: acc
    else decimalAux fuel (n / 10) ((0x30 + n % 10) :: acc)

/-- The decimal string of a natural number. -/
def decimal (n : Nat) : List Nat := decimalAux (n + 1) n []

/-- The value of a string of decimal digits read from the left, starting from `v`; `none`
when a code unit is not a digit. -/
def readDigits : Nat → List Nat → Option Nat
  | v, [] => some v
  | v, c :: s => if 0x30 ≤ c ∧ c ≤ 0x39 then readDigits (10 * v + (c - 0x30)) s else none

/-- The exact value that `Number` gives to the empty string (0) and to an optionally signed
string of decimal digits; NaN stands for every other text, which this reading does not
cover.  It serves to run `getViewportDimensions` on concrete strings of that shape. -/
def decimalNumber (s : List Nat) : JSNumber :=
  match s with
  | [] => .fin 0
  | [0x2D] => .nan
  | [0x2B] => .nan
  | 0x2D :: ds => match readDigits 0 ds with
    | some v => .fin (-(v : ℚ))
    | none => .nan
  | 0x2B :: ds => match readDigits 0 ds with
    | some v => .fin v
    | none => .nan
  | ds => match readDigits 0 ds with
    | some v => .fin v
    | none => .nan

/-! ### Lemmas on one iteration -/

theorem scanChildren_eq_find (cur t ideal : ℚ) (cs : List Child) :
    scanChildren cur t ideal cs
      = (cs.find? (fun c => decide (Straddles ideal c))).map (chooseBreak cur t) := by
  induction cs with
  | nil => rfl
  | cons c rest ih =>
    by_cases h : Straddles ideal c
    · have h2 := h
      unfold Straddles at h2
      simp only [scanChildren, List.find?, h, decide_True, Option.map_some', chooseBreak]
      rw [if_pos h2]
      split_ifs <;> rfl
    · have h2 := h
      unfold Straddles at h2
      simp only [scanChildren, List.find?, h, decide_False]
      rw [if_neg h2]
      exact ih

theorem find_first_unique {α : Type} (p q : α → Bool) (l : List α) (e g : α)
    (he : l.find? p = some e) (hg : l.find? q = some g) (hpg : p g = true) (hqe : q e = true) :
    e = g := by
  induction l with
  | nil => simp at he
  | cons a rest ih =>
    by_cases hpa : p a = true
    · have h1 : e = a := by simpa [List.find?, hpa] using he.symm
      subst h1
      simpa [List.find?, hqe] using hg
    · by_cases hqa : q a = true
      · have h1 : g = a := by simpa [List.find?, hqa] using hg.symm
        subst h1
        exact absurd hpg hpa
      · simp only [Bool.not_eq_true] at hpa hqa
        simp only [List.find?, hpa] at he
        simp only [List.find?, hqa] at hg
        exact ih he hg

/-- Description of `nextBreakPoint`: either no child straddles the ideal point and it is
taken, or the first straddling child decides (with the progress guard). -/
theorem nextBreakPoint_cases (cs : List Child) (t cur : ℚ) :
    ((∀ c ∈ cs, ¬ Straddles (cur + t) c) ∧ nextBreakPoint cs t cur = cur + t) ∨
    (∃ e, cs.find? (fun c => decide (Straddles (cur + t) c)) = some e ∧ e ∈ cs ∧
        Straddles (cur + t) e ∧
        ((chooseBreak cur t e ≤ cur ∧ nextBreakPoint cs t cur = cur + t) ∨
         (cur < chooseBreak cur t e ∧ nextBreakPoint cs t cur = chooseBreak cur t e))) := by
  unfold nextBreakPoint
  simp only [scanChildren_eq_find]
  cases hf : cs.find? (fun c => decide (Straddles (cur + t) c)) with
  | none =>
    left
    refine ⟨?_, rfl⟩
    intro c hc
    have := List.find?_eq_none.mp hf c hc
    simpa using this
  | some e =>
    right
    refine ⟨e, rfl, List.mem_of_find?_eq_some hf, ?_, ?_⟩
    · have := List.find?_some hf
      simpa using this
    · by_cases hg : chooseBreak cur t e ≤ cur
      · left
        simp [hg]
      · right
        simp only [Option.map_some', hg, if_false]
        exact ⟨lt_of_not_ge hg, trivial⟩

theorem chooseBreak_cases (cur t : ℚ) (e : Child) :
    (t * (1 / 2) ≤ e.offsetTop - cur ∧ chooseBreak cur t e = e.offsetTop) ∨
    (e.offsetTop - cur < t * (1 / 2) ∧ e.offsetTop + e.offsetHeight - cur ≤ t * (3 / 2) ∧
        chooseBreak cur t e = e.offsetTop + e.offsetHeight) ∨
    (e.offsetTop - cur < t * (1 / 2) ∧ t * (3 / 2) < e.offsetTop + e.offsetHeight - cur ∧
        chooseBreak cur t e = e.offsetTop) := by
  unfold chooseBreak MIN_CONTENT_RATIO MAX_CONTENT_RATIO
  by_cases h1 : e.offsetTop - cur ≥ t * (1 / 2)
  · left
    exact ⟨h1, by rw [if_pos h1]⟩
  · right
    by_cases h2 : e.offsetTop + e.offsetHeight - cur ≤ t * (3 / 2)
    · left
      exact ⟨lt_of_not_ge h1, h2, by rw [if_neg h1, if_pos h2]⟩
    · right
      exact ⟨lt_of_not_ge h1, lt_of_not_ge h2, by rw [if_neg h1, if_neg h2]⟩

/-- Every iteration moves the offset strictly forward. -/
theorem nextBreakPoint_gt (cs : List Child) (t cur : ℚ) (ht : 0 < t) :
    cur < nextBreakPoint cs t cur := by
  rcases nextBreakPoint_cases cs t cur with ⟨_, h⟩ | ⟨e, _, _, _, ⟨_, h⟩ | ⟨h1, h⟩⟩
  · rw [h]; linarith
  · rw [h]; linarith
  · rw [h]; exact h1

/-- No iteration moves the offset by more than `MAX_CONTENT_RATIO * targetHeight`. -/
theorem nextBreakPoint_le (cs : List Child) (t cur : ℚ) (ht : 0 < t) :
    nextBreakPoint cs t cur - cur ≤ MAX_CONTENT_RATIO * t := by
  unfold MAX_CONTENT_RATIO
  rcases nextBreakPoint_cases cs t cur with ⟨_, h⟩ | ⟨e, _, _, hs, ⟨_, h⟩ | ⟨_, h⟩⟩
  · rw [h]; linarith
  · rw [h]; linarith
  · rw [h]
    unfold Straddles at hs
    rcases chooseBreak_cases cur t e with ⟨_, hc⟩ | ⟨_, h2, hc⟩ | ⟨_, _, hc⟩ <;> rw [hc] <;> linarith

/-- When every child ends inside the content, a break point pushed while the loop condition
holds lies inside the content as well. -/
theorem nextBreakPoint_le_total (cs : List Child) (t total cur : ℚ)
    (hin : ∀ c ∈ cs, c.offsetTop + c.offsetHeight ≤ total) (hloop : cur + t < total) :
    nextBreakPoint cs t cur ≤ total := by
  rcases nextBreakPoint_cases cs t cur with ⟨_, h⟩ | ⟨e, _, hmem, hs, ⟨_, h⟩ | ⟨_, h⟩⟩
  · rw [h]; linarith
  · rw [h]; linarith
  · rw [h]
    unfold Straddles at hs
    have := hin e hmem
    rcases chooseBreak_cases cur t e with ⟨_, hc⟩ | ⟨_, h2, hc⟩ | ⟨_, _, hc⟩ <;> rw [hc] <;> linarith

/-- A step shorter than half the target height can only come from the third branch: the
first straddling child starts less than half a target after the offset and is too tall. -/
theorem small_step_inv (cs : List Child) (t cur : ℚ) (ht : 0 < t)
    (hsmall : nextBreakPoint cs t cur - cur < t * (1 / 2)) :
    ∃ e, cs.find? (fun c => decide (Straddles (cur + t) c)) = some e ∧
      nextBreakPoint cs t cur = e.offsetTop ∧ cur < e.offsetTop ∧
      e.offsetTop - cur < t * (1 / 2) ∧ t * (3 / 2) < e.offsetTop + e.offsetHeight - cur := by
  rcases nextBreakPoint_cases cs t cur with ⟨_, h⟩ | ⟨e, hf, _, hs, ⟨_, h⟩ | ⟨hlt, h⟩⟩
  · rw [h] at hsmall; linarith
  · rw [h] at hsmall; linarith
  · unfold Straddles at hs
    rw [h] at hsmall
    rcases chooseBreak_cases cur t e with ⟨h1, hc⟩ | ⟨_, _, hc⟩ | ⟨h1, h2, hc⟩
    · rw [hc] at hsmall; linarith
    · rw [hc] at hsmall; linarith
    · rw [hc] at hlt
      exact ⟨e, hf, by rw [h, hc], hlt, h1, h2⟩

/-- A step shorter than half the target height is followed by a step of at least half
the target height. -/
theorem small_then_big (cs : List Child) (t cur : ℚ) (ht : 0 < t)
    (hsmall : nextBreakPoint cs t cur - cur < t * (1 / 2)) :
    t * (1 / 2) ≤ nextBreakPoint cs t (nextBreakPoint cs t cur) - nextBreakPoint cs t cur := by
  by_contra hcon
  obtain ⟨e, hfe, hbe, hlt, h1, h2⟩ := small_step_inv cs t cur ht hsmall
  obtain ⟨g, hfg, _, hlt2, h3, h4⟩ :=
    small_step_inv cs t (nextBreakPoint cs t cur) ht (lt_of_not_ge hcon)
  rw [hbe] at hfg hlt2 h3 h4
  have hpg : (fun c => decide (Straddles (cur + t) c)) g = true := by
    simp only [decide_eq_true_eq]
    unfold Straddles
    constructor <;> linarith
  have hqe : (fun c => decide (Straddles (e.offsetTop + t) c)) e = true := by
    simp only [decide_eq_true_eq]
    unfold Straddles
    constructor <;> linarith
  have heq := find_first_unique _ _ cs e g hfe hfg hpg hqe
  rw [heq] at hlt2
  exact lt_irrefl _ hlt2

/-- In a container whose children are no taller than the target height and have pairwise
disjoint open spans, the break point of an iteration lies inside no child. -/
theorem nextBreakPoint_not_straddled (cs : List Child) (t cur : ℚ) (ht : 0 < t)
    (hh : ∀ c ∈ cs, c.offsetHeight ≤ t) (hd : cs.Pairwise SpansDisjoint) :
    ∀ c ∈ cs, ¬ Straddles (nextBreakPoint cs t cur) c := by
  have hsymm : ∀ a b : Child, SpansDisjoint a b → SpansDisjoint b a := by
    intro a b hab x hx
    exact hab x ⟨hx.2, hx.1⟩
  have hall : ∀ a ∈ cs, ∀ b ∈ cs, a ≠ b → SpansDisjoint a b := by
    intro a ha b hb hne
    exact hd.forall hsymm ha hb hne
  rcases nextBreakPoint_cases cs t cur with ⟨hn, h⟩ | ⟨e, _, hmem, hs, ⟨hle, h⟩ | ⟨hlt, h⟩⟩
  · rw [h]; exact hn
  · exfalso
    have hhe := hh e hmem
    unfold Straddles at hs
    rcases chooseBreak_cases cur t e with ⟨_, hc⟩ | ⟨_, h2, hc⟩ | ⟨_, _, hc⟩ <;>
      rw [hc] at hle <;> linarith
  · rw [h]
    intro f hf hsf
    have hhe := hh e hmem
    unfold Straddles at hs hsf
    rcases chooseBreak_cases cur t e with ⟨_, hc⟩ | ⟨_, h2, hc⟩ | ⟨h1, h2, hc⟩
    · rw [hc] at hsf
      have hne : e ≠ f := by
        rintro rfl
        exact lt_irrefl _ hsf.1
      refine hall e hmem f hf hne
        ((e.offsetTop + min (e.offsetTop + e.offsetHeight) (f.offsetTop + f.offsetHeight)) / 2) ?_
      unfold Straddles
      rcases min_cases (e.offsetTop + e.offsetHeight) (f.offsetTop + f.offsetHeight) with
        ⟨hm, _⟩ | ⟨hm, _⟩ <;> rw [hm] <;> refine ⟨⟨?_, ?_⟩, ?_, ?_⟩ <;> linarith [hsf.1, hsf.2]
    · rw [hc] at hsf
      have hne : e ≠ f := by
        rintro rfl
        exact lt_irrefl _ hsf.2
      refine hall e hmem f hf hne
        ((max e.offsetTop f.offsetTop + (e.offsetTop + e.offsetHeight)) / 2) ?_
      unfold Straddles
      rcases max_cases e.offsetTop f.offsetTop with
        ⟨hm, _⟩ | ⟨hm, _⟩ <;> rw [hm] <;> refine ⟨⟨?_, ?_⟩, ?_, ?_⟩ <;> linarith [hsf.1, hsf.2]
    · linarith

/-! ### Lemmas on the loop -/

/-- What a finished run of the loop has appended: a chain of iterations starting at the
current offset, whose last offset falsifies the loop condition. -/
theorem mainLoop_trace (cs : List Child) (t total : ℚ) :
    ∀ (fuel : Nat) (cur : ℚ) (acc r : List ℚ), mainLoop cs t total fuel cur acc = some r →
      ∃ s, r = acc ++ s ∧ List.Chain (LoopStep cs t total) cur s ∧
        ¬ ((cur :: s).getLast (List.cons_ne_nil _ _) + t < total) := by
  intro fuel
  induction fuel with
  | zero =>
    intro cur acc r h
    by_cases hc : cur + t < total
    · simp [mainLoop, hc] at h
    · simp only [mainLoop, hc, if_false, Option.some.injEq] at h
      exact ⟨[], by simp [h], List.Chain.nil, by simpa using hc⟩
  | succ n ih =>
    intro cur acc r h
    by_cases hc : cur + t < total
    · simp only [mainLoop, hc, if_true] at h
      obtain ⟨s, hr, hch, hlast⟩ := ih _ _ _ h
      refine ⟨nextBreakPoint cs t cur :: s, by simp [hr], List.Chain.cons ⟨hc, rfl⟩ hch, ?_⟩
      rw [List.getLast_cons_cons]
      exact hlast
    · simp only [mainLoop, hc, if_false, Option.some.injEq] at h
      exact ⟨[], by simp [h], List.Chain.nil, by simpa using hc⟩

theorem mainLoop_fuel_succ (cs : List Child) (t total : ℚ) :
    ∀ (fuel : Nat) (cur : ℚ) (acc r : List ℚ), mainLoop cs t total fuel cur acc = some r →
      mainLoop cs t total (fuel + 1) cur acc = some r := by
  intro fuel
  induction fuel with
  | zero =>
    intro cur acc r h
    by_cases hc : cur + t < total
    · simp [mainLoop, hc] at h
    · simp only [mainLoop, hc, if_false] at h ⊢
      exact h
  | succ n ih =>
    intro cur acc r h
    by_cases hc : cur + t < total
    · rw [mainLoop, if_pos hc] at h
      rw [mainLoop, if_pos hc]
      exact ih _ _ _ h
    · rw [mainLoop, if_neg hc] at h
      rw [mainLoop, if_neg hc]
      exact h

/-- A result obtained within some budget is obtained within every larger budget. -/
theorem mainLoop_fuel_le (cs : List Child) (t total : ℚ) (f g : Nat) (hfg : f ≤ g)
    (cur : ℚ) (acc r : List ℚ) (h : mainLoop cs t total f cur acc = some r) :
    mainLoop cs t total g cur acc = some r := by
  induction g, hfg using Nat.le_induction with
  | base => exact h
  | succ n _ ih => exact mainLoop_fuel_succ cs t total n cur acc r ih

theorem mainLoop_exit (cs : List Child) (t total : ℚ) (fuel : Nat) (cur : ℚ) (acc : List ℚ)
    (hc : ¬ cur + t < total) : mainLoop cs t total fuel cur acc = some acc := by
  cases fuel <;> simp [mainLoop, hc]

/-- Termination with an explicit count: when at most `k` half target heights remain before
the loop condition fails, `2 * k + 2` iterations are enough, and `2 * k + 1` when the
coming step is at least half a target height. -/
theorem mainLoop_terminates_aux (cs : List Child) (t total : ℚ) (ht : 0 < t) (k : Nat) :
    (∀ (cur : ℚ) (acc : List ℚ) (fuel : Nat), total - t - cur ≤ (k : ℚ) * (t * (1 / 2)) →
        t * (1 / 2) ≤ nextBreakPoint cs t cur - cur → 2 * k + 1 ≤ fuel →
        (mainLoop cs t total fuel cur acc).isSome = true) ∧
    (∀ (cur : ℚ) (acc : List ℚ) (fuel : Nat), total - t - cur ≤ (k : ℚ) * (t * (1 / 2)) →
        2 * k + 2 ≤ fuel → (mainLoop cs t total fuel cur acc).isSome = true) := by
  induction k with
  | zero =>
    have hexit : ∀ (cur : ℚ) (acc : List ℚ) (fuel : Nat),
        total - t - cur ≤ ((0 : Nat) : ℚ) * (t * (1 / 2)) →
        (mainLoop cs t total fuel cur acc).isSome = true := by
      intro cur acc fuel hrem
      have hc : ¬ cur + t < total := by
        simp only [Nat.cast_zero, zero_mul] at hrem
        intro hlt
        linarith
      rw [mainLoop_exit cs t total fuel cur acc hc]
      rfl
    exact ⟨fun cur acc fuel hrem _ _ => hexit cur acc fuel hrem,
      fun cur acc fuel hrem _ => hexit cur acc fuel hrem⟩
  | succ k ih =>
    have hbig : ∀ (cur : ℚ) (acc : List ℚ) (fuel : Nat),
        total - t - cur ≤ ((k + 1 : Nat) : ℚ) * (t * (1 / 2)) →
        t * (1 / 2) ≤ nextBreakPoint cs t cur - cur → 2 * (k + 1) + 1 ≤ fuel →
        (mainLoop cs t total fuel cur acc).isSome = true := by
      intro cur acc fuel hrem hstep hfuel
      by_cases hc : cur + t < total
      · obtain ⟨f, rfl⟩ : ∃ f, fuel = f + 1 := ⟨fuel - 1, by omega⟩
        rw [mainLoop, if_pos hc]
        apply ih.2
        · push_cast at hrem ⊢
          linarith
        · omega
      · rw [mainLoop_exit cs t total fuel cur acc hc]
        rfl
    refine ⟨hbig, ?_⟩
    intro cur acc fuel hrem hfuel
    by_cases hstep : t * (1 / 2) ≤ nextBreakPoint cs t cur - cur
    · exact hbig cur acc fuel hrem hstep (by omega)
    · by_cases hc : cur + t < total
      · obtain ⟨f, rfl⟩ : ∃ f, fuel = f + 1 := ⟨fuel - 1, by omega⟩
        rw [mainLoop, if_pos hc]
        apply hbig
        · have := nextBreakPoint_gt cs t cur ht
          linarith
        · exact small_then_big cs t cur ht (lt_of_not_ge hstep)
        · omega
      · rw [mainLoop_exit cs t total fuel cur acc hc]
        rfl

/-- The loop started at offset 0 ends within `iterationBound` iterations. -/
theorem mainLoop_terminates (cs : List Child) (t total : ℚ) (ht : 0 < t) (acc : List ℚ)
    (fuel : Nat) (hfuel : iterationBound t total ≤ fuel) :
    (mainLoop cs t total fuel 0 acc).isSome = true := by
  apply (mainLoop_terminates_aux cs t total ht ⌈2 * (total - t) / t⌉.toNat).2 0 acc fuel
  · have h1 : 2 * (total - t) / t ≤ ((⌈2 * (total - t) / t⌉ : ℤ) : ℚ) := Int.le_ceil _
    have h2 : ((⌈2 * (total - t) / t⌉ : ℤ) : ℚ) ≤ ((⌈2 * (total - t) / t⌉.toNat : ℕ) : ℚ) := by
      have := Int.self_le_toNat ⌈2 * (total - t) / t⌉
      exact_mod_cast this
    have h3 : 2 * (total - t) / t ≤ ((⌈2 * (total - t) / t⌉.toNat : ℕ) : ℚ) := le_trans h1 h2
    rw [div_le_iff₀ ht] at h3
    linarith
  · exact hfuel

/-- Every run: there is one result, returned for every budget from `iterationBound` on, and
it is either the fixed-interval list (no children) or 0 followed by a chain of loop
iterations that ends where the loop condition fails. -/
theorem findOptimalBreakPoints_run (cs : List Child) (t total : ℚ) (ht : 0 < t) :
    ∃ r, (∀ fuel, iterationBound t total ≤ fuel → findOptimalBreakPoints fuel cs t total = some r) ∧
      ((cs = [] ∧ r = fixedIntervals t total) ∨
       (cs ≠ [] ∧ ∃ s, r = 0 :: s ∧ List.Chain (LoopStep cs t total) 0 s ∧
          ¬ ((0 :: s).getLast (List.cons_ne_nil _ _) + t < total))) := by
  cases cs with
  | nil =>
    exact ⟨fixedIntervals t total, fun fuel _ => by simp [findOptimalBreakPoints], Or.inl ⟨rfl, rfl⟩⟩
  | cons c cs =>
    have hsome := mainLoop_terminates (c :: cs) t total ht [0] _ (le_refl _)
    obtain ⟨r, hr⟩ := Option.isSome_iff_exists.mp hsome
    refine ⟨r, ?_, Or.inr ⟨by simp, ?_⟩⟩
    · intro fuel hfuel
      simp only [findOptimalBreakPoints, List.length_cons, Nat.add_one_ne_zero, if_false]
      exact mainLoop_fuel_le _ t total _ fuel hfuel 0 [0] r hr
    · obtain ⟨s, hs, hch, hlast⟩ := mainLoop_trace _ t total _ 0 [0] r hr
      exact ⟨s, by simpa using hs, hch, hlast⟩

theorem chain_forall_mem {α : Type} {R : α → α → Prop} {Q : α → Prop}
    (hRQ : ∀ a b, R a b → Q b) : ∀ (a : α) (s : List α), List.Chain R a s → ∀ b ∈ s, Q b := by
  intro a s
  induction s generalizing a with
  | nil => intro _ b hb; simp at hb
  | cons x s ih =>
    intro h b hb
    rw [List.chain_cons] at h
    rcases List.mem_cons.mp hb with rfl | hb
    · exact hRQ _ _ h.1
    · exact ih x h.2 b hb

theorem chain'_getElem {α : Type} {R : α → α → Prop} {l : List α} (h : List.Chain' R l)
    (i : Nat) (hi : i + 1 < l.length) : R (l[i]) (l[i + 1]) := by
  have := List.chain'_iff_get.mp h i (by omega)
  simpa using this

theorem getLast_mem_or {α : Type} (a : α) (s : List α) :
    (a :: s).getLast (List.cons_ne_nil _ _) = a ∨ (a :: s).getLast (List.cons_ne_nil _ _) ∈ s := by
  cases s with
  | nil => left; rfl
  | cons b s =>
    right
    rw [List.getLast_cons_cons]
    exact List.getLast_mem _

/-! ### Lemmas on the fixed-interval fallback -/

theorem fixedIntervals_length (t total : ℚ) :
    (fixedIntervals t total).length = ⌈total / t⌉.toNat - 1 + 1 := by
  simp [fixedIntervals]

theorem fixedIntervals_getElem (t total : ℚ) (i : Nat) (h : i < (fixedIntervals t total).length) :
    (fixedIntervals t total)[i] = (i : ℚ) * t := by
  cases i with
  | zero => simp [fixedIntervals]
  | succ j =>
    simp only [fixedIntervals, List.getElem_cons_succ, List.getElem_map, List.getElem_range']
    push_cast
    ring

theorem fixedIntervals_getLast (t total : ℚ) :
    (fixedIntervals t total).getLast? = some (((⌈total / t⌉.toNat - 1 : ℕ) : ℚ) * t) := by
  have hne : fixedIntervals t total ≠ [] := by simp [fixedIntervals]
  rw [List.getLast?_eq_getLast _ hne, List.getLast_eq_getElem]
  rw [fixedIntervals_getElem]
  simp [fixedIntervals_length]

/-- The number of images covers the content: `totalHeight ≤ numImages * targetHeight`. -/
theorem total_le_numImages_mul (t total : ℚ) (ht : 0 < t) :
    total ≤ ((⌈total / t⌉.toNat : ℕ) : ℚ) * t := by
  have h1 : total / t ≤ ((⌈total / t⌉ : ℤ) : ℚ) := Int.le_ceil _
  have h2 : ((⌈total / t⌉ : ℤ) : ℚ) ≤ ((⌈total / t⌉.toNat : ℕ) : ℚ) := by
    have := Int.self_le_toNat ⌈total / t⌉
    exact_mod_cast this
  have h3 := le_trans h1 h2
  rwa [div_le_iff₀ ht] at h3

/-- The last fixed-interval cut starts before the end of the content. -/
theorem pred_numImages_mul_le (t total : ℚ) (ht : 0 < t) (hT : 0 ≤ total) :
    ((⌈total / t⌉.toNat - 1 : ℕ) : ℚ) * t ≤ total := by
  by_cases hn : ⌈total / t⌉.toNat - 1 = 0
  · rw [hn]; simpa using hT
  · have hpos : 0 < ⌈total / t⌉ := by
      by_contra hle
      have : ⌈total / t⌉.toNat = 0 := Int.toNat_eq_zero.mpr (not_lt.mp hle)
      omega
    have hz : ((⌈total / t⌉.toNat - 1 : ℕ) : ℤ) = ⌈total / t⌉ - 1 := by
      have := Int.toNat_of_nonneg hpos.le
      omega
    have hlt : (((⌈total / t⌉.toNat - 1 : ℕ) : ℤ) : ℚ) < total / t := by
      rw [← Int.lt_ceil, hz]
      omega
    rw [lt_div_iff₀ ht] at hlt
    have : (((⌈total / t⌉.toNat - 1 : ℕ) : ℤ) : ℚ) = ((⌈total / t⌉.toNat - 1 : ℕ) : ℚ) := by
      norm_cast
    rw [this] at hlt
    exact hlt.le

/-! ### Claims on `findOptimalBreakPoints` -/

/-- C1: for every `targetHeight > 0`, every `totalHeight ≥ 0` and every list of children,
`findOptimalBreakPoints` returns an array whose first entry is 0 and which is strictly
ascending, `result[i] < result[i+1]` for every valid `i`. -/
theorem findOptimalBreakPoints_zero_first_strictly_ascending (children : List Child)
    (targetHeight totalHeight : ℚ) (ht : 0 < targetHeight) (_hT : 0 ≤ totalHeight) :
    ∃ r, (∀ fuel, iterationBound targetHeight totalHeight ≤ fuel →
            findOptimalBreakPoints fuel children targetHeight totalHeight = some r) ∧
      r.head? = some 0 ∧ ∀ (i : Nat) (h : i + 1 < r.length), r[i] < r[i + 1] := by
  obtain ⟨r, hr, hshape⟩ := findOptimalBreakPoints_run children targetHeight totalHeight ht
  refine ⟨r, hr, ?_⟩
  rcases hshape with ⟨_, rfl⟩ | ⟨_, s, rfl, hch, _⟩
  · refine ⟨by simp [fixedIntervals], ?_⟩
    intro i h
    rw [fixedIntervals_getElem, fixedIntervals_getElem]
    push_cast
    linarith
  · refine ⟨rfl, ?_⟩
    have hlt : List.Chain' (fun a b : ℚ => a < b) (0 :: s) := by
      refine List.Chain.imp ?_ hch
      rintro a b ⟨_, rfl⟩
      exact nextBreakPoint_gt children targetHeight a ht
    intro i h
    exact chain'_getElem hlt i h

theorem findOptimalBreakPoints_zero_first_strictly_ascending_witness :
    (0 : ℚ) < 75 ∧ (0 : ℚ) ≤ 200 ∧
    ∃ r, (∀ fuel, iterationBound 75 200 ≤ fuel →
            findOptimalBreakPoints fuel [⟨0, 50⟩, ⟨50, 50⟩, ⟨100, 50⟩, ⟨150, 50⟩] 75 200 = some r) ∧
      r.head? = some 0 ∧ ∀ (i : Nat) (h : i + 1 < r.length), r[i] < r[i + 1] :=
  ⟨by norm_num, by norm_num,
    findOptimalBreakPoints_zero_first_strictly_ascending
      [⟨0, 50⟩, ⟨50, 50⟩, ⟨100, 50⟩, ⟨150, 50⟩] 75 200 (by norm_num) (by norm_num)⟩

/-- C2: for every `targetHeight > 0` and every list of children, if
`totalHeight ≤ targetHeight` then `findOptimalBreakPoints` returns exactly `[0]`, on the
path without children and on the path with children, whatever the iteration budget. -/
theorem findOptimalBreakPoints_fits_in_target (children : List Child)
    (targetHeight totalHeight : ℚ) (ht : 0 < targetHeight) (hfit : totalHeight ≤ targetHeight)
    (fuel : Nat) :
    findOptimalBreakPoints fuel children targetHeight totalHeight = some [0] := by
  unfold findOptimalBreakPoints
  split_ifs with hlen
  · have hceil : ⌈totalHeight / targetHeight⌉ ≤ 1 := by
      rw [Int.ceil_le]
      rw [div_le_iff₀ ht]
      simpa using hfit
    have hn : ⌈totalHeight / targetHeight⌉.toNat - 1 = 0 := by omega
    simp [fixedIntervals, hn]
  · exact mainLoop_exit children targetHeight totalHeight fuel 0 [0] (by simpa using hfit)

theorem findOptimalBreakPoints_fits_in_target_witness :
    (0 : ℚ) < 100 ∧ (50 : ℚ) ≤ 100 ∧
    findOptimalBreakPoints 0 [⟨0, 50⟩] 100 50 = some [0] ∧
    findOptimalBreakPoints 0 [] 100 50 = some [0] :=
  ⟨by norm_num, by norm_num,
    findOptimalBreakPoints_fits_in_target [⟨0, 50⟩] 100 50 (by norm_num) (by norm_num) 0,
    findOptimalBreakPoints_fits_in_target [] 100 50 (by norm_num) (by norm_num) 0⟩

/-- The fallback in exact arithmetic: for a container without children and every
`targetHeight > 0` the result is `[0, targetHeight, ..., (n-1) * targetHeight]` with `n` the
ceiling of the exact quotient `totalHeight / targetHeight`, and just `[0]` when `n ≤ 1`.
Target 100 and total 250 give `[0, 100, 200]`. -/
theorem findOptimalBreakPoints_no_children (targetHeight totalHeight : ℚ)
    (_ht : 0 < targetHeight) (_hT : 0 ≤ totalHeight) :
    (∃ r, (∀ fuel, findOptimalBreakPoints fuel [] targetHeight totalHeight = some r) ∧
      (r.length : ℤ) = max 1 ⌈totalHeight / targetHeight⌉ ∧
      ∀ (i : Nat) (h : i < r.length), r[i] = (i : ℚ) * targetHeight) ∧
    ∀ fuel, findOptimalBreakPoints fuel [] 100 250 = some [0, 100, 200] := by
  refine ⟨⟨fixedIntervals targetHeight totalHeight, fun fuel => by simp [findOptimalBreakPoints],
    ?_, fun i h => fixedIntervals_getElem targetHeight totalHeight i h⟩, ?_⟩
  · rw [fixedIntervals_length]
    rcases le_total 1 ⌈totalHeight / targetHeight⌉ with h | h
    · rw [max_eq_right h]
      have := Int.toNat_of_nonneg (le_trans zero_le_one h)
      omega
    · rw [max_eq_left h]
      omega
  · intro fuel
    have h : ⌈(250 : ℚ) / 100⌉ = 3 := by
      rw [Int.ceil_eq_iff]
      norm_num
    simp only [findOptimalBreakPoints, List.length_nil, if_true, fixedIntervals, h]
    norm_num [List.range']

theorem findOptimalBreakPoints_no_children_witness :
    (0 : ℚ) < 100 ∧ (0 : ℚ) ≤ 250 ∧
    ((∃ r, (∀ fuel, findOptimalBreakPoints fuel [] 100 250 = some r) ∧
      (r.length : ℤ) = max 1 ⌈(250 : ℚ) / 100⌉ ∧
      ∀ (i : Nat) (h : i < r.length), r[i] = (i : ℚ) * 100) ∧
    ∀ fuel, findOptimalBreakPoints fuel [] 100 250 = some [0, 100, 200]) :=
  ⟨by norm_num, by norm_num, findOptimalBreakPoints_no_children 100 250 (by norm_num) (by norm_num)⟩

/-- C4, as stated, fails: with children `{0,10}`, `{10,100}`, target 100 and total 105 the
second child straddles 100 and the loop cuts after it, at 110, beyond the total height. -/
theorem findOptimalBreakPoints_last_exceeds_total :
    (0 : ℚ) < 100 ∧ (0 : ℚ) ≤ 105 ∧
    findOptimalBreakPoints (iterationBound 100 105) [⟨0, 10⟩, ⟨10, 100⟩] 100 105 = some [0, 110] ∧
    [(0 : ℚ), 110].getLast? = some 110 ∧ ¬ ((110 : ℚ) ≤ 105) := by
  refine ⟨by norm_num, by norm_num, by decide!, rfl, by norm_num⟩

/-- C4, amended: for every `targetHeight > 0`, every `totalHeight ≥ 0` and every list of
children each of which ends inside the content (`offsetTop + offsetHeight ≤ totalHeight`),
the last entry of the array returned by `findOptimalBreakPoints` is at most `totalHeight`. -/
theorem findOptimalBreakPoints_last_le_total (children : List Child)
    (targetHeight totalHeight : ℚ) (ht : 0 < targetHeight) (hT : 0 ≤ totalHeight)
    (hin : ∀ c ∈ children, c.offsetTop + c.offsetHeight ≤ totalHeight) :
    ∃ r, (∀ fuel, iterationBound targetHeight totalHeight ≤ fuel →
            findOptimalBreakPoints fuel children targetHeight totalHeight = some r) ∧
      ∃ last, r.getLast? = some last ∧ last ≤ totalHeight := by
  obtain ⟨r, hr, hshape⟩ := findOptimalBreakPoints_run children targetHeight totalHeight ht
  refine ⟨r, hr, ?_⟩
  rcases hshape with ⟨_, rfl⟩ | ⟨_, s, rfl, hch, _⟩
  · exact ⟨_, fixedIntervals_getLast targetHeight totalHeight,
      pred_numImages_mul_le targetHeight totalHeight ht hT⟩
  · refine ⟨_, List.getLast?_eq_getLast _ (List.cons_ne_nil _ _), ?_⟩
    rcases getLast_mem_or (0 : ℚ) s with h0 | hmem
    · rw [h0]; exact hT
    · have hgood : ∀ x y : ℚ, LoopStep children targetHeight totalHeight x y →
          y ≤ totalHeight := by
        rintro x y ⟨hloop, rfl⟩
        exact nextBreakPoint_le_total children targetHeight totalHeight x hin hloop
      exact chain_forall_mem hgood 0 s hch _ hmem

theorem findOptimalBreakPoints_last_le_total_witness :
    (0 : ℚ) < 40 ∧ (0 : ℚ) ≤ 100 ∧
    (∀ c ∈ [(⟨0, 50⟩ : Child), ⟨50, 50⟩], c.offsetTop + c.offsetHeight ≤ 100) ∧
    ∃ r, (∀ fuel, iterationBound 40 100 ≤ fuel →
            findOptimalBreakPoints fuel [⟨0, 50⟩, ⟨50, 50⟩] 40 100 = some r) ∧
      ∃ last, r.getLast? = some last ∧ last ≤ 100 :=
  ⟨by norm_num, by norm_num, by simp; norm_num,
    findOptimalBreakPoints_last_le_total [⟨0, 50⟩, ⟨50, 50⟩] 40 100 (by norm_num) (by norm_num)
      (by simp; norm_num)⟩

/-- C5: `findOptimalBreakPoints` never cuts through a child when the children are well
formed: for every `targetHeight > 0`, `totalHeight ≥ 0` and every list of children with
`offsetTop ≥ 0`, `0 ≤ offsetHeight ≤ targetHeight` and pairwise disjoint open spans, no returned
break point `b` satisfies `offsetTop < b < offsetTop + offsetHeight` for any child. -/
theorem findOptimalBreakPoints_never_cuts_child (children : List Child)
    (targetHeight totalHeight : ℚ) (ht : 0 < targetHeight) (_hT : 0 ≤ totalHeight)
    (hwf : ∀ c ∈ children, 0 ≤ c.offsetTop ∧ 0 ≤ c.offsetHeight ∧ c.offsetHeight ≤ targetHeight)
    (hdisj : children.Pairwise SpansDisjoint) :
    ∃ r, (∀ fuel, iterationBound targetHeight totalHeight ≤ fuel →
            findOptimalBreakPoints fuel children targetHeight totalHeight = some r) ∧
      ∀ b ∈ r, ∀ c ∈ children, ¬ (c.offsetTop < b ∧ b < c.offsetTop + c.offsetHeight) := by
  obtain ⟨r, hr, hshape⟩ := findOptimalBreakPoints_run children targetHeight totalHeight ht
  refine ⟨r, hr, ?_⟩
  rcases hshape with ⟨rfl, _⟩ | ⟨_, s, rfl, hch, _⟩
  · intro b _ c hc
    simp at hc
  · intro b hb c hc
    rcases List.mem_cons.mp hb with rfl | hb
    · intro h
      have := (hwf c hc).1
      linarith [h.1]
    · have hgood : ∀ x y : ℚ, LoopStep children targetHeight totalHeight x y →
          ∀ c ∈ children, ¬ Straddles y c := by
        rintro x y ⟨_, rfl⟩
        exact nextBreakPoint_not_straddled children targetHeight x ht
          (fun c hc => (hwf c hc).2.2) hdisj
      exact chain_forall_mem hgood 0 s hch b hb c hc

theorem findOptimalBreakPoints_never_cuts_child_witness :
    (0 : ℚ) < 100 ∧ (0 : ℚ) ≤ 250 ∧
    (∀ c ∈ [(⟨0, 80⟩ : Child), ⟨80, 30⟩, ⟨110, 90⟩],
      0 ≤ c.offsetTop ∧ 0 ≤ c.offsetHeight ∧ c.offsetHeight ≤ 100) ∧
    [(⟨0, 80⟩ : Child), ⟨80, 30⟩, ⟨110, 90⟩].Pairwise SpansDisjoint ∧
    ∃ r, (∀ fuel, iterationBound 100 250 ≤ fuel →
            findOptimalBreakPoints fuel [⟨0, 80⟩, ⟨80, 30⟩, ⟨110, 90⟩] 100 250 = some r) ∧
      ∀ b ∈ r, ∀ c ∈ [(⟨0, 80⟩ : Child), ⟨80, 30⟩, ⟨110, 90⟩],
        ¬ (c.offsetTop < b ∧ b < c.offsetTop + c.offsetHeight) :=
  have hwf : ∀ c ∈ [(⟨0, 80⟩ : Child), ⟨80, 30⟩, ⟨110, 90⟩],
      0 ≤ c.offsetTop ∧ 0 ≤ c.offsetHeight ∧ c.offsetHeight ≤ 100 := by
    simp; norm_num
  have hdisj : [(⟨0, 80⟩ : Child), ⟨80, 30⟩, ⟨110, 90⟩].Pairwise SpansDisjoint := by
    simp only [List.pairwise_cons, List.mem_cons, List.mem_singleton, forall_eq_or_imp, forall_eq,
      List.not_mem_nil, false_implies, implies_true, List.Pairwise.nil, and_true, SpansDisjoint,
      Straddles]
    refine ⟨⟨?_, ?_⟩, ?_⟩ <;> intro x hx <;> linarith [hx.1.1, hx.1.2, hx.2.1, hx.2.2]
  ⟨by norm_num, by norm_num, hwf, hdisj,
    findOptimalBreakPoints_never_cuts_child [⟨0, 80⟩, ⟨80, 30⟩, ⟨110, 90⟩] 100 250
      (by norm_num) (by norm_num) hwf hdisj⟩

/-- Slice bounds in exact arithmetic: for every `targetHeight > 0`, `totalHeight ≥ 0` and
every list of children, each gap `result[i+1] - result[i]` is at most `1.5 * targetHeight`,
and the implicit last slice satisfies `totalHeight - last(result) ≤ targetHeight`. -/
theorem findOptimalBreakPoints_slice_bounds (children : List Child)
    (targetHeight totalHeight : ℚ) (ht : 0 < targetHeight) (_hT : 0 ≤ totalHeight) :
    ∃ r, (∀ fuel, iterationBound targetHeight totalHeight ≤ fuel →
            findOptimalBreakPoints fuel children targetHeight totalHeight = some r) ∧
      (∀ (i : Nat) (h : i + 1 < r.length), r[i + 1] - r[i] ≤ MAX_CONTENT_RATIO * targetHeight) ∧
      ∃ last, r.getLast? = some last ∧ totalHeight - last ≤ targetHeight := by
  obtain ⟨r, hr, hshape⟩ := findOptimalBreakPoints_run children targetHeight totalHeight ht
  refine ⟨r, hr, ?_⟩
  rcases hshape with ⟨_, rfl⟩ | ⟨_, s, rfl, hch, hlast⟩
  · refine ⟨?_, _, fixedIntervals_getLast targetHeight totalHeight, ?_⟩
    · intro i h
      rw [fixedIntervals_getElem, fixedIntervals_getElem]
      unfold MAX_CONTENT_RATIO
      push_cast
      linarith
    · have h1 := total_le_numImages_mul targetHeight totalHeight ht
      have h2 : ((⌈totalHeight / targetHeight⌉.toNat : ℕ) : ℚ)
          ≤ ((⌈totalHeight / targetHeight⌉.toNat - 1 : ℕ) : ℚ) + 1 := by
        have : ⌈totalHeight / targetHeight⌉.toNat ≤ ⌈totalHeight / targetHeight⌉.toNat - 1 + 1 := by
          omega
        exact_mod_cast this
      nlinarith
  · refine ⟨?_, _, List.getLast?_eq_getLast _ (List.cons_ne_nil _ _), ?_⟩
    · have hgap : List.Chain' (fun a b : ℚ => b - a ≤ MAX_CONTENT_RATIO * targetHeight) (0 :: s) := by
        refine List.Chain.imp ?_ hch
        rintro a b ⟨_, rfl⟩
        exact nextBreakPoint_le children targetHeight a ht
      intro i h
      exact chain'_getElem hgap i h
    · linarith [not_lt.mp hlast]

theorem findOptimalBreakPoints_slice_bounds_witness :
    (0 : ℚ) < 100 ∧ (0 : ℚ) ≤ 200 ∧
    ∃ r, (∀ fuel, iterationBound 100 200 ≤ fuel →
            findOptimalBreakPoints fuel [⟨0, 10⟩, ⟨10, 100⟩] 100 200 = some r) ∧
      (∀ (i : Nat) (h : i + 1 < r.length), r[i + 1] - r[i] ≤ MAX_CONTENT_RATIO * 100) ∧
      ∃ last, r.getLast? = some last ∧ 200 - last ≤ 100 :=
  ⟨by norm_num, by norm_num,
    findOptimalBreakPoints_slice_bounds [⟨0, 10⟩, ⟨10, 100⟩] 100 200 (by norm_num) (by norm_num)⟩

/-- C7: for every `targetHeight > 0`, every `totalHeight` and every list of children (empty,
with zero heights, overlapping or out of order), `findOptimalBreakPoints` terminates and
returns an array: every iteration budget from `iterationBound` on yields the same result;
and every iteration of the main loop strictly increases `currentOffset`. -/
theorem findOptimalBreakPoints_terminates (children : List Child)
    (targetHeight totalHeight : ℚ) (ht : 0 < targetHeight) :
    (∃ r, ∀ fuel, iterationBound targetHeight totalHeight ≤ fuel →
            findOptimalBreakPoints fuel children targetHeight totalHeight = some r) ∧
    ∀ currentOffset : ℚ, currentOffset < nextBreakPoint children targetHeight currentOffset := by
  obtain ⟨r, hr, _⟩ := findOptimalBreakPoints_run children targetHeight totalHeight ht
  exact ⟨⟨r, hr⟩, fun cur => nextBreakPoint_gt children targetHeight cur ht⟩

theorem findOptimalBreakPoints_terminates_witness :
    (0 : ℚ) < 100 ∧
    ((∃ r, ∀ fuel, iterationBound 100 150 ≤ fuel →
            findOptimalBreakPoints fuel [⟨0, 0⟩, ⟨0, 100⟩] 100 150 = some r) ∧
    ∀ currentOffset : ℚ, currentOffset < nextBreakPoint [⟨0, 0⟩, ⟨0, 100⟩] 100 currentOffset) :=
  ⟨by norm_num, findOptimalBreakPoints_terminates [⟨0, 0⟩, ⟨0, 100⟩] 100 150 (by norm_num)⟩

/-! ### Lemmas on the matcher -/

/-- On input free of a class that the continuation cannot do without, a greedy repetition
fails. -/
theorem greedy_none {R : Type} (p : Nat → Bool) (k : List Nat → List Nat → Option R)
    (q : Nat → Bool) (hk : ∀ cur rest, (∀ c ∈ rest, q c = false) → k cur rest = none) :
    ∀ (s cur : List Nat), (∀ c ∈ s, q c = false) → greedy p k cur s = none := by
  intro s
  induction s with
  | nil => intro cur h; exact hk cur [] h
  | cons c s ih =>
    intro cur h
    have hs : ∀ d ∈ s, q d = false := fun d hd => h d (List.mem_cons_of_mem _ hd)
    unfold greedy
    split_ifs
    · rw [ih _ hs]
      exact hk cur (c :: s) h
    · exact hk cur (c :: s) h

/-- A greedy repetition keeps the longest run for which the continuation succeeds. -/
theorem greedy_append {R : Type} (p : Nat → Bool) (k : List Nat → List Nat → Option R) (r : R) :
    ∀ (u cur s : List Nat), (∀ c ∈ u, p c = true) → greedy p k (cur ++ u) s = some r →
      greedy p k cur (u ++ s) = some r := by
  intro u
  induction u with
  | nil => intro cur s _ h; simpa using h
  | cons c u ih =>
    intro cur s hu h
    have hc : p c = true := hu c (List.mem_cons_self _ _)
    have hrest : ∀ d ∈ u, p d = true := fun d hd => hu d (List.mem_cons_of_mem _ hd)
    have h2 : greedy p k (cur ++ [c]) (u ++ s) = some r := by
      apply ih _ _ hrest
      simpa using h
    rw [List.cons_append]
    unfold greedy
    rw [if_pos hc, h2]

/-- At a code unit outside the class the repetition stops and the continuation runs. -/
theorem greedy_stop {R : Type} (p : Nat → Bool) (k : List Nat → List Nat → Option R)
    (cur : List Nat) (c : Nat) (s : List Nat) (hc : p c = false) :
    greedy p k cur (c :: s) = k cur (c :: s) := by
  simp [greedy, hc]

/-- A pattern that contains a once-only class `q` fails on input free of `q`. -/
theorem matchHere_none (q : Nat → Bool) (post : List Tok) :
    ∀ (pre : List Tok) (s : List Nat) (done : List (List Nat)) (cur : List Nat),
      (∀ c ∈ s, q c = false) → matchHere (pre ++ Tok.one q :: post) s done cur = none := by
  intro pre
  induction pre with
  | nil =>
    intro s done cur h
    cases s with
    | nil => rfl
    | cons c s =>
      have hc : q c = false := h c (List.mem_cons_self _ _)
      simp [matchHere, hc]
  | cons tok pre ih =>
    intro s done cur h
    cases tok with
    | gopen => exact ih s done [] h
    | gclose => exact ih s (done ++ [cur]) [] h
    | one p =>
      cases s with
      | nil => rfl
      | cons c s =>
        have hs : ∀ d ∈ s, q d = false := fun d hd => h d (List.mem_cons_of_mem _ hd)
        simp only [List.cons_append, matchHere]
        split_ifs
        · exact ih s done _ hs
        · rfl
    | star p =>
      simp only [List.cons_append, matchHere]
      exact greedy_none p _ q (fun cur2 rest hr => ih rest done cur2 hr) s cur h
    | plus p =>
      cases s with
      | nil => rfl
      | cons c s =>
        have hs : ∀ d ∈ s, q d = false := fun d hd => h d (List.mem_cons_of_mem _ hd)
        simp only [List.cons_append, matchHere]
        split_ifs
        · exact greedy_none p _ q (fun cur2 rest hr => ih rest done cur2 hr) s _ hs
        · rfl

/-- A replacement whose pattern needs a class that the text lacks changes nothing. -/
theorem replaceAll_eq_self (q : Nat → Bool) (pre post : List Tok) (tpl : List Repl) :
    ∀ s : List Nat, (∀ c ∈ s, q c = false) →
      replaceAll (pre ++ Tok.one q :: post) tpl s = s := by
  intro s
  unfold replaceAll
  induction s with
  | nil =>
    intro h
    simp [replaceFrom, matchHere_none q post pre [] [] [] h]
  | cons c s ih =>
    intro h
    have hs : ∀ d ∈ s, q d = false := fun d hd => h d (List.mem_cons_of_mem _ hd)
    simp [replaceFrom, matchHere_none q post pre (c :: s) [] [] h, ih hs]

theorem replaceFrom_skip_all (pat : List Tok) (tpl : List Repl) :
    ∀ s : List Nat, replaceFrom pat tpl s.length s = replaceFrom pat tpl 0 [] := by
  intro s
  induction s with
  | nil => rfl
  | cons c s ih => simpa [replaceFrom] using ih

/-- A match of the whole text is replaced by its expansion. -/
theorem replaceAll_whole (pat : List Tok) (tpl : List Repl) (c : Nat) (s : List Nat)
    (caps : List (List Nat)) (hm : matchHere pat (c :: s) [] [] = some (caps, []))
    (hend : matchHere pat [] [] [] = none) :
    replaceAll pat tpl (c :: s) = expand tpl caps := by
  unfold replaceAll
  simp only [replaceFrom, hm, List.length_cons, List.length_nil, Nat.sub_zero,
    Nat.add_one_ne_zero, if_false, Nat.add_sub_cancel]
  rw [replaceFrom_skip_all]
  simp [replaceFrom, hend]

/-- A text with a code unit in the class `p` splits at the last such code unit. -/
theorem exists_last_split (p : Nat → Bool) :
    ∀ x : List Nat, (∃ c ∈ x, p c = true) →
      ∃ u w v, x = u ++ w :: v ∧ p w = true ∧ ∀ c ∈ v, p c = false := by
  intro x
  induction x with
  | nil => rintro ⟨c, hc, _⟩; simp at hc
  | cons a x ih =>
    intro h
    by_cases hx : ∃ c ∈ x, p c = true
    · obtain ⟨u, w, v, rfl, hw, hv⟩ := ih hx
      exact ⟨a :: u, w, v, rfl, hw, hv⟩
    · have hv : ∀ c ∈ x, p c = false := by
        intro c hc
        by_contra hne
        exact hx ⟨c, hc, by simpa using hne⟩
      obtain ⟨c, hc, hpc⟩ := h
      rcases List.mem_cons.mp hc with rfl | hc
      · exact ⟨[], c, x, rfl, hpc, hv⟩
      · rw [hv c hc] at hpc
        cases hpc

theorem matchHere_one_pos (p : Nat → Bool) (ts : List Tok) (c : Nat) (s : List Nat)
    (done : List (List Nat)) (cur : List Nat) (h : p c = true) :
    matchHere (Tok.one p :: ts) (c :: s) done cur = matchHere ts s done (cur ++ [c]) := by
  simp [matchHere, h]

theorem matchHere_one_neg (p : Nat → Bool) (ts : List Tok) (c : Nat) (s : List Nat)
    (done : List (List Nat)) (cur : List Nat) (h : p c = false) :
    matchHere (Tok.one p :: ts) (c :: s) done cur = none := by
  simp [matchHere, h]

theorem matchHere_star (p : Nat → Bool) (ts : List Tok) (s : List Nat)
    (done : List (List Nat)) (cur : List Nat) :
    matchHere (Tok.star p :: ts) s done cur
      = greedy p (fun cur2 rest => matchHere ts rest done cur2) cur s := by
  cases s <;> rfl

theorem utf16_underscores : utf16 "__" = [0x5F, 0x5F] := by decide

theorem utf16_stars : utf16 "**" = [0x2A, 0x2A] := by decide

theorem wide_false_of_ascii (c : Nat) (h : c < 0x80) : wide c = false := by
  simp only [wide, Bool.and_eq_false_imp, decide_eq_true_eq, decide_eq_false_iff_not]
  omega

theorem cjkPunct_false_of_ascii (c : Nat) (h : c < 0x80) : cjkPunct c = false := by
  simp only [cjkPunct, Bool.or_eq_false_iff, Bool.and_eq_false_imp, decide_eq_true_eq,
    decide_eq_false_iff_not]
  omega

/-- Each of the six underscore patterns needs a code unit of the class `[\u0080-\uFFFF]`. -/
theorem underscoreRules_eq_self_of_no_wide (s : List Nat) (h : ∀ c ∈ s, wide c = false) :
    underscoreRules s = s := by
  have h1 : ∀ tpl, replaceAll rule1 tpl s = s := fun tpl =>
    replaceAll_eq_self wide [us, us, .gopen, .star notUnderscoreNewline]
      [.star notUnderscoreNewline, .gclose, us, us] tpl s h
  have h2 : ∀ tpl, replaceAll rule2 tpl s = s := fun tpl =>
    replaceAll_eq_self wide [.gopen]
      [.gclose, us, us, .gopen, .plus notUnderscoreNewline, .gclose, us, us] tpl s h
  have h3 : ∀ tpl, replaceAll rule3 tpl s = s := fun tpl =>
    replaceAll_eq_self wide [us, us, .gopen, .plus notUnderscoreNewline, .gclose, us, us, .gopen]
      [.gclose] tpl s h
  have h4 : ∀ tpl, replaceAll rule4 tpl s = s := fun tpl =>
    replaceAll_eq_self wide [us, .gopen, .star notUnderscoreNewline]
      [.star notUnderscoreNewline, .gclose, us] tpl s h
  have h5 : ∀ tpl, replaceAll rule5 tpl s = s := fun tpl =>
    replaceAll_eq_self wide [.gopen]
      [.gclose, us, .gopen, .plus notUnderscoreNewline, .gclose, us] tpl s h
  have h6 : ∀ tpl, replaceAll rule6 tpl s = s := fun tpl =>
    replaceAll_eq_self wide [us, .gopen, .plus notUnderscoreNewline, .gclose, us, .gopen]
      [.gclose] tpl s h
  simp only [underscoreRules, h1, h2, h3, h4, h5, h6]

/-- Each of the six underscore patterns needs a literal underscore. -/
theorem rules_need_underscore (s : List Nat) (h : ∀ c ∈ s, lit 0x5F c = false) :
    (∀ tpl, replaceAll rule1 tpl s = s) ∧ (∀ tpl, replaceAll rule2 tpl s = s) ∧
    (∀ tpl, replaceAll rule3 tpl s = s) ∧ (∀ tpl, replaceAll rule4 tpl s = s) ∧
    (∀ tpl, replaceAll rule5 tpl s = s) ∧ (∀ tpl, replaceAll rule6 tpl s = s) := by
  refine ⟨fun tpl => ?_, fun tpl => ?_, fun tpl => ?_, fun tpl => ?_, fun tpl => ?_, fun tpl => ?_⟩
  · exact replaceAll_eq_self (lit 0x5F) []
      [us, .gopen, .star notUnderscoreNewline, .one wide, .star notUnderscoreNewline, .gclose,
        us, us] tpl s h
  · exact replaceAll_eq_self (lit 0x5F) [.gopen, .one wide, .gclose]
      [us, .gopen, .plus notUnderscoreNewline, .gclose, us, us] tpl s h
  · exact replaceAll_eq_self (lit 0x5F) []
      [us, .gopen, .plus notUnderscoreNewline, .gclose, us, us, .gopen, .one wide, .gclose]
      tpl s h
  · exact replaceAll_eq_self (lit 0x5F) []
      [.gopen, .star notUnderscoreNewline, .one wide, .star notUnderscoreNewline, .gclose, us]
      tpl s h
  · exact replaceAll_eq_self (lit 0x5F) [.gopen, .one wide, .gclose]
      [.gopen, .plus notUnderscoreNewline, .gclose, us] tpl s h
  · exact replaceAll_eq_self (lit 0x5F) []
      [.gopen, .plus notUnderscoreNewline, .gclose, us, .gopen, .one wide, .gclose] tpl s h

/-- Text without an underscore passes the six underscore replacements unchanged. -/
theorem underscoreRules_eq_self_of_no_underscore (s : List Nat)
    (h : ∀ c ∈ s, lit 0x5F c = false) : underscoreRules s = s := by
  obtain ⟨h1, h2, h3, h4, h5, h6⟩ := rules_need_underscore s h
  simp only [underscoreRules, h1, h2, h3, h4, h5, h6]

/-- The first pattern matches `__x__` as a whole when `x` has no underscore or newline and
has a wide code unit: the first `*` runs to the end of `x` and backtracks to its last wide
code unit. -/
theorem rule1_match (x : List Nat) (hnun : ∀ c ∈ x, notUnderscoreNewline c = true)
    (hw : ∃ c ∈ x, wide c = true) :
    matchHere rule1 (0x5F :: 0x5F :: (x ++ [0x5F, 0x5F])) [] [] = some ([x], []) := by
  obtain ⟨u, w, v, rfl, hww, hv⟩ := exists_last_split wide x hw
  have hu : ∀ c ∈ u, notUnderscoreNewline c = true :=
    fun c hc => hnun c (List.mem_append_left _ hc)
  have hwn : notUnderscoreNewline w = true :=
    hnun w (List.mem_append_right _ (List.mem_cons_self _ _))
  have hvn : ∀ c ∈ v, notUnderscoreNewline c = true :=
    fun c hc => hnun c (List.mem_append_right _ (List.mem_cons_of_mem _ hc))
  have htail : ∀ c ∈ v ++ [0x5F, 0x5F], wide c = false := by
    intro c hc
    rcases List.mem_append.mp hc with hc | hc
    · exact hv c hc
    · simp only [List.mem_cons, List.mem_singleton, List.not_mem_nil, or_false, or_self] at hc
      subst hc
      decide
  unfold rule1 us
  rw [matchHere_one_pos _ _ _ _ _ _ (by decide), matchHere_one_pos _ _ _ _ _ _ (by decide)]
  rw [matchHere, matchHere_star]
  rw [List.append_assoc]
  apply greedy_append _ _ _ u [] _ hu
  rw [List.nil_append, List.cons_append]
  unfold greedy
  rw [if_pos hwn]
  have hnone := greedy_none notUnderscoreNewline
    (fun cur2 rest => matchHere [Tok.one wide, Tok.star notUnderscoreNewline, Tok.gclose,
      Tok.one (lit 0x5F), Tok.one (lit 0x5F)] rest [] cur2) wide
    (fun cur rest hr => matchHere_none wide
      [Tok.star notUnderscoreNewline, Tok.gclose, Tok.one (lit 0x5F), Tok.one (lit 0x5F)]
      [] rest [] cur hr) (v ++ [0x5F, 0x5F]) (u ++ [w]) htail
  rw [hnone]
  simp only []
  rw [matchHere_one_pos _ _ _ _ _ _ hww, matchHere_star]
  apply greedy_append _ _ _ v _ _ hvn
  rw [greedy_stop _ _ _ _ _ (by decide)]
  rw [matchHere, matchHere_one_pos _ _ _ _ _ _ (by decide),
    matchHere_one_pos _ _ _ _ _ _ (by decide), matchHere]
  simp

/-- The seventh pattern matches `**c**` as a whole when `c` has at least two code units,
the first and the last in the CJK punctuation class, and no asterisk or newline. -/
theorem rule7_match (f l : Nat) (mid : List Nat) (hf : cjkPunct f = true)
    (hl : cjkPunct l = true) (hmid : ∀ c ∈ mid, notStarNewline c = true)
    (hln : notStarNewline l = true) :
    matchHere rule7 (0x2A :: 0x2A :: f :: (mid ++ [l] ++ [0x2A, 0x2A])) [] []
      = some ([f :: (mid ++ [l])], []) := by
  unfold rule7 ast
  rw [matchHere_one_pos _ _ _ _ _ _ (by decide), matchHere_one_pos _ _ _ _ _ _ (by decide)]
  rw [matchHere, matchHere_one_pos _ _ _ _ _ _ hf, matchHere_star]
  rw [List.append_assoc]
  apply greedy_append _ _ _ mid _ _ hmid
  rw [List.cons_append, List.nil_append]
  unfold greedy
  simp only [List.nil_append]
  rw [if_pos hln, greedy_stop _ _ _ _ _ (by decide)]
  rw [matchHere_one_neg _ _ _ _ _ _ (by decide)]
  simp only []
  rw [matchHere_one_pos _ _ _ _ _ _ hl]
  rw [matchHere, matchHere_one_pos _ _ _ _ _ _ (by decide),
    matchHere_one_pos _ _ _ _ _ _ (by decide), matchHere]
  simp

theorem lit_false_of_ne (a c : Nat) (h : c ≠ a) : lit a c = false := by
  simpa [lit] using h

theorem notUnderscoreNewline_of_ne (c : Nat) (h1 : c ≠ 0x5F) (h2 : c ≠ 0x0A) :
    notUnderscoreNewline c = true := by
  simp [notUnderscoreNewline, h1, h2]

theorem notStarNewline_of_ne (c : Nat) (h1 : c ≠ 0x2A) (h2 : c ≠ 0x0A) :
    notStarNewline c = true := by
  simp [notStarNewline, h1, h2]

theorem wide_ne_underscore (c : Nat) (h : wide c = true) : c ≠ 0x5F := by
  simp only [wide, Bool.and_eq_true, decide_eq_true_eq] at h
  omega

theorem cjkPunct_ne (c : Nat) (h : cjkPunct c = true) : c ≠ 0x5F ∧ c ≠ 0x2A := by
  simp only [cjkPunct, Bool.or_eq_true, Bool.and_eq_true, decide_eq_true_eq] at h
  omega

/-- The underscore replacements turn `__x__` into `**x**` when `x` has no underscore or
newline and has a wide code unit. -/
theorem underscoreRules_double (x : List Nat) (hus : ∀ c ∈ x, c ≠ 0x5F)
    (hnl : ∀ c ∈ x, c ≠ 0x0A) (hw : ∃ c ∈ x, wide c = true) :
    underscoreRules (utf16 "__" ++ x ++ utf16 "__") = utf16 "**" ++ x ++ utf16 "**" := by
  have hm := rule1_match x (fun c hc => notUnderscoreNewline_of_ne c (hus c hc) (hnl c hc)) hw
  have h1 : replaceAll rule1 [.lit (utf16 "**"), .group 1, .lit (utf16 "**")]
      (utf16 "__" ++ x ++ utf16 "__") = utf16 "**" ++ x ++ utf16 "**" := by
    rw [utf16_underscores]
    simp only [List.cons_append, List.nil_append]
    rw [replaceAll_whole rule1 _ _ _ _ hm (by decide)]
    simp [expand]
  have hno : ∀ c ∈ utf16 "**" ++ x ++ utf16 "**", lit 0x5F c = false := by
    intro c hc
    rw [utf16_stars] at hc
    simp only [List.mem_append, List.mem_cons, List.mem_singleton, List.not_mem_nil, or_false,
      or_self] at hc
    rcases hc with (rfl | hc) | rfl
    · decide
    · exact lit_false_of_ne _ _ (hus c hc)
    · decide
  obtain ⟨_, h2, h3, h4, h5, h6⟩ := rules_need_underscore _ hno
  simp only [underscoreRules, h1, h2, h3, h4, h5, h6]

/-- The seventh pattern does not match inside text without asterisks: its repetition, run
on `y**`, fails unless `y` ends with a CJK punctuation code unit. -/
theorem rule7_greedy_none (y : List Nat) :
    ∀ cur : List Nat, (∀ c ∈ y, c ≠ 0x2A) →
      (¬ ∃ l, y.getLast? = some l ∧ cjkPunct l = true) →
      greedy notStarNewline
        (fun cur2 rest => matchHere [Tok.one cjkPunct, Tok.gclose, Tok.one (lit 0x2A),
          Tok.one (lit 0x2A)] rest [] cur2) cur (y ++ [0x2A, 0x2A]) = none := by
  induction y with
  | nil =>
    intro cur _ _
    rw [List.nil_append, greedy_stop _ _ _ _ _ (by decide)]
    exact matchHere_one_neg _ _ _ _ _ _ (by decide)
  | cons c y ih =>
    intro cur hy hlast
    have hy2 : ∀ d ∈ y, d ≠ 0x2A := fun d hd => hy d (List.mem_cons_of_mem _ hd)
    have hlast2 : ¬ ∃ l, y.getLast? = some l ∧ cjkPunct l = true := by
      rintro ⟨l, hl, hc⟩
      cases y with
      | nil => simp at hl
      | cons d y => exact hlast ⟨l, by simpa [List.getLast?_cons_cons] using hl, hc⟩
    have hk : matchHere [Tok.one cjkPunct, Tok.gclose, Tok.one (lit 0x2A), Tok.one (lit 0x2A)]
        (c :: (y ++ [0x2A, 0x2A])) [] cur = none := by
      by_cases hc : cjkPunct c = true
      · rw [matchHere_one_pos _ _ _ _ _ _ hc, matchHere]
        cases y with
        | nil => exact absurd ⟨c, rfl, hc⟩ hlast
        | cons d y =>
          rw [List.cons_append]
          exact matchHere_one_neg _ _ _ _ _ _
            (lit_false_of_ne _ _ (hy2 d (List.mem_cons_self _ _)))
      · exact matchHere_one_neg _ _ _ _ _ _ (by simpa using hc)
    rw [List.cons_append]
    unfold greedy
    split_ifs
    · rw [ih _ hy2 hlast2]
      exact hk
    · exact hk

/-- Code units other than the asterisk are copied by the seventh replacement. -/
theorem replaceFrom_rule7_copy (tpl : List Repl) (t : List Nat) :
    ∀ y : List Nat, (∀ c ∈ y, c ≠ 0x2A) →
      replaceFrom rule7 tpl 0 (y ++ t) = y ++ replaceFrom rule7 tpl 0 t := by
  intro y
  induction y with
  | nil => intro _; rfl
  | cons c y ih =>
    intro hy
    have hc : lit 0x2A c = false := lit_false_of_ne _ _ (hy c (List.mem_cons_self _ _))
    have hm : matchHere rule7 (c :: (y ++ t)) [] [] = none :=
      matchHere_one_neg _ _ _ _ _ _ hc
    rw [List.cons_append, replaceFrom, hm]
    simp only [List.cons_append, List.cons.injEq, true_and]
    exact ih (fun d hd => hy d (List.mem_cons_of_mem _ hd))

/-- The seventh replacement leaves `**x**` alone when `x` has no asterisk and does not both
begin and end, in two distinct places, with CJK punctuation. -/
theorem replaceAll_rule7_eq_self (x : List Nat) (hne : x ≠ []) (hst : ∀ c ∈ x, c ≠ 0x2A)
    (hcjk : ¬ (2 ≤ x.length ∧ (∃ f, x.head? = some f ∧ cjkPunct f = true) ∧
      ∃ l, x.getLast? = some l ∧ cjkPunct l = true)) :
    replaceAll rule7 strongTpl (utf16 "**" ++ x ++ utf16 "**")
      = utf16 "**" ++ x ++ utf16 "**" := by
  obtain ⟨f, y, rfl⟩ := List.exists_cons_of_ne_nil hne
  have hf : f ≠ 0x2A := hst f (List.mem_cons_self _ _)
  have hy : ∀ c ∈ y, c ≠ 0x2A := fun c hc => hst c (List.mem_cons_of_mem _ hc)
  have hm1 : matchHere rule7 (0x2A :: 0x2A :: f :: (y ++ [0x2A, 0x2A])) [] [] = none := by
    unfold rule7 ast
    rw [matchHere_one_pos _ _ _ _ _ _ (by decide), matchHere_one_pos _ _ _ _ _ _ (by decide)]
    rw [matchHere]
    by_cases hfc : cjkPunct f = true
    · rw [matchHere_one_pos _ _ _ _ _ _ hfc, matchHere_star]
      apply rule7_greedy_none y _ hy
      rintro ⟨l, hl, hlc⟩
      cases y with
      | nil => simp at hl
      | cons d y =>
        refine hcjk ⟨by simp, ⟨f, rfl, hfc⟩, l, ?_, hlc⟩
        rw [List.getLast?_cons_cons]
        exact hl
    · exact matchHere_one_neg _ _ _ _ _ _ (by simpa using hfc)
  have hm2 : matchHere rule7 (0x2A :: f :: (y ++ [0x2A, 0x2A])) [] [] = none := by
    unfold rule7 ast
    rw [matchHere_one_pos _ _ _ _ _ _ (by decide)]
    exact matchHere_one_neg _ _ _ _ _ _ (lit_false_of_ne _ _ hf)
  have htail : replaceFrom rule7 strongTpl 0 [0x2A, 0x2A] = [0x2A, 0x2A] := by decide
  have hcopy := replaceFrom_rule7_copy strongTpl [0x2A, 0x2A] (f :: y) hst
  rw [htail] at hcopy
  rw [utf16_stars]
  unfold replaceAll
  simp only [List.cons_append, List.nil_append] at hcopy ⊢
  rw [replaceFrom, hm1]
  simp only []
  rw [replaceFrom, hm2]
  simp only []
  rw [hcopy]

/-! ### Claims on `normalizeMultibyteEmphasis` -/

/-- C8: `normalizeMultibyteEmphasis` is the identity on ASCII-only text: for every string
all of whose code units are below U+0080, whatever underscores, asterisks or newlines it
contains, the result is the input. -/
theorem normalizeMultibyteEmphasis_ascii (s : List Nat) (h : ∀ c ∈ s, c < 0x80) :
    normalizeMultibyteEmphasis s = s := by
  unfold normalizeMultibyteEmphasis
  rw [underscoreRules_eq_self_of_no_wide s (fun c hc => wide_false_of_ascii c (h c hc))]
  exact replaceAll_eq_self cjkPunct [ast, ast, .gopen]
    [.star notStarNewline, .one cjkPunct, .gclose, ast, ast] strongTpl s
    (fun c hc => cjkPunct_false_of_ascii c (h c hc))

theorem normalizeMultibyteEmphasis_ascii_witness :
    (∀ c ∈ utf16 "__hello__ _a_\n**test** __b__", c < 0x80) ∧
    normalizeMultibyteEmphasis (utf16 "__hello__ _a_\n**test** __b__")
      = utf16 "__hello__ _a_\n**test** __b__" :=
  ⟨by decide, normalizeMultibyteEmphasis_ascii (utf16 "__hello__ _a_\n**test** __b__") (by decide)⟩

/-- C9, as stated, fails: `x = 「テスト」` has no underscore and no newline and has code units
in U+0080..U+FFFF, yet `__「テスト」__` becomes `<strong>「テスト」</strong>`, because the
seventh replacement rewrites the `**「テスト」**` produced by the first. -/
theorem double_underscore_cjk_becomes_strong :
    (∀ c ∈ utf16 "「テスト」", c ≠ 0x5F) ∧ (∀ c ∈ utf16 "「テスト」", c ≠ 0x0A) ∧
    (∃ c ∈ utf16 "「テスト」", 0x80 ≤ c ∧ c ≤ 0xFFFF) ∧
    normalizeMultibyteEmphasis (utf16 "__" ++ utf16 "「テスト」" ++ utf16 "__")
      = utf16 "<strong>「テスト」</strong>" ∧
    normalizeMultibyteEmphasis (utf16 "__" ++ utf16 "「テスト」" ++ utf16 "__")
      ≠ utf16 "**" ++ utf16 "「テスト」" ++ utf16 "**" := by
  refine ⟨by decide, by decide, by decide, by decide, by decide⟩

/-- C9, amended: for every string `x` with no underscore, no newline and at least one code
unit in U+0080..U+FFFF, the underscore replacements turn `"__" + x + "__"` into
`"**" + x + "**"`, and `normalizeMultibyteEmphasis` returns the seventh (CJK punctuation)
replacement applied to that; the result is `"**" + x + "**"` whenever `x` has no asterisk and
does not both begin and end, with at least two code units, in the CJK punctuation ranges. -/
theorem normalizeMultibyteEmphasis_double_underscore (x : List Nat)
    (hus : ∀ c ∈ x, c ≠ 0x5F) (hnl : ∀ c ∈ x, c ≠ 0x0A)
    (hw : ∃ c ∈ x, 0x80 ≤ c ∧ c ≤ 0xFFFF) :
    underscoreRules (utf16 "__" ++ x ++ utf16 "__") = utf16 "**" ++ x ++ utf16 "**" ∧
    normalizeMultibyteEmphasis (utf16 "__" ++ x ++ utf16 "__")
      = replaceAll rule7 strongTpl (utf16 "**" ++ x ++ utf16 "**") ∧
    ((∀ c ∈ x, c ≠ 0x2A) →
      ¬ (2 ≤ x.length ∧ (∃ f, x.head? = some f ∧ cjkPunct f = true) ∧
          ∃ l, x.getLast? = some l ∧ cjkPunct l = true) →
      normalizeMultibyteEmphasis (utf16 "__" ++ x ++ utf16 "__")
        = utf16 "**" ++ x ++ utf16 "**") := by
  have hw2 : ∃ c ∈ x, wide c = true := by
    obtain ⟨c, hc, h1, h2⟩ := hw
    exact ⟨c, hc, by simp [wide, h1, h2]⟩
  have hne : x ≠ [] := by
    rintro rfl
    obtain ⟨c, hc, _⟩ := hw
    simp at hc
  have hd := underscoreRules_double x hus hnl hw2
  refine ⟨hd, ?_, ?_⟩
  · unfold normalizeMultibyteEmphasis
    rw [hd]
  · intro hst hcjk
    unfold normalizeMultibyteEmphasis
    rw [hd]
    exact replaceAll_rule7_eq_self x hne hst hcjk

theorem normalizeMultibyteEmphasis_double_underscore_witness :
    (∀ c ∈ utf16 "mix世界ed", c ≠ 0x5F) ∧ (∀ c ∈ utf16 "mix世界ed", c ≠ 0x0A) ∧
    (∃ c ∈ utf16 "mix世界ed", 0x80 ≤ c ∧ c ≤ 0xFFFF) ∧
    (underscoreRules (utf16 "__" ++ utf16 "mix世界ed" ++ utf16 "__")
      = utf16 "**" ++ utf16 "mix世界ed" ++ utf16 "**" ∧
    normalizeMultibyteEmphasis (utf16 "__" ++ utf16 "mix世界ed" ++ utf16 "__")
      = replaceAll rule7 strongTpl (utf16 "**" ++ utf16 "mix世界ed" ++ utf16 "**") ∧
    ((∀ c ∈ utf16 "mix世界ed", c ≠ 0x2A) →
      ¬ (2 ≤ (utf16 "mix世界ed").length ∧
          (∃ f, (utf16 "mix世界ed").head? = some f ∧ cjkPunct f = true) ∧
          ∃ l, (utf16 "mix世界ed").getLast? = some l ∧ cjkPunct l = true) →
      normalizeMultibyteEmphasis (utf16 "__" ++ utf16 "mix世界ed" ++ utf16 "__")
        = utf16 "**" ++ utf16 "mix世界ed" ++ utf16 "**")) :=
  ⟨by decide, by decide, by decide,
    normalizeMultibyteEmphasis_double_underscore (utf16 "mix世界ed") (by decide) (by decide)
      (by decide)⟩

/-- C10, as stated, fails twice.  The one-unit content `。` begins and ends with CJK
punctuation, but the pattern asks for two distinct punctuation code units and `**。**` is
returned unchanged.  The content `「_あ_」` has no asterisk, but the fourth replacement first
turns `_あ_` into `*あ*`, after which the seventh pattern no longer matches. -/
theorem strong_rewrite_fails_on_single_unit_and_underscores :
    (utf16 "。" ≠ [] ∧ (∀ c ∈ utf16 "。", c ≠ 0x2A ∧ c ≠ 0x0A) ∧
      (∃ f, (utf16 "。").head? = some f ∧ cjkPunct f = true) ∧
      (∃ l, (utf16 "。").getLast? = some l ∧ cjkPunct l = true) ∧
      normalizeMultibyteEmphasis (utf16 "**" ++ utf16 "。" ++ utf16 "**") = utf16 "**。**" ∧
      normalizeMultibyteEmphasis (utf16 "**" ++ utf16 "。" ++ utf16 "**")
        ≠ utf16 "<strong>" ++ utf16 "。" ++ utf16 "</strong>") ∧
    (utf16 "「_あ_」" ≠ [] ∧ (∀ c ∈ utf16 "「_あ_」", c ≠ 0x2A ∧ c ≠ 0x0A) ∧
      (∃ f, (utf16 "「_あ_」").head? = some f ∧ cjkPunct f = true) ∧
      (∃ l, (utf16 "「_あ_」").getLast? = some l ∧ cjkPunct l = true) ∧
      normalizeMultibyteEmphasis (utf16 "**" ++ utf16 "「_あ_」" ++ utf16 "**")
        = utf16 "**「*あ*」**" ∧
      normalizeMultibyteEmphasis (utf16 "**" ++ utf16 "「_あ_」" ++ utf16 "**")
        ≠ utf16 "<strong>" ++ utf16 "「_あ_」" ++ utf16 "</strong>") := by
  refine ⟨⟨by decide, by decide, ⟨0x3002, by decide, by decide⟩, ⟨0x3002, by decide, by decide⟩,
    by decide, by decide⟩,
    ⟨by decide, by decide, ⟨0x300C, by decide, by decide⟩, ⟨0x300D, by decide, by decide⟩,
    by decide, by decide⟩⟩

/-- C10, amended: for every string `c` of at least two code units that contains no
asterisk, no newline and no underscore and whose first and last code units both lie in
U+3000..U+303F or U+FF00..U+FFEF, `normalizeMultibyteEmphasis("**" + c + "**")` is
`"<strong>" + c + "</strong>"`. -/
theorem normalizeMultibyteEmphasis_strong (c : List Nat) (hlen : 2 ≤ c.length)
    (hst : ∀ u ∈ c, u ≠ 0x2A) (hnl : ∀ u ∈ c, u ≠ 0x0A) (hus : ∀ u ∈ c, u ≠ 0x5F)
    (hfirst : ∃ f, c.head? = some f ∧
      ((0x3000 ≤ f ∧ f ≤ 0x303F) ∨ (0xFF00 ≤ f ∧ f ≤ 0xFFEF)))
    (hlast : ∃ l, c.getLast? = some l ∧
      ((0x3000 ≤ l ∧ l ≤ 0x303F) ∨ (0xFF00 ≤ l ∧ l ≤ 0xFFEF))) :
    normalizeMultibyteEmphasis (utf16 "**" ++ c ++ utf16 "**")
      = utf16 "<strong>" ++ c ++ utf16 "</strong>" := by
  obtain ⟨f, hf, hfc⟩ := hfirst
  obtain ⟨l, hl, hlc⟩ := hlast
  have hfc2 : cjkPunct f = true := by
    simp only [cjkPunct, Bool.or_eq_true, Bool.and_eq_true, decide_eq_true_eq]
    exact hfc
  have hlc2 : cjkPunct l = true := by
    simp only [cjkPunct, Bool.or_eq_true, Bool.and_eq_true, decide_eq_true_eq]
    exact hlc
  cases c with
  | nil => simp at hlen
  | cons f2 c2 =>
    simp only [List.head?_cons, Option.some.injEq] at hf
    subst hf
    have hc2 : c2 ≠ [] := by
      rintro rfl
      simp at hlen
    obtain ⟨mid, l2, rfl⟩ : ∃ mid l2, c2 = mid ++ [l2] :=
      ⟨c2.dropLast, c2.getLast hc2, (List.dropLast_append_getLast hc2).symm⟩
    have hl2 : l2 = l := by
      have h2 : (f2 :: (mid ++ [l2])).getLast? = some l2 := by
        rw [← List.cons_append, List.getLast?_append]
        simp
      rw [h2] at hl
      exact Option.some.inj hl
    subst hl2
    have hno : ∀ u ∈ utf16 "**" ++ f2 :: (mid ++ [l2]) ++ utf16 "**", lit 0x5F u = false := by
      intro u hu
      rw [utf16_stars] at hu
      simp only [List.mem_append, List.mem_cons, List.mem_singleton, List.not_mem_nil, or_false,
        or_self] at hu
      rcases hu with (rfl | hu) | rfl
      · decide
      · exact lit_false_of_ne _ _ (hus u (by simpa using hu))
      · decide
    have hm := rule7_match f2 l2 mid hfc2 hlc2
      (fun u hu => notStarNewline_of_ne u (hst u (by simp [hu])) (hnl u (by simp [hu])))
      (notStarNewline_of_ne l2 (hst l2 (by simp)) (hnl l2 (by simp)))
    unfold normalizeMultibyteEmphasis
    rw [underscoreRules_eq_self_of_no_underscore _ hno, utf16_stars]
    simp only [List.cons_append, List.nil_append, List.append_assoc] at hm ⊢
    rw [replaceAll_whole rule7 _ _ _ _ hm (by decide)]
    simp [expand, strongTpl]

theorem normalizeMultibyteEmphasis_strong_witness :
    2 ≤ (utf16 "「テスト」").length ∧
    (∀ u ∈ utf16 "「テスト」", u ≠ 0x2A) ∧ (∀ u ∈ utf16 "「テスト」", u ≠ 0x0A) ∧
    (∀ u ∈ utf16 "「テスト」", u ≠ 0x5F) ∧
    (∃ f, (utf16 "「テスト」").head? = some f ∧
      ((0x3000 ≤ f ∧ f ≤ 0x303F) ∨ (0xFF00 ≤ f ∧ f ≤ 0xFFEF))) ∧
    (∃ l, (utf16 "「テスト」").getLast? = some l ∧
      ((0x3000 ≤ l ∧ l ≤ 0x303F) ∨ (0xFF00 ≤ l ∧ l ≤ 0xFFEF))) ∧
    normalizeMultibyteEmphasis (utf16 "**" ++ utf16 "「テスト」" ++ utf16 "**")
      = utf16 "<strong>" ++ utf16 "「テスト」" ++ utf16 "</strong>" :=
  ⟨by decide, by decide, by decide, by decide, ⟨0x300C, by decide, by decide⟩,
    ⟨0x300D, by decide, by decide⟩,
    normalizeMultibyteEmphasis_strong (utf16 "「テスト」") (by decide) (by decide) (by decide)
      (by decide) ⟨0x300C, by decide, by decide⟩ ⟨0x300D, by decide, by decide⟩⟩

/-! ### Claims on single iterations -/

/-- The break point of an iteration whose scan stops at the child `e`. -/
theorem nextBreakPoint_of_first (cs : List Child) (t cur : ℚ) (e : Child)
    (hfirst : firstStraddling cs (cur + t) = some e) :
    nextBreakPoint cs t cur
      = if chooseBreak cur t e ≤ cur then cur + t else chooseBreak cur t e := by
  unfold firstStraddling at hfirst
  unfold nextBreakPoint
  simp only [scanChildren_eq_find, hfirst, Option.map_some']

theorem straddles_of_first (cs : List Child) (x : ℚ) (e : Child)
    (hfirst : firstStraddling cs x = some e) : e ∈ cs ∧ Straddles x e := by
  unfold firstStraddling at hfirst
  refine ⟨List.mem_of_find?_eq_some hfirst, ?_⟩
  have := List.find?_some hfirst
  simpa using this

theorem mainLoop_step (cs : List Child) (t total cur : ℚ) (fuel : Nat) (acc : List ℚ)
    (hloop : cur + t < total) :
    mainLoop cs t total (fuel + 1) cur acc
      = mainLoop cs t total fuel (nextBreakPoint cs t cur) (acc ++ [nextBreakPoint cs t cur]) := by
  rw [mainLoop, if_pos hloop]

/-- C17: break before at the inclusive MIN boundary.  In a loop iteration with current
offset `c` (and `targetHeight > 0`), if the first child in list order that strictly
straddles `c + targetHeight` has `offsetTop - c ≥ 0.5 * targetHeight`, the break point
appended in that iteration is that child's `offsetTop`.  Children `{0,50}`, `{50,80}` with
target 100 and total 200 give `[0, 50, 150]`, with a break at 50. -/
theorem iteration_breaks_before_at_min_boundary (children : List Child)
    (targetHeight totalHeight c : ℚ) (e : Child) (ht : 0 < targetHeight)
    (hfirst : firstStraddling children (c + targetHeight) = some e)
    (hmin : e.offsetTop - c ≥ MIN_CONTENT_RATIO * targetHeight) :
    nextBreakPoint children targetHeight c = e.offsetTop ∧
    (∀ (fuel : Nat) (breakPoints : List ℚ), c + targetHeight < totalHeight →
      mainLoop children targetHeight totalHeight (fuel + 1) c breakPoints
        = mainLoop children targetHeight totalHeight fuel e.offsetTop
            (breakPoints ++ [e.offsetTop])) ∧
    findOptimalBreakPoints (iterationBound 100 200) [⟨0, 50⟩, ⟨50, 80⟩] 100 200
      = some [0, 50, 150] := by
  have hnext : nextBreakPoint children targetHeight c = e.offsetTop := by
    rw [nextBreakPoint_of_first children targetHeight c e hfirst]
    unfold MIN_CONTENT_RATIO at hmin
    rcases chooseBreak_cases c targetHeight e with ⟨_, hc⟩ | ⟨h1, _, _⟩ | ⟨h1, _, _⟩
    · rw [hc, if_neg]
      intro hle
      linarith
    · linarith
    · linarith
  refine ⟨hnext, ?_, by decide!⟩
  intro fuel acc hloop
  rw [mainLoop_step children targetHeight totalHeight c fuel acc hloop, hnext]

theorem iteration_breaks_before_at_min_boundary_witness :
    (0 : ℚ) < 100 ∧ firstStraddling [⟨0, 50⟩, ⟨50, 80⟩] (0 + 100) = some ⟨50, 80⟩ ∧
    (⟨50, 80⟩ : Child).offsetTop - 0 ≥ MIN_CONTENT_RATIO * 100 ∧
    (nextBreakPoint [⟨0, 50⟩, ⟨50, 80⟩] 100 0 = (⟨50, 80⟩ : Child).offsetTop ∧
    (∀ (fuel : Nat) (breakPoints : List ℚ), (0 : ℚ) + 100 < 200 →
      mainLoop [⟨0, 50⟩, ⟨50, 80⟩] 100 200 (fuel + 1) 0 breakPoints
        = mainLoop [⟨0, 50⟩, ⟨50, 80⟩] 100 200 fuel (⟨50, 80⟩ : Child).offsetTop
            (breakPoints ++ [(⟨50, 80⟩ : Child).offsetTop])) ∧
    findOptimalBreakPoints (iterationBound 100 200) [⟨0, 50⟩, ⟨50, 80⟩] 100 200
      = some [0, 50, 150]) :=
  ⟨by norm_num, by decide!, by decide!,
    iteration_breaks_before_at_min_boundary [⟨0, 50⟩, ⟨50, 80⟩] 100 200 0 ⟨50, 80⟩
      (by norm_num) (by decide!) (by decide!)⟩

/-- C18: break after when the child fits.  In a loop iteration with current offset `c`,
if the first child in list order that strictly straddles
`c + targetHeight` has `offsetTop - c < 0.5 * targetHeight` and
`offsetTop + offsetHeight - c ≤ 1.5 * targetHeight`, the break point appended in that
iteration is that child's bottom.  Children `{0,10}`, `{10,100}` with target 100 and total
200 give `[0, 110]`: a break at 110 and none at 10. -/
theorem iteration_breaks_after_fitting_child (children : List Child)
    (targetHeight totalHeight c : ℚ) (e : Child)
    (hfirst : firstStraddling children (c + targetHeight) = some e)
    (hmin : e.offsetTop - c < MIN_CONTENT_RATIO * targetHeight)
    (hmax : e.offsetTop + e.offsetHeight - c ≤ MAX_CONTENT_RATIO * targetHeight) :
    nextBreakPoint children targetHeight c = e.offsetTop + e.offsetHeight ∧
    (∀ (fuel : Nat) (breakPoints : List ℚ), c + targetHeight < totalHeight →
      mainLoop children targetHeight totalHeight (fuel + 1) c breakPoints
        = mainLoop children targetHeight totalHeight fuel (e.offsetTop + e.offsetHeight)
            (breakPoints ++ [e.offsetTop + e.offsetHeight])) ∧
    findOptimalBreakPoints (iterationBound 100 200) [⟨0, 10⟩, ⟨10, 100⟩] 100 200
      = some [0, 110] ∧ (10 : ℚ) ∉ [(0 : ℚ), 110] := by
  have hs := (straddles_of_first children _ e hfirst).2
  unfold Straddles at hs
  have hnext : nextBreakPoint children targetHeight c = e.offsetTop + e.offsetHeight := by
    rw [nextBreakPoint_of_first children targetHeight c e hfirst]
    unfold MIN_CONTENT_RATIO at hmin
    unfold MAX_CONTENT_RATIO at hmax
    rcases chooseBreak_cases c targetHeight e with ⟨h1, _⟩ | ⟨_, _, hc⟩ | ⟨_, h2, _⟩
    · linarith
    · rw [hc, if_neg]
      intro hle
      linarith
    · linarith
  refine ⟨hnext, ?_, by decide!, by decide!⟩
  intro fuel acc hloop
  rw [mainLoop_step children targetHeight totalHeight c fuel acc hloop, hnext]

theorem iteration_breaks_after_fitting_child_witness :
    firstStraddling [⟨0, 10⟩, ⟨10, 100⟩] (0 + 100) = some ⟨10, 100⟩ ∧
    (⟨10, 100⟩ : Child).offsetTop - 0 < MIN_CONTENT_RATIO * 100 ∧
    (⟨10, 100⟩ : Child).offsetTop + (⟨10, 100⟩ : Child).offsetHeight - 0
      ≤ MAX_CONTENT_RATIO * 100 ∧
    (nextBreakPoint [⟨0, 10⟩, ⟨10, 100⟩] 100 0
      = (⟨10, 100⟩ : Child).offsetTop + (⟨10, 100⟩ : Child).offsetHeight ∧
    (∀ (fuel : Nat) (breakPoints : List ℚ), (0 : ℚ) + 100 < 200 →
      mainLoop [⟨0, 10⟩, ⟨10, 100⟩] 100 200 (fuel + 1) 0 breakPoints
        = mainLoop [⟨0, 10⟩, ⟨10, 100⟩] 100 200 fuel
            ((⟨10, 100⟩ : Child).offsetTop + (⟨10, 100⟩ : Child).offsetHeight)
            (breakPoints ++ [(⟨10, 100⟩ : Child).offsetTop + (⟨10, 100⟩ : Child).offsetHeight])) ∧
    findOptimalBreakPoints (iterationBound 100 200) [⟨0, 10⟩, ⟨10, 100⟩] 100 200
      = some [0, 110] ∧ (10 : ℚ) ∉ [(0 : ℚ), 110]) :=
  ⟨by decide!, by decide!, by decide!,
    iteration_breaks_after_fitting_child [⟨0, 10⟩, ⟨10, 100⟩] 100 200 0 ⟨10, 100⟩
      (by decide!) (by decide!) (by decide!)⟩

/-- C19, as stated, fails: a single child `{0,200}` with target 100 and total 200 straddles
100, has `offsetTop - 0 = 0 < 50` and `offsetTop + offsetHeight - 0 = 200 > 150`, but its
`offsetTop` 0 does not pass the progress guard, and the break point appended is 100, inside
the child. -/
theorem oversized_child_at_offset_is_cut :
    (0 : ℚ) < 100 ∧ firstStraddling [⟨0, 200⟩] (0 + 100) = some ⟨0, 200⟩ ∧
    (⟨0, 200⟩ : Child).offsetTop - 0 < MIN_CONTENT_RATIO * 100 ∧
    (⟨0, 200⟩ : Child).offsetTop + (⟨0, 200⟩ : Child).offsetHeight - 0
      > MAX_CONTENT_RATIO * 100 ∧
    nextBreakPoint [⟨0, 200⟩] 100 0 = 100 ∧
    nextBreakPoint [⟨0, 200⟩] 100 0 ≠ (⟨0, 200⟩ : Child).offsetTop ∧
    Straddles (nextBreakPoint [⟨0, 200⟩] 100 0) ⟨0, 200⟩ ∧
    findOptimalBreakPoints (iterationBound 100 200) [⟨0, 200⟩] 100 200 = some [0, 100] := by
  refine ⟨by norm_num, by decide!, by decide!, by decide!, by decide!, by decide!, by decide!,
    by decide!⟩

/-- C19, amended: break before an oversized child.  In a loop iteration with current offset
`c`, if the first child in list order that strictly straddles `c + targetHeight` has
`offsetTop - c < 0.5 * targetHeight` and `offsetTop + offsetHeight - c > 1.5 * targetHeight`,
then the break point appended is that child's `offsetTop` when `offsetTop > c`, so the child
is not cut, and it is `c + targetHeight` (the progress guard) when `offsetTop ≤ c`.
Children `{0,40}`, `{40,120}` with target 100 and total 200 give `[0, 40, 160]`, with a
break at 40. -/
theorem iteration_breaks_before_oversized_child (children : List Child)
    (targetHeight totalHeight c : ℚ) (e : Child)
    (hfirst : firstStraddling children (c + targetHeight) = some e)
    (hmin : e.offsetTop - c < MIN_CONTENT_RATIO * targetHeight)
    (hmax : e.offsetTop + e.offsetHeight - c > MAX_CONTENT_RATIO * targetHeight) :
    (c < e.offsetTop →
      nextBreakPoint children targetHeight c = e.offsetTop ∧
      ¬ Straddles (nextBreakPoint children targetHeight c) e ∧
      ∀ (fuel : Nat) (breakPoints : List ℚ), c + targetHeight < totalHeight →
        mainLoop children targetHeight totalHeight (fuel + 1) c breakPoints
          = mainLoop children targetHeight totalHeight fuel e.offsetTop
              (breakPoints ++ [e.offsetTop])) ∧
    (e.offsetTop ≤ c → nextBreakPoint children targetHeight c = c + targetHeight) ∧
    findOptimalBreakPoints (iterationBound 100 200) [⟨0, 40⟩, ⟨40, 120⟩] 100 200
      = some [0, 40, 160] := by
  have hch : chooseBreak c targetHeight e = e.offsetTop := by
    unfold MIN_CONTENT_RATIO at hmin
    unfold MAX_CONTENT_RATIO at hmax
    rcases chooseBreak_cases c targetHeight e with ⟨h1, _⟩ | ⟨_, h2, _⟩ | ⟨_, _, hc⟩
    · linarith
    · linarith
    · exact hc
  have hnext := nextBreakPoint_of_first children targetHeight c e hfirst
  rw [hch] at hnext
  refine ⟨fun hlt => ?_, fun hle => ?_, by decide!⟩
  · have hn : nextBreakPoint children targetHeight c = e.offsetTop := by
      rw [hnext, if_neg (not_le.mpr hlt)]
    refine ⟨hn, ?_, ?_⟩
    · rw [hn]
      unfold Straddles
      intro h
      exact lt_irrefl _ h.1
    · intro fuel acc hloop
      rw [mainLoop_step children targetHeight totalHeight c fuel acc hloop, hn]
  · rw [hnext, if_pos hle]

theorem iteration_breaks_before_oversized_child_witness :
    firstStraddling [⟨0, 40⟩, ⟨40, 120⟩] (0 + 100) = some ⟨40, 120⟩ ∧
    (⟨40, 120⟩ : Child).offsetTop - 0 < MIN_CONTENT_RATIO * 100 ∧
    (⟨40, 120⟩ : Child).offsetTop + (⟨40, 120⟩ : Child).offsetHeight - 0
      > MAX_CONTENT_RATIO * 100 ∧
    ((0 < (⟨40, 120⟩ : Child).offsetTop →
      nextBreakPoint [⟨0, 40⟩, ⟨40, 120⟩] 100 0 = (⟨40, 120⟩ : Child).offsetTop ∧
      ¬ Straddles (nextBreakPoint [⟨0, 40⟩, ⟨40, 120⟩] 100 0) ⟨40, 120⟩ ∧
      ∀ (fuel : Nat) (breakPoints : List ℚ), (0 : ℚ) + 100 < 200 →
        mainLoop [⟨0, 40⟩, ⟨40, 120⟩] 100 200 (fuel + 1) 0 breakPoints
          = mainLoop [⟨0, 40⟩, ⟨40, 120⟩] 100 200 fuel (⟨40, 120⟩ : Child).offsetTop
              (breakPoints ++ [(⟨40, 120⟩ : Child).offsetTop])) ∧
    ((⟨40, 120⟩ : Child).offsetTop ≤ 0 →
      nextBreakPoint [⟨0, 40⟩, ⟨40, 120⟩] 100 0 = 0 + 100) ∧
    findOptimalBreakPoints (iterationBound 100 200) [⟨0, 40⟩, ⟨40, 120⟩] 100 200
      = some [0, 40, 160]) :=
  ⟨by decide!, by decide!, by decide!,
    iteration_breaks_before_oversized_child [⟨0, 40⟩, ⟨40, 120⟩] 100 200 0 ⟨40, 120⟩
      (by decide!) (by decide!) (by decide!)⟩

/-! ### The loop when nothing straddles a multiple of the target height -/

theorem fixedIntervals_length_int (t total : ℚ) :
    ((fixedIntervals t total).length : ℤ) = max 1 ⌈total / t⌉ := by
  rw [fixedIntervals_length]
  rcases le_total 1 ⌈total / t⌉ with h | h
  · rw [max_eq_right h]
    have := Int.toNat_of_nonneg (le_trans zero_le_one h)
    omega
  · rw [max_eq_left h]
    omega

/-- When no child straddles a positive multiple of the target height below the total
height, a chain of iterations started at a multiple walks through the next multiples, and
the last one it reaches is below the total height. -/
theorem chain_multiples (cs : List Child) (t total : ℚ)
    (hns : ∀ k : ℕ, 0 < k → (k : ℚ) * t < total → ∀ c ∈ cs, ¬ Straddles ((k : ℚ) * t) c) :
    ∀ (s : List ℚ) (k : ℕ), List.Chain (LoopStep cs t total) ((k : ℚ) * t) s →
      (∀ (i : ℕ) (h : i < s.length), s[i] = ((k + 1 + i : ℕ) : ℚ) * t) ∧
      (s ≠ [] → ((k + s.length : ℕ) : ℚ) * t < total) := by
  intro s
  induction s with
  | nil =>
    intro k _
    exact ⟨fun i h => absurd h (by simp), fun h => absurd rfl h⟩
  | cons b s ih =>
    intro k hch
    rw [List.chain_cons] at hch
    obtain ⟨⟨hloop, hb⟩, hrest⟩ := hch
    have hk1 : ((k + 1 : ℕ) : ℚ) * t = (k : ℚ) * t + t := by
      push_cast
      ring
    have hlt : ((k + 1 : ℕ) : ℚ) * t < total := by
      rw [hk1]
      exact hloop
    have hnone := hns (k + 1) (Nat.succ_pos k) hlt
    have hnext : b = ((k + 1 : ℕ) : ℚ) * t := by
      rw [hb, hk1]
      rcases nextBreakPoint_cases cs t ((k : ℚ) * t) with ⟨_, h⟩ | ⟨e, _, hmem, hs, _⟩
      · exact h
      · rw [← hk1] at hs
        exact absurd hs (hnone e hmem)
    rw [hnext] at hrest
    obtain ⟨ih1, ih2⟩ := ih (k + 1) hrest
    constructor
    · intro i h
      cases i with
      | zero => simpa using hnext
      | succ j =>
        have hj : j < s.length := by simpa using h
        have := ih1 j hj
        simp only [List.getElem_cons_succ]
        rw [this]
        congr 2
        omega
    · intro _
      by_cases hs : s = []
      · subst hs
        simpa using hlt
      · have := ih2 hs
        have he : k + (b :: s).length = k + 1 + s.length := by
          simp only [List.length_cons]
          omega
        rw [he]
        exact this

/-- In exact arithmetic, when nothing straddles, the structured path equals the fixed-interval
fallback.  For every `targetHeight > 0`, `totalHeight ≥ 0` and every non-empty list of children none of
which satisfies `offsetTop < k * targetHeight < offsetTop + offsetHeight` for a positive
integer `k` with `k * targetHeight < totalHeight`, `findOptimalBreakPoints` returns
`[0, targetHeight, ..., (n-1) * targetHeight]` with `n = ceil(totalHeight / targetHeight)`,
the array it returns for the empty list.  Children `{0,100}`, `{100,100}` at 100/200 give
`[0, 100]`. -/
theorem findOptimalBreakPoints_no_straddle_eq_fixed (children : List Child)
    (targetHeight totalHeight : ℚ) (ht : 0 < targetHeight) (_hT : 0 ≤ totalHeight)
    (_hne : children ≠ [])
    (hns : ∀ k : ℕ, 0 < k → (k : ℚ) * targetHeight < totalHeight → ∀ c ∈ children,
      ¬ (c.offsetTop < (k : ℚ) * targetHeight ∧
          (k : ℚ) * targetHeight < c.offsetTop + c.offsetHeight)) :
    (∃ r, (∀ fuel, iterationBound targetHeight totalHeight ≤ fuel →
            findOptimalBreakPoints fuel children targetHeight totalHeight = some r) ∧
        (∀ fuel, findOptimalBreakPoints fuel [] targetHeight totalHeight = some r) ∧
        (r.length : ℤ) = max 1 ⌈totalHeight / targetHeight⌉ ∧
        ∀ (i : ℕ) (h : i < r.length), r[i] = (i : ℚ) * targetHeight) ∧
    findOptimalBreakPoints (iterationBound 100 200) [⟨0, 100⟩, ⟨100, 100⟩] 100 200
      = some [0, 100] := by
  refine ⟨?_, by decide!⟩
  obtain ⟨r, hr, hshape⟩ := findOptimalBreakPoints_run children targetHeight totalHeight ht
  have hfix : r = fixedIntervals targetHeight totalHeight := by
    rcases hshape with ⟨_, h⟩ | ⟨_, s, rfl, hch, hlast⟩
    · exact h
    · have hch0 : List.Chain (LoopStep children targetHeight totalHeight)
          (((0 : ℕ) : ℚ) * targetHeight) s := by
        simpa using hch
      obtain ⟨hidx, hbelow⟩ := chain_multiples children targetHeight totalHeight hns s 0 hch0
      have hget : ∀ (i : ℕ) (h : i < (0 :: s).length), (0 :: s)[i] = (i : ℚ) * targetHeight := by
        intro i h
        cases i with
        | zero => simp
        | succ j =>
          have hj : j < s.length := by simpa using h
          simp only [List.getElem_cons_succ]
          rw [hidx j hj]
          congr 2
          omega
      have hlastval : (0 :: s).getLast (List.cons_ne_nil _ _) = (s.length : ℚ) * targetHeight := by
        rw [List.getLast_eq_getElem]
        have := hget s.length (by simp)
        simpa using this
      rw [hlastval] at hlast
      have hupper : totalHeight ≤ ((s.length : ℚ) + 1) * targetHeight := by
        have := not_lt.mp hlast
        linarith
      have hlen : s.length = ⌈totalHeight / targetHeight⌉.toNat - 1 := by
        by_cases hs : s = []
        · subst hs
          have hceil : ⌈totalHeight / targetHeight⌉ ≤ 1 := by
            rw [Int.ceil_le, div_le_iff₀ ht]
            simpa using hupper
          simp only [List.length_nil]
          omega
        · have hlow := hbelow hs
          simp only [Nat.zero_add] at hlow
          have hceil : ⌈totalHeight / targetHeight⌉ = (s.length : ℤ) + 1 := by
            rw [Int.ceil_eq_iff]
            constructor
            · rw [lt_div_iff₀ ht]
              push_cast
              linarith
            · rw [div_le_iff₀ ht]
              push_cast
              exact hupper
          rw [hceil]
          omega
      apply List.ext_getElem
      · rw [fixedIntervals_length, List.length_cons, hlen]
      · intro i h1 h2
        rw [hget i h1, fixedIntervals_getElem]
  subst hfix
  exact ⟨fixedIntervals targetHeight totalHeight, hr,
    fun fuel => by simp [findOptimalBreakPoints],
    fixedIntervals_length_int targetHeight totalHeight,
    fun i h => fixedIntervals_getElem targetHeight totalHeight i h⟩

theorem findOptimalBreakPoints_no_straddle_eq_fixed_witness :
    (0 : ℚ) < 100 ∧ (0 : ℚ) ≤ 200 ∧ [(⟨0, 100⟩ : Child), ⟨100, 100⟩] ≠ [] ∧
    (∀ k : ℕ, 0 < k → (k : ℚ) * 100 < 200 → ∀ c ∈ [(⟨0, 100⟩ : Child), ⟨100, 100⟩],
      ¬ (c.offsetTop < (k : ℚ) * 100 ∧ (k : ℚ) * 100 < c.offsetTop + c.offsetHeight)) ∧
    ((∃ r, (∀ fuel, iterationBound 100 200 ≤ fuel →
            findOptimalBreakPoints fuel [⟨0, 100⟩, ⟨100, 100⟩] 100 200 = some r) ∧
        (∀ fuel, findOptimalBreakPoints fuel [] 100 200 = some r) ∧
        (r.length : ℤ) = max 1 ⌈(200 : ℚ) / 100⌉ ∧
        ∀ (i : ℕ) (h : i < r.length), r[i] = (i : ℚ) * 100) ∧
    findOptimalBreakPoints (iterationBound 100 200) [⟨0, 100⟩, ⟨100, 100⟩] 100 200
      = some [0, 100]) :=
  have hns : ∀ k : ℕ, 0 < k → (k : ℚ) * 100 < 200 → ∀ c ∈ [(⟨0, 100⟩ : Child), ⟨100, 100⟩],
      ¬ (c.offsetTop < (k : ℚ) * 100 ∧ (k : ℚ) * 100 < c.offsetTop + c.offsetHeight) := by
    intro k hk hlt c hc
    have hk2 : (k : ℚ) < 2 := by linarith
    have hk3 : k < 2 := by exact_mod_cast hk2
    have hk1 : k = 1 := by omega
    subst hk1
    simp only [List.mem_cons, List.mem_singleton, List.not_mem_nil, or_false] at hc
    rcases hc with rfl | rfl
    · intro h
      have h2 := h.2
      norm_num at h2
    · intro h
      have h1 := h.1
      norm_num at h1
  ⟨by norm_num, by norm_num, by simp, hns,
    findOptimalBreakPoints_no_straddle_eq_fixed [⟨0, 100⟩, ⟨100, 100⟩] 100 200 (by norm_num)
      (by norm_num) (by simp) hns⟩

/-! ### Lemmas on `getViewportDimensions` -/

theorem splitX_ne_nil (s : List Nat) : splitX s ≠ [] := by
  induction s with
  | nil => simp [splitX]
  | cons c s ih =>
    unfold splitX
    split_ifs
    · simp
    · split <;> simp

theorem splitX_of_not_mem (b : List Nat) (hb : 0x78 ∉ b) : splitX b = [b] := by
  induction b with
  | nil => rfl
  | cons c b ih =>
    have hc : c ≠ 0x78 := fun h => hb (by simp [h])
    have hb2 : 0x78 ∉ b := fun h => hb (List.mem_cons_of_mem _ h)
    simp [splitX, hc, ih hb2]

theorem splitX_append (a rest : List Nat) (ha : 0x78 ∉ a) :
    splitX (a ++ 0x78 :: rest) = a :: splitX rest := by
  induction a with
  | nil => simp [splitX]
  | cons c a ih =>
    have hc : c ≠ 0x78 := fun h => ha (by simp [h])
    have ha2 : 0x78 ∉ a := fun h => ha (List.mem_cons_of_mem _ h)
    simp [splitX, hc, ih ha2]

/-- A text that contains `x` splits at its first `x`. -/
theorem exists_first_x (s : List Nat) (h : 0x78 ∈ s) :
    ∃ a rest, s = a ++ 0x78 :: rest ∧ 0x78 ∉ a := by
  induction s with
  | nil => simp at h
  | cons c s ih =>
    by_cases hc : c = 0x78
    · exact ⟨[], s, by simp [hc], by simp⟩
    · have hs : 0x78 ∈ s := by
        rcases List.mem_cons.mp h with h1 | h1
        · exact absurd h1.symm hc
        · exact h1
      obtain ⟨a, rest, rfl, ha⟩ := ih hs
      refine ⟨c :: a, rest, rfl, ?_⟩
      intro hmem
      rcases List.mem_cons.mp hmem with h1 | h1
      · exact hc h1.symm
      · exact ha h1

/-- A text that contains `x` has at least two segments. -/
theorem splitX_two (s : List Nat) (h : 0x78 ∈ s) :
    ∃ a b rest, splitX s = a :: b :: rest := by
  obtain ⟨a, r, rfl, ha⟩ := exists_first_x s h
  rw [splitX_append a r ha]
  obtain ⟨b, rest, hb⟩ := List.exists_cons_of_ne_nil (splitX_ne_nil r)
  exact ⟨a, b, rest, by rw [hb]⟩

theorem ne_auto_of_mem_x (s : List Nat) (h : 0x78 ∈ s) : s ≠ utf16 "auto" := by
  rintro rfl
  revert h
  decide

/-- The outcome of `getViewportDimensions` on a text with `x`, from its first two
segments. -/
theorem getViewportDimensions_of_split (Number : List Nat → JSNumber) (s a b : List Nat)
    (rest : List (List Nat)) (hx : 0x78 ∈ s) (hsplit : splitX s = a :: b :: rest) :
    getViewportDimensions Number s
      = if (Number a).isNaN || (Number b).isNaN || (Number a).leZero || (Number b).leZero then
          (none, [[.str (utf16 "Invalid viewport dimensions:"), .num (Number a),
            .num (Number b)]])
        else (some ⟨Number a, Number b⟩, []) := by
  unfold getViewportDimensions
  rw [if_neg (ne_auto_of_mem_x s hx), if_neg (not_not.mpr hx), hsplit]
  simp only [List.map_cons, List.getD_cons_zero, List.getD_cons_succ]

theorem decimalAux_digits :
    ∀ (fuel n : Nat) (acc : List Nat), (∀ c ∈ acc, 0x30 ≤ c ∧ c ≤ 0x39) →
      ∀ c ∈ decimalAux fuel n acc, 0x30 ≤ c ∧ c ≤ 0x39 := by
  intro fuel
  induction fuel with
  | zero => intro n acc h; simpa [decimalAux] using h
  | succ f ih =>
    intro n acc h
    unfold decimalAux
    split_ifs with hn
    · intro c hc
      rcases List.mem_cons.mp hc with rfl | hc
      · omega
      · exact h c hc
    · apply ih
      intro c hc
      rcases List.mem_cons.mp hc with rfl | hc
      · omega
      · exact h c hc

theorem decimal_digits (n : Nat) : ∀ c ∈ decimal n, 0x30 ≤ c ∧ c ≤ 0x39 :=
  decimalAux_digits (n + 1) n [] (by simp)

theorem decimal_no_x (n : Nat) : 0x78 ∉ decimal n := by
  intro h
  have := decimal_digits n _ h
  omega

theorem readDigits_decimalAux :
    ∀ (fuel n : Nat) (acc : List Nat), n < fuel →
      readDigits 0 (decimalAux fuel n acc) = readDigits n acc := by
  intro fuel
  induction fuel with
  | zero => intro n acc h; omega
  | succ f ih =>
    intro n acc h
    unfold decimalAux
    split_ifs with hn
    · have h1 : 0x30 ≤ 0x30 + n ∧ 0x30 + n ≤ 0x39 := by omega
      rw [readDigits, if_pos h1]
      congr 1
      omega
    · rw [ih (n / 10) _ (by omega)]
      have h1 : 0x30 ≤ 0x30 + n % 10 ∧ 0x30 + n % 10 ≤ 0x39 := by omega
      rw [readDigits, if_pos h1]
      congr 1
      omega

theorem decimalAux_ne_nil_of_acc :
    ∀ (fuel n : Nat) (acc : List Nat), acc ≠ [] → decimalAux fuel n acc ≠ [] := by
  intro fuel
  induction fuel with
  | zero => intro n acc h; simpa [decimalAux] using h
  | succ f ih =>
    intro n acc _
    unfold decimalAux
    split_ifs
    · simp
    · exact ih _ _ (by simp)

theorem decimal_ne_nil (n : Nat) : decimal n ≠ [] := by
  unfold decimal decimalAux
  split_ifs
  · simp
  · exact decimalAux_ne_nil_of_acc _ _ _ (by simp)

/-- Reading the decimal string of `n` exactly gives `n` back. -/
theorem decimalNumber_decimal (n : Nat) : decimalNumber (decimal n) = .fin (n : ℚ) := by
  have hread : readDigits 0 (decimal n) = some n := by
    unfold decimal
    rw [readDigits_decimalAux (n + 1) n [] (by omega)]
    rfl
  have hne : decimal n ≠ [] := decimal_ne_nil n
  obtain ⟨d, ds, hd⟩ := List.exists_cons_of_ne_nil hne
  have hdig := decimal_digits n d (by rw [hd]; simp)
  rw [hd] at hread ⊢
  unfold decimalNumber
  split
  · rename_i heq
    simp at heq
  · rename_i heq
    simp only [List.cons.injEq] at heq
    omega
  · rename_i heq
    simp only [List.cons.injEq] at heq
    omega
  · rename_i heq
    simp only [List.cons.injEq] at heq
    omega
  · rename_i heq
    simp only [List.cons.injEq] at heq
    omega
  · rw [hread]

theorem utf16_x : utf16 "x" = [0x78] := by decide

theorem gtZero_of_not_bad (n : JSNumber) (h1 : n.isNaN = false) (h2 : n.leZero = false) :
    n.gtZero = true := by
  cases n with
  | nan => simp [JSNumber.isNaN] at h1
  | negInf => simp [JSNumber.leZero] at h2
  | fin q =>
    simp only [JSNumber.leZero, decide_eq_false_iff_not, not_le] at h2
    simpa [JSNumber.gtZero] using h2
  | posInf => rfl

/-- The three ways `getViewportDimensions` can go. -/
theorem getViewportDimensions_cases (Number : List Nat → JSNumber) (s : List Nat) :
    (s = utf16 "auto" ∧ getViewportDimensions Number s = (none, [])) ∨
    (s ≠ utf16 "auto" ∧ 0x78 ∉ s ∧ getViewportDimensions Number s
        = (none, [[.str (utf16 "Invalid viewport size format:"), .str s]])) ∨
    (0x78 ∈ s ∧ ∃ a b rest, splitX s = a :: b :: rest ∧
      getViewportDimensions Number s
        = if (Number a).isNaN || (Number b).isNaN || (Number a).leZero || (Number b).leZero then
            (none, [[.str (utf16 "Invalid viewport dimensions:"), .num (Number a),
              .num (Number b)]])
          else (some ⟨Number a, Number b⟩, [])) := by
  by_cases hauto : s = utf16 "auto"
  · left
    exact ⟨hauto, by simp [getViewportDimensions, hauto]⟩
  · right
    by_cases hx : 0x78 ∈ s
    · right
      obtain ⟨a, b, rest, hsplit⟩ := splitX_two s hx
      exact ⟨hx, a, b, rest, hsplit, getViewportDimensions_of_split Number s a b rest hx hsplit⟩
    · left
      refine ⟨hauto, hx, ?_⟩
      unfold getViewportDimensions
      rw [if_neg hauto, if_pos hx]

/-! ### Claims on `getViewportDimensions` -/

/-- C13: round trip on well-formed sizes.  For all positive integers `w` and `h` whose
decimal strings `Number` reads as `w` and `h`, `getViewportDimensions(decimal(w) + "x" +
decimal(h))` returns `{width: w, height: h}` and logs nothing; this is so for all positive
`w` and `h` under the exact reading of decimal strings, and `"1200x675"` gives
`{1200, 675}`, `"1x1"` gives `{1, 1}`. -/
theorem getViewportDimensions_round_trip (Number : List Nat → JSNumber) (w h : Nat)
    (hw : 0 < w) (hh : 0 < h) (hNw : Number (decimal w) = .fin (w : ℚ))
    (hNh : Number (decimal h) = .fin (h : ℚ)) :
    getViewportDimensions Number (decimal w ++ utf16 "x" ++ decimal h)
      = (some ⟨.fin (w : ℚ), .fin (h : ℚ)⟩, []) ∧
    getViewportDimensions decimalNumber (decimal w ++ utf16 "x" ++ decimal h)
      = (some ⟨.fin (w : ℚ), .fin (h : ℚ)⟩, []) ∧
    getViewportDimensions decimalNumber (utf16 "1200x675")
      = (some ⟨.fin 1200, .fin 675⟩, []) ∧
    getViewportDimensions decimalNumber (utf16 "1x1") = (some ⟨.fin 1, .fin 1⟩, []) := by
  have hgen : ∀ N : List Nat → JSNumber, N (decimal w) = .fin (w : ℚ) →
      N (decimal h) = .fin (h : ℚ) →
      getViewportDimensions N (decimal w ++ utf16 "x" ++ decimal h)
        = (some ⟨.fin (w : ℚ), .fin (h : ℚ)⟩, []) := by
    intro N h1 h2
    have hsplit : splitX (decimal w ++ utf16 "x" ++ decimal h) = [decimal w, decimal h] := by
      rw [utf16_x, List.append_assoc, List.singleton_append,
        splitX_append _ _ (decimal_no_x w), splitX_of_not_mem _ (decimal_no_x h)]
    have hx : 0x78 ∈ decimal w ++ utf16 "x" ++ decimal h := by
      rw [utf16_x]
      simp
    rw [getViewportDimensions_of_split N _ _ _ [] hx hsplit, h1, h2]
    have hwq : ¬ ((w : ℚ) ≤ 0) := by
      have : (0 : ℚ) < (w : ℚ) := by exact_mod_cast hw
      exact not_le.mpr this
    have hhq : ¬ ((h : ℚ) ≤ 0) := by
      have : (0 : ℚ) < (h : ℚ) := by exact_mod_cast hh
      exact not_le.mpr this
    simp [JSNumber.isNaN, JSNumber.leZero, hwq, hhq]
  exact ⟨hgen Number hNw hNh, hgen decimalNumber (decimalNumber_decimal w)
    (decimalNumber_decimal h), by decide!, by decide!⟩

theorem getViewportDimensions_round_trip_witness :
    0 < 10000 ∧ 0 < 628 ∧ decimalNumber (decimal 10000) = .fin ((10000 : ℕ) : ℚ) ∧
    decimalNumber (decimal 628) = .fin ((628 : ℕ) : ℚ) ∧
    (getViewportDimensions decimalNumber (decimal 10000 ++ utf16 "x" ++ decimal 628)
      = (some ⟨.fin ((10000 : ℕ) : ℚ), .fin ((628 : ℕ) : ℚ)⟩, []) ∧
    getViewportDimensions decimalNumber (decimal 10000 ++ utf16 "x" ++ decimal 628)
      = (some ⟨.fin ((10000 : ℕ) : ℚ), .fin ((628 : ℕ) : ℚ)⟩, []) ∧
    getViewportDimensions decimalNumber (utf16 "1200x675")
      = (some ⟨.fin 1200, .fin 675⟩, []) ∧
    getViewportDimensions decimalNumber (utf16 "1x1") = (some ⟨.fin 1, .fin 1⟩, [])) :=
  ⟨by decide, by decide, decimalNumber_decimal 10000, decimalNumber_decimal 628,
    getViewportDimensions_round_trip decimalNumber 10000 628 (by decide) (by decide)
      (decimalNumber_decimal 10000) (decimalNumber_decimal 628)⟩

/-- C14: for every reading `Number` and every input string `s`, `getViewportDimensions(s)`
returns null whenever one of the first two `x`-separated segments parses to NaN or to a
value `≤ 0`; so every non-null result has `width > 0` and `height > 0`; the function is
total on strings.  Under the exact reading of decimal strings `"0x675"`, `"1200x0"`,
`"-1200x675"` and `"abcx675"` give null. -/
theorem getViewportDimensions_null_on_bad_segment (Number : List Nat → JSNumber)
    (s : List Nat) :
    (∀ (i : Nat) (seg : List Nat), i < 2 → (splitX s)[i]? = some seg →
      ((Number seg).isNaN = true ∨ (Number seg).leZero = true) →
      (getViewportDimensions Number s).1 = none) ∧
    (∀ d, (getViewportDimensions Number s).1 = some d →
      d.width.gtZero = true ∧ d.height.gtZero = true) ∧
    (getViewportDimensions decimalNumber (utf16 "0x675")).1 = none ∧
    (getViewportDimensions decimalNumber (utf16 "1200x0")).1 = none ∧
    (getViewportDimensions decimalNumber (utf16 "-1200x675")).1 = none ∧
    (getViewportDimensions decimalNumber (utf16 "abcx675")).1 = none := by
  refine ⟨?_, ?_, by decide!, by decide!, by decide!, by decide!⟩
  · intro i seg hi hseg hbad
    rcases getViewportDimensions_cases Number s with ⟨_, h⟩ | ⟨_, _, h⟩ | ⟨_, a, b, rest, hsp, h⟩
    · rw [h]
    · rw [h]
    · rw [h]
      rw [hsp] at hseg
      have hseg2 : seg = a ∨ seg = b := by
        rcases i with _ | _ | i
        · left
          simpa using hseg.symm
        · right
          simpa using hseg.symm
        · omega
      have hcond : ((Number a).isNaN || (Number b).isNaN || (Number a).leZero
          || (Number b).leZero) = true := by
        rcases hseg2 with rfl | rfl <;> rcases hbad with hb | hb <;> simp [hb]
      rw [if_pos hcond]
  · intro d hd
    rcases getViewportDimensions_cases Number s with ⟨_, h⟩ | ⟨_, _, h⟩ | ⟨_, a, b, rest, _, h⟩
    · rw [h] at hd
      cases hd
    · rw [h] at hd
      cases hd
    · rw [h] at hd
      split_ifs at hd with hcond
      · cases hd
        simp only [Bool.or_eq_true, not_or, Bool.not_eq_true] at hcond
        obtain ⟨⟨⟨h1, h2⟩, h3⟩, h4⟩ := hcond
        exact ⟨gtZero_of_not_bad _ h1 h3, gtZero_of_not_bad _ h2 h4⟩

theorem getViewportDimensions_null_on_bad_segment_witness :
    (∀ (i : Nat) (seg : List Nat), i < 2 → (splitX (utf16 "1200x-675"))[i]? = some seg →
      ((decimalNumber seg).isNaN = true ∨ (decimalNumber seg).leZero = true) →
      (getViewportDimensions decimalNumber (utf16 "1200x-675")).1 = none) ∧
    (∀ d, (getViewportDimensions decimalNumber (utf16 "1200x-675")).1 = some d →
      d.width.gtZero = true ∧ d.height.gtZero = true) ∧
    (getViewportDimensions decimalNumber (utf16 "0x675")).1 = none ∧
    (getViewportDimensions decimalNumber (utf16 "1200x0")).1 = none ∧
    (getViewportDimensions decimalNumber (utf16 "-1200x675")).1 = none ∧
    (getViewportDimensions decimalNumber (utf16 "abcx675")).1 = none :=
  getViewportDimensions_null_on_bad_segment decimalNumber (utf16 "1200x-675")

/-- C15: only the first two segments matter.  For every reading `Number`, all strings `a`
and `b` without `x` and every string `t`, `getViewportDimensions(a + "x" + b + "x" + t)`
equals `getViewportDimensions(a + "x" + b)`: same returned value, same diagnostic.  Under the
exact reading of decimal strings `"1200x675x100"` gives `{width: 1200, height: 675}`. -/
theorem getViewportDimensions_extra_segments (Number : List Nat → JSNumber)
    (a b t : List Nat) (ha : 0x78 ∉ a) (hb : 0x78 ∉ b) :
    getViewportDimensions Number (a ++ utf16 "x" ++ b ++ utf16 "x" ++ t)
      = getViewportDimensions Number (a ++ utf16 "x" ++ b) ∧
    getViewportDimensions decimalNumber (utf16 "1200x675x100")
      = (some ⟨.fin 1200, .fin 675⟩, []) := by
  refine ⟨?_, by decide!⟩
  have h1 : splitX (a ++ utf16 "x" ++ b ++ utf16 "x" ++ t) = a :: b :: splitX t := by
    have e : a ++ utf16 "x" ++ b ++ utf16 "x" ++ t = a ++ 0x78 :: (b ++ 0x78 :: t) := by
      rw [utf16_x]
      simp
    rw [e, splitX_append _ _ ha, splitX_append _ _ hb]
  have h2 : splitX (a ++ utf16 "x" ++ b) = [a, b] := by
    have e : a ++ utf16 "x" ++ b = a ++ 0x78 :: b := by
      rw [utf16_x]
      simp
    rw [e, splitX_append _ _ ha, splitX_of_not_mem _ hb]
  have hx1 : 0x78 ∈ a ++ utf16 "x" ++ b ++ utf16 "x" ++ t := by
    rw [utf16_x]
    simp
  have hx2 : 0x78 ∈ a ++ utf16 "x" ++ b := by
    rw [utf16_x]
    simp
  rw [getViewportDimensions_of_split Number _ a b _ hx1 h1,
    getViewportDimensions_of_split Number _ a b _ hx2 h2]

theorem getViewportDimensions_extra_segments_witness :
    0x78 ∉ utf16 "1200" ∧ 0x78 ∉ utf16 "0" ∧
    (getViewportDimensions decimalNumber
        (utf16 "1200" ++ utf16 "x" ++ utf16 "0" ++ utf16 "x" ++ utf16 "7x8")
      = getViewportDimensions decimalNumber (utf16 "1200" ++ utf16 "x" ++ utf16 "0") ∧
    getViewportDimensions decimalNumber (utf16 "1200x675x100")
      = (some ⟨.fin 1200, .fin 675⟩, [])) :=
  ⟨by decide, by decide,
    getViewportDimensions_extra_segments decimalNumber (utf16 "1200") (utf16 "0") (utf16 "7x8")
      (by decide) (by decide)⟩

/-- C16: the diagnostic of `getViewportDimensions` is determined by the failure kind, for
every reading `Number`.  For `"auto"`: null and no diagnostic.  For every other string
without `x`, the empty string included: null and exactly
`('Invalid viewport size format:', s)`.  For every string with `x` whose parsed width or
height is NaN or `≤ 0`: null and exactly `('Invalid viewport dimensions:', width, height)`,
width and height being `Number` of the first two segments.  On success: no diagnostic. -/
theorem getViewportDimensions_diagnostics (Number : List Nat → JSNumber) :
    getViewportDimensions Number (utf16 "auto") = (none, []) ∧
    (∀ s : List Nat, s ≠ utf16 "auto" → 0x78 ∉ s →
      getViewportDimensions Number s
        = (none, [[.str (utf16 "Invalid viewport size format:"), .str s]])) ∧
    (∀ s : List Nat, 0x78 ∈ s → ∃ a b rest, splitX s = a :: b :: rest ∧
      (((Number a).isNaN = true ∨ (Number b).isNaN = true ∨ (Number a).leZero = true ∨
          (Number b).leZero = true) →
        getViewportDimensions Number s
          = (none, [[.str (utf16 "Invalid viewport dimensions:"), .num (Number a),
              .num (Number b)]]))) ∧
    (∀ (s : List Nat) (d : Dimensions), (getViewportDimensions Number s).1 = some d →
      (getViewportDimensions Number s).2 = []) := by
  refine ⟨by simp [getViewportDimensions], ?_, ?_, ?_⟩
  · intro s hauto hx
    unfold getViewportDimensions
    rw [if_neg hauto, if_pos hx]
  · intro s hx
    obtain ⟨a, b, rest, hsplit⟩ := splitX_two s hx
    refine ⟨a, b, rest, hsplit, ?_⟩
    intro hbad
    rw [getViewportDimensions_of_split Number s a b rest hx hsplit, if_pos]
    rcases hbad with h | h | h | h <;> simp [h]
  · intro s d hd
    rcases getViewportDimensions_cases Number s with ⟨_, h⟩ | ⟨_, _, h⟩ | ⟨_, a, b, rest, _, h⟩
    · rw [h]
    · rw [h] at hd
      cases hd
    · rw [h] at hd ⊢
      split_ifs at hd ⊢ with hcond
      · cases hd
        rfl

theorem getViewportDimensions_diagnostics_witness :
    getViewportDimensions decimalNumber (utf16 "auto") = (none, []) ∧
    (∀ s : List Nat, s ≠ utf16 "auto" → 0x78 ∉ s →
      getViewportDimensions decimalNumber s
        = (none, [[.str (utf16 "Invalid viewport size format:"), .str s]])) ∧
    (∀ s : List Nat, 0x78 ∈ s → ∃ a b rest, splitX s = a :: b :: rest ∧
      (((decimalNumber a).isNaN = true ∨ (decimalNumber b).isNaN = true ∨
          (decimalNumber a).leZero = true ∨ (decimalNumber b).leZero = true) →
        getViewportDimensions decimalNumber s
          = (none, [[.str (utf16 "Invalid viewport dimensions:"), .num (decimalNumber a),
              .num (decimalNumber b)]]))) ∧
    (∀ (s : List Nat) (d : Dimensions), (getViewportDimensions decimalNumber s).1 = some d →
      (getViewportDimensions decimalNumber s).2 = []) :=
  getViewportDimensions_diagnostics decimalNumber

/-- The diagnostics of the test suite, under the exact reading of decimal strings. -/
theorem getViewportDimensions_diagnostics_examples :
    getViewportDimensions decimalNumber (utf16 "1200-675")
      = (none, [[.str (utf16 "Invalid viewport size format:"), .str (utf16 "1200-675")]]) ∧
    getViewportDimensions decimalNumber (utf16 "")
      = (none, [[.str (utf16 "Invalid viewport size format:"), .str (utf16 "")]]) ∧
    getViewportDimensions decimalNumber (utf16 "0x675")
      = (none, [[.str (utf16 "Invalid viewport dimensions:"), .num (.fin 0),
          .num (.fin 675)]]) ∧
    getViewportDimensions decimalNumber (utf16 "abcx675")
      = (none, [[.str (utf16 "Invalid viewport dimensions:"), .num .nan, .num (.fin 675)]]) := by
  refine ⟨by decide!, by decide!, by decide!, by decide!⟩

/-! ### Matching never crosses a code unit that the pattern rejects -/

theorem greedy_cut {R : Type} (p : Nat → Bool) (k k2 : List Nat → List Nat → Option R)
    (f : R → R) (u : Nat) (b : List Nat) (hu : p u = false)
    (hk : ∀ cur r, k2 cur (r ++ u :: b) = (k cur r).map f) :
    ∀ (s cur : List Nat), greedy p k2 cur (s ++ u :: b) = (greedy p k cur s).map f := by
  intro s
  induction s with
  | nil =>
    intro cur
    rw [List.nil_append, greedy_stop p k2 cur u b hu]
    exact hk cur []
  | cons c s ih =>
    intro cur
    rw [List.cons_append]
    unfold greedy
    split_ifs
    · rw [ih (cur ++ [c])]
      cases hg : greedy p k (cur ++ [c]) s with
      | some r => rfl
      | none =>
        simp only [Option.map_none']
        exact hk cur (c :: s)
    · exact hk cur (c :: s)

/-- A match on `s` followed by a rejected code unit is the match on `s` alone. -/
theorem matchHere_cut (u : Nat) (b : List Nat) :
    ∀ (pat : List Tok), (∀ tok ∈ pat, Tok.rejects u tok) →
      ∀ (s : List Nat) (done : List (List Nat)) (cur : List Nat),
        matchHere pat (s ++ u :: b) done cur
          = (matchHere pat s done cur).map (fun r => (r.1, r.2 ++ u :: b)) := by
  intro pat
  induction pat with
  | nil => intro _ s done cur; simp [matchHere]
  | cons tok ts ih =>
    intro hrej s done cur
    have hts : ∀ t ∈ ts, Tok.rejects u t := fun t ht => hrej t (List.mem_cons_of_mem _ ht)
    have htok := hrej tok (List.mem_cons_self _ _)
    cases tok with
    | gopen => exact ih hts s done []
    | gclose => exact ih hts s (done ++ [cur]) []
    | one p =>
      have hp : p u = false := htok
      cases s with
      | nil => simp [matchHere, hp]
      | cons c s =>
        simp only [List.cons_append, matchHere]
        split_ifs
        · exact ih hts s done _
        · rfl
    | star p =>
      have hp : p u = false := htok
      rw [matchHere_star, matchHere_star]
      exact greedy_cut p _ _ _ u b hp (fun cur2 r => ih hts r done cur2) s cur
    | plus p =>
      have hp : p u = false := htok
      cases s with
      | nil => simp [matchHere, hp]
      | cons c s =>
        simp only [List.cons_append, matchHere]
        split_ifs
        · exact greedy_cut p _ _ _ u b hp (fun cur2 r => ih hts r done cur2) s _
        · rfl

theorem greedy_rest_length {R : Type} (p : Nat → Bool) (k : List Nat → List Nat → Option R)
    (len : R → Nat)
    (hk : ∀ cur rest r, k cur rest = some r → len r ≤ rest.length) :
    ∀ (s cur : List Nat) (r : R), greedy p k cur s = some r → len r ≤ s.length := by
  intro s
  induction s with
  | nil => intro cur r h; exact hk cur [] r h
  | cons c s ih =>
    intro cur r h
    unfold greedy at h
    split_ifs at h
    · cases hg : greedy p k (cur ++ [c]) s with
      | some r2 =>
        rw [hg] at h
        simp only [Option.some.injEq] at h
        subst h
        have := ih _ _ hg
        simp only [List.length_cons]
        omega
      | none =>
        rw [hg] at h
        exact hk cur (c :: s) r h
    · exact hk cur (c :: s) r h

/-- The input left after a match is no longer than the input. -/
theorem matchHere_rest_length :
    ∀ (pat : List Tok) (s : List Nat) (done : List (List Nat)) (cur : List Nat)
      (r : List (List Nat) × List Nat), matchHere pat s done cur = some r →
        r.2.length ≤ s.length := by
  intro pat
  induction pat with
  | nil =>
    intro s done cur r h
    simp only [matchHere, Option.some.injEq] at h
    subst h
    exact le_refl _
  | cons tok ts ih =>
    intro s done cur r h
    cases tok with
    | gopen => exact ih s done [] r h
    | gclose => exact ih s (done ++ [cur]) [] r h
    | one p =>
      cases s with
      | nil => simp [matchHere] at h
      | cons c s =>
        simp only [matchHere] at h
        split_ifs at h
        have := ih s done _ r h
        simp only [List.length_cons]
        omega
    | star p =>
      rw [matchHere_star] at h
      exact greedy_rest_length p _ (fun r => r.2.length)
        (fun cur2 rest r2 h2 => ih rest done cur2 r2 h2) s cur r h
    | plus p =>
      cases s with
      | nil => simp [matchHere] at h
      | cons c s =>
        simp only [matchHere] at h
        split_ifs at h
        have hg : r.2.length ≤ s.length := greedy_rest_length p _ (fun r => r.2.length)
          (fun cur2 rest r2 h2 => ih rest done cur2 r2 h2) s _ r h
        simp only [List.length_cons]
        omega

/-- The scan of a text splits at a code unit that the pattern rejects. -/
theorem replaceFrom_cut (pat : List Tok) (tpl : List Repl) (u : Nat) (b : List Nat)
    (hrej : ∀ tok ∈ pat, Tok.rejects u tok) :
    ∀ (s : List Nat) (skip : Nat), skip ≤ s.length →
      replaceFrom pat tpl skip (s ++ u :: b)
        = replaceFrom pat tpl skip s ++ u :: replaceFrom pat tpl 0 b := by
  intro s
  induction s with
  | nil =>
    intro skip hskip
    have h0 : skip = 0 := by simpa using hskip
    subst h0
    have hcut := matchHere_cut u b pat hrej [] [] []
    rw [List.nil_append] at hcut ⊢
    conv_lhs => rw [replaceFrom, hcut]
    cases hm : matchHere pat [] [] [] with
    | none => simp [replaceFrom, hm]
    | some r =>
      obtain ⟨caps, rest⟩ := r
      have hlen := matchHere_rest_length pat [] [] [] _ hm
      have hrest : rest = [] := by simpa using hlen
      subst hrest
      simp [replaceFrom, hm]
  | cons c s ih =>
    intro skip hskip
    cases skip with
    | succ k =>
      rw [List.cons_append, replaceFrom, replaceFrom]
      exact ih k (by simpa using hskip)
    | zero =>
      have hcut := matchHere_cut u b pat hrej (c :: s) [] []
      rw [List.cons_append] at hcut ⊢
      conv_lhs => rw [replaceFrom, hcut]
      conv_rhs => rw [replaceFrom]
      cases hm : matchHere pat (c :: s) [] [] with
      | none =>
        simp only [Option.map_none', List.cons_append, List.cons.injEq, true_and]
        exact ih 0 (Nat.zero_le _)
      | some r =>
        obtain ⟨caps, rest⟩ := r
        have hlen : rest.length ≤ s.length + 1 := by
          simpa using matchHere_rest_length pat (c :: s) [] [] _ hm
        have hn : (c :: (s ++ u :: b)).length - (rest ++ u :: b).length
            = (c :: s).length - rest.length := by
          simp only [List.length_cons, List.length_append]
          omega
        simp only [Option.map_some']
        rw [hn]
        by_cases h0 : (c :: s).length - rest.length = 0
        · simp only [h0, if_true, List.append_assoc, List.cons_append]
          rw [ih 0 (Nat.zero_le _)]
        · simp only [h0, if_false, List.append_assoc]
          rw [ih _ (by simp only [List.length_cons]; omega)]

theorem replaceAll_cut (pat : List Tok) (tpl : List Repl) (u : Nat)
    (hrej : ∀ tok ∈ pat, Tok.rejects u tok) (a b : List Nat) :
    replaceAll pat tpl (a ++ u :: b) = replaceAll pat tpl a ++ u :: replaceAll pat tpl b :=
  replaceFrom_cut pat tpl u b hrej a 0 (Nat.zero_le _)

/-- None of the seven patterns can consume a newline. -/
theorem rules_reject_newline :
    (∀ tok ∈ rule1, Tok.rejects 0x0A tok) ∧ (∀ tok ∈ rule2, Tok.rejects 0x0A tok) ∧
    (∀ tok ∈ rule3, Tok.rejects 0x0A tok) ∧ (∀ tok ∈ rule4, Tok.rejects 0x0A tok) ∧
    (∀ tok ∈ rule5, Tok.rejects 0x0A tok) ∧ (∀ tok ∈ rule6, Tok.rejects 0x0A tok) ∧
    (∀ tok ∈ rule7, Tok.rejects 0x0A tok) := by
  have h1 : lit 0x5F 0x0A = false := by decide
  have h2 : lit 0x2A 0x0A = false := by decide
  have h3 : wide 0x0A = false := by decide
  have h4 : notUnderscoreNewline 0x0A = false := by decide
  have h5 : cjkPunct 0x0A = false := by decide
  have h6 : notStarNewline 0x0A = false := by decide
  refine ⟨?_, ?_, ?_, ?_, ?_, ?_, ?_⟩ <;>
    simp [rule1, rule2, rule3, rule4, rule5, rule6, rule7, us, ast, Tok.rejects, h1, h2, h3, h4,
      h5, h6]

/-! ### Claims on `normalizeMultibyteEmphasis`, continued -/

/-- C11: emphasis is never matched across a newline, so `normalizeMultibyteEmphasis` works
line by line: for all strings `a` and `b`, the result on `a + "\n" + b` is the result on
`a`, a newline, and the result on `b`.  In particular `"__test\nあいう__"` and
`"_test\n中文_"` are returned unchanged. -/
theorem normalizeMultibyteEmphasis_line_by_line (a b : List Nat) :
    normalizeMultibyteEmphasis (a ++ utf16 "\n" ++ b)
      = normalizeMultibyteEmphasis a ++ utf16 "\n" ++ normalizeMultibyteEmphasis b ∧
    normalizeMultibyteEmphasis (utf16 "__test\nあいう__") = utf16 "__test\nあいう__" ∧
    normalizeMultibyteEmphasis (utf16 "_test\n中文_") = utf16 "_test\n中文_" := by
  refine ⟨?_, by decide, by decide⟩
  obtain ⟨h1, h2, h3, h4, h5, h6, h7⟩ := rules_reject_newline
  have hnl : utf16 "\n" = [0x0A] := by decide
  have e : ∀ l r : List Nat, l ++ utf16 "\n" ++ r = l ++ 0x0A :: r := by
    intro l r
    rw [hnl]
    simp
  rw [e, e]
  simp only [normalizeMultibyteEmphasis, underscoreRules]
  rw [replaceAll_cut rule1 _ _ h1, replaceAll_cut rule2 _ _ h2, replaceAll_cut rule3 _ _ h3,
    replaceAll_cut rule4 _ _ h4, replaceAll_cut rule5 _ _ h5, replaceAll_cut rule6 _ _ h6,
    replaceAll_cut rule7 _ _ h7]

/-! ### Texts with a single wide code unit -/

theorem greedy_none_closed {R : Type} (p : Nat → Bool) (k : List Nat → List Nat → Option R)
    (A : List Nat → Prop) (hA : ∀ c s, A (c :: s) → A s)
    (hk : ∀ cur rest, A rest → k cur rest = none) :
    ∀ (s cur : List Nat), A s → greedy p k cur s = none := by
  intro s
  induction s with
  | nil => intro cur h; exact hk cur [] h
  | cons c s ih =>
    intro cur h
    unfold greedy
    split_ifs
    · rw [ih _ (hA c s h)]
      exact hk cur (c :: s) h
    · exact hk cur (c :: s) h

/-- A pattern with a once-only class `q` fails on every input of a family `A`, closed under
dropping the first code unit, in which nothing that follows a `q` code unit can match the
rest of the pattern. -/
theorem matchHere_none_closed (q : Nat → Bool) (post : List Tok) (A : List Nat → Prop)
    (hA : ∀ c s, A (c :: s) → A s)
    (hpost : ∀ c s done cur, A (c :: s) → q c = true → matchHere post s done cur = none) :
    ∀ (pre : List Tok) (s : List Nat) (done : List (List Nat)) (cur : List Nat),
      A s → matchHere (pre ++ Tok.one q :: post) s done cur = none := by
  intro pre
  induction pre with
  | nil =>
    intro s done cur h
    cases s with
    | nil => rfl
    | cons c s =>
      by_cases hc : q c = true
      · rw [List.nil_append, matchHere_one_pos _ _ _ _ _ _ hc]
        exact hpost c s done _ h hc
      · exact matchHere_one_neg _ _ _ _ _ _ (by simpa using hc)
  | cons tok pre ih =>
    intro s done cur h
    cases tok with
    | gopen => exact ih s done [] h
    | gclose => exact ih s (done ++ [cur]) [] h
    | one p =>
      cases s with
      | nil => rfl
      | cons c s =>
        simp only [List.cons_append, matchHere]
        split_ifs
        · exact ih s done _ (hA c s h)
        · rfl
    | star p =>
      simp only [List.cons_append, matchHere]
      exact greedy_none_closed p _ A hA (fun cur2 rest hr => ih rest done cur2 hr) s cur h
    | plus p =>
      cases s with
      | nil => rfl
      | cons c s =>
        simp only [List.cons_append, matchHere]
        split_ifs
        · exact greedy_none_closed p _ A hA (fun cur2 rest hr => ih rest done cur2 hr) s _
            (hA c s h)
        · rfl

/-- A replacement changes nothing on a text of a family, closed under dropping the first
code unit, on which the pattern never matches. -/
theorem replaceAll_eq_self_closed (pat : List Tok) (tpl : List Repl) (A : List Nat → Prop)
    (hA : ∀ c s, A (c :: s) → A s) (hnone : ∀ s, A s → matchHere pat s [] [] = none) :
    ∀ s : List Nat, A s → replaceAll pat tpl s = s := by
  intro s
  unfold replaceAll
  induction s with
  | nil =>
    intro h
    simp [replaceFrom, hnone [] h]
  | cons c s ih =>
    intro h
    simp [replaceFrom, hnone (c :: s) h, ih (hA c s h)]

theorem mem_dropLast_of_tail {c d : Nat} {s : List Nat} (h : d ∈ s.dropLast) :
    d ∈ (c :: s).dropLast := by
  cases s with
  | nil => simp at h
  | cons e s =>
    rw [List.dropLast_cons₂]
    exact List.mem_cons_of_mem _ h

/-- A pattern that needs a `q` code unit and something after it changes nothing on a text
whose only `q` code unit, if any, is the last one. -/
theorem replaceAll_eq_self_last (q q2 : Nat → Bool) (pre post1 post2 : List Tok)
    (tpl : List Repl) (s : List Nat) (h : ∀ c ∈ s.dropLast, q c = false) :
    replaceAll (pre ++ Tok.one q :: (post1 ++ Tok.one q2 :: post2)) tpl s = s := by
  refine replaceAll_eq_self_closed _ tpl (fun t => ∀ c ∈ t.dropLast, q c = false) ?_ ?_ s h
  · intro c t ht d hd
    exact ht d (mem_dropLast_of_tail hd)
  · intro t ht
    refine matchHere_none_closed q _ (fun t => ∀ c ∈ t.dropLast, q c = false) ?_ ?_ pre t [] [] ht
    · intro c t ht d hd
      exact ht d (mem_dropLast_of_tail hd)
    · intro c t done cur hct hc
      cases t with
      | nil => exact matchHere_none q2 post2 post1 [] done cur (by simp)
      | cons e t =>
        have := hct c (by rw [List.dropLast_cons₂]; exact List.mem_cons_self _ _)
        rw [hc] at this
        cases this

/-- A pattern that fails at the first code unit and needs a class that the rest of the text
lacks changes nothing. -/
theorem replaceAll_cons_eq_self (q : Nat → Bool) (pre post : List Tok) (tpl : List Repl)
    (c : Nat) (s : List Nat)
    (hm : matchHere (pre ++ Tok.one q :: post) (c :: s) [] [] = none)
    (hs : ∀ d ∈ s, q d = false) :
    replaceAll (pre ++ Tok.one q :: post) tpl (c :: s) = c :: s := by
  have h := replaceAll_eq_self q pre post tpl s hs
  unfold replaceAll at h ⊢
  rw [replaceFrom, hm]
  simp only [List.cons.injEq, true_and]
  exact h

/-- The third pattern never matches in a text without two adjacent underscores. -/
theorem rule3_eq_self_of_no_double (tpl : List Repl) (s : List Nat)
    (h : List.Chain' (fun a b : Nat => ¬ (a = 0x5F ∧ b = 0x5F)) s) :
    replaceAll rule3 tpl s = s := by
  refine replaceAll_eq_self_closed rule3 tpl
    (List.Chain' (fun a b : Nat => ¬ (a = 0x5F ∧ b = 0x5F))) ?_ ?_ s h
  · intro c t ht
    exact List.Chain'.tail ht
  · intro t ht
    unfold rule3 us
    cases t with
    | nil => rfl
    | cons c t =>
      by_cases hc : lit 0x5F c = true
      · rw [matchHere_one_pos _ _ _ _ _ _ hc]
        cases t with
        | nil => rfl
        | cons d t =>
          have hcd := List.Chain'.rel_head ht
          have hc2 : c = 0x5F := by simpa [lit] using hc
          have hd : d ≠ 0x5F := fun hd => hcd ⟨hc2, hd⟩
          exact matchHere_one_neg _ _ _ _ _ _ (lit_false_of_ne _ _ hd)
      · exact matchHere_one_neg _ _ _ _ _ _ (by simpa using hc)

theorem chain_no_double_append (x rest : List Nat) (hx : ∀ c ∈ x, c ≠ 0x5F)
    (hrest : List.Chain' (fun a b : Nat => ¬ (a = 0x5F ∧ b = 0x5F)) rest) :
    List.Chain' (fun a b : Nat => ¬ (a = 0x5F ∧ b = 0x5F)) (x ++ rest) := by
  induction x with
  | nil => exact hrest
  | cons c x ih =>
    rw [List.cons_append, List.chain'_cons']
    refine ⟨?_, ih (fun d hd => hx d (List.mem_cons_of_mem _ hd))⟩
    intro y _ hy
    exact hx c (List.mem_cons_self _ _) hy.1

theorem matchHere_plus_pos (p : Nat → Bool) (ts : List Tok) (c : Nat) (s : List Nat)
    (done : List (List Nat)) (cur : List Nat) (h : p c = true) :
    matchHere (Tok.plus p :: ts) (c :: s) done cur
      = greedy p (fun cur2 rest => matchHere ts rest done cur2) (cur ++ [c]) s := by
  simp [matchHere, h]

/-- A `+` over a class runs through a non-empty text `x` of the class up to a code unit
outside the class, where the rest of the pattern takes over. -/
theorem matchHere_plus_run (p : Nat → Bool) (ts : List Tok) (x : List Nat) (u : Nat)
    (t : List Nat) (done : List (List Nat)) (cur : List Nat)
    (r : List (List Nat) × List Nat) (hne : x ≠ []) (hx : ∀ c ∈ x, p c = true)
    (hu : p u = false) (hk : matchHere ts (u :: t) done (cur ++ x) = some r) :
    matchHere (Tok.plus p :: ts) (x ++ u :: t) done cur = some r := by
  obtain ⟨c, y, rfl⟩ := List.exists_cons_of_ne_nil hne
  rw [List.cons_append, matchHere_plus_pos _ _ _ _ _ _ (hx c (List.mem_cons_self _ _))]
  apply greedy_append _ _ _ y _ _ (fun d hd => hx d (List.mem_cons_of_mem _ hd))
  rw [greedy_stop _ _ _ _ _ hu]
  simpa using hk

theorem forall_mem_wrap (P : Nat → Prop) (pre x post : List Nat) (hpre : ∀ d ∈ pre, P d)
    (hx : ∀ d ∈ x, P d) (hpost : ∀ d ∈ post, P d) : ∀ d ∈ pre ++ (x ++ post), P d := by
  intro d hd
  rcases List.mem_append.mp hd with h | h
  · exact hpre d h
  · rcases List.mem_append.mp h with h | h
    · exact hx d h
    · exact hpost d h

theorem rule2_match (w : Nat) (x : List Nat) (hw : wide w = true) (hne : x ≠ [])
    (hx : ∀ c ∈ x, notUnderscoreNewline c = true) :
    matchHere rule2 (w :: 0x5F :: 0x5F :: (x ++ [0x5F, 0x5F])) [] [] = some ([[w], x], []) := by
  unfold rule2 us
  rw [matchHere, matchHere_one_pos _ _ _ _ _ _ hw, matchHere,
    matchHere_one_pos _ _ _ _ _ _ (by decide), matchHere_one_pos _ _ _ _ _ _ (by decide),
    matchHere]
  apply matchHere_plus_run _ _ x 0x5F [0x5F] _ _ _ hne hx (by decide)
  rw [matchHere, matchHere_one_pos _ _ _ _ _ _ (by decide),
    matchHere_one_pos _ _ _ _ _ _ (by decide), matchHere]
  simp

theorem rule3_match (w : Nat) (x : List Nat) (hw : wide w = true) (hne : x ≠ [])
    (hx : ∀ c ∈ x, notUnderscoreNewline c = true) :
    matchHere rule3 (0x5F :: 0x5F :: (x ++ [0x5F, 0x5F, w])) [] [] = some ([x, [w]], []) := by
  unfold rule3 us
  rw [matchHere_one_pos _ _ _ _ _ _ (by decide), matchHere_one_pos _ _ _ _ _ _ (by decide),
    matchHere]
  apply matchHere_plus_run _ _ x 0x5F [0x5F, w] _ _ _ hne hx (by decide)
  rw [matchHere, matchHere_one_pos _ _ _ _ _ _ (by decide),
    matchHere_one_pos _ _ _ _ _ _ (by decide), matchHere,
    matchHere_one_pos _ _ _ _ _ _ hw, matchHere, matchHere]
  simp

theorem rule5_match (w : Nat) (x : List Nat) (hw : wide w = true) (hne : x ≠ [])
    (hx : ∀ c ∈ x, notUnderscoreNewline c = true) :
    matchHere rule5 (w :: 0x5F :: (x ++ [0x5F])) [] [] = some ([[w], x], []) := by
  unfold rule5 us
  rw [matchHere, matchHere_one_pos _ _ _ _ _ _ hw, matchHere,
    matchHere_one_pos _ _ _ _ _ _ (by decide), matchHere]
  apply matchHere_plus_run _ _ x 0x5F [] _ _ _ hne hx (by decide)
  rw [matchHere, matchHere_one_pos _ _ _ _ _ _ (by decide), matchHere]
  simp

theorem rule6_match (w : Nat) (x : List Nat) (hw : wide w = true) (hne : x ≠ [])
    (hx : ∀ c ∈ x, notUnderscoreNewline c = true) :
    matchHere rule6 (0x5F :: (x ++ [0x5F, w])) [] [] = some ([x, [w]], []) := by
  unfold rule6 us
  rw [matchHere_one_pos _ _ _ _ _ _ (by decide), matchHere]
  apply matchHere_plus_run _ _ x 0x5F [w] _ _ _ hne hx (by decide)
  rw [matchHere, matchHere_one_pos _ _ _ _ _ _ (by decide), matchHere,
    matchHere_one_pos _ _ _ _ _ _ hw, matchHere, matchHere]
  simp

theorem wide_of_range (w : Nat) (hw : 0x80 ≤ w ∧ w ≤ 0xFFFF) : wide w = true := by
  simp [wide, hw.1, hw.2]

/-- First form: `w__x__` becomes `w**x**`. -/
theorem adjacent_before_double (w : Nat) (x : List Nat) (hw : 0x80 ≤ w ∧ w ≤ 0xFFFF)
    (hne : x ≠ []) (hx : ∀ c ∈ x, c < 0x80 ∧ c ≠ 0x5F ∧ c ≠ 0x0A) :
    normalizeMultibyteEmphasis (w :: 0x5F :: 0x5F :: (x ++ [0x5F, 0x5F]))
      = w :: 0x2A :: 0x2A :: (x ++ [0x2A, 0x2A]) := by
  have hww := wide_of_range w hw
  have hnun : ∀ c ∈ x, notUnderscoreNewline c = true :=
    fun c hc => notUnderscoreNewline_of_ne c (hx c hc).2.1 (hx c hc).2.2
  have hw95 : lit 0x5F w = false := lit_false_of_ne _ _ (by omega)
  have hw42 : lit 0x2A w = false := lit_false_of_ne _ _ (by omega)
  have r1 : ∀ tpl, replaceAll rule1 tpl (w :: 0x5F :: 0x5F :: (x ++ [0x5F, 0x5F]))
      = w :: 0x5F :: 0x5F :: (x ++ [0x5F, 0x5F]) := fun tpl =>
    replaceAll_cons_eq_self wide [us, us, .gopen, .star notUnderscoreNewline]
      [.star notUnderscoreNewline, .gclose, us, us] tpl w _
      (matchHere_one_neg _ _ _ _ _ _ hw95)
      (forall_mem_wrap _ [0x5F, 0x5F] x [0x5F, 0x5F] (by decide)
        (fun c hc => wide_false_of_ascii c (hx c hc).1) (by decide))
  have r2 : replaceAll rule2 [.group 1, .lit (utf16 "**"), .group 2, .lit (utf16 "**")]
      (w :: 0x5F :: 0x5F :: (x ++ [0x5F, 0x5F])) = w :: 0x2A :: 0x2A :: (x ++ [0x2A, 0x2A]) := by
    rw [replaceAll_whole rule2 _ _ _ _ (rule2_match w x hww hne hnun) (by decide), utf16_stars]
    simp [expand]
  have hno : ∀ c ∈ w :: 0x2A :: 0x2A :: (x ++ [0x2A, 0x2A]), lit 0x5F c = false :=
    forall_mem_wrap _ [w, 0x2A, 0x2A] x [0x2A, 0x2A] (by simp [hw95]; decide)
      (fun c hc => lit_false_of_ne _ _ (hx c hc).2.1) (by decide)
  obtain ⟨_, _, r3, r4, r5, r6⟩ := rules_need_underscore _ hno
  have r7 : replaceAll rule7 strongTpl (w :: 0x2A :: 0x2A :: (x ++ [0x2A, 0x2A]))
      = w :: 0x2A :: 0x2A :: (x ++ [0x2A, 0x2A]) :=
    replaceAll_cons_eq_self cjkPunct [ast, ast, .gopen]
      [.star notStarNewline, .one cjkPunct, .gclose, ast, ast] strongTpl w _
      (matchHere_one_neg _ _ _ _ _ _ hw42)
      (forall_mem_wrap _ [0x2A, 0x2A] x [0x2A, 0x2A] (by decide)
        (fun c hc => cjkPunct_false_of_ascii c (hx c hc).1) (by decide))
  simp only [normalizeMultibyteEmphasis, underscoreRules, r1, r2, r3, r4, r5, r6, r7]

/-- Second form: `__x__w` becomes `**x**w`. -/
theorem adjacent_after_double (w : Nat) (x : List Nat) (hw : 0x80 ≤ w ∧ w ≤ 0xFFFF)
    (hne : x ≠ []) (hx : ∀ c ∈ x, c < 0x80 ∧ c ≠ 0x5F ∧ c ≠ 0x0A) :
    normalizeMultibyteEmphasis (0x5F :: 0x5F :: (x ++ [0x5F, 0x5F, w]))
      = 0x2A :: 0x2A :: (x ++ [0x2A, 0x2A, w]) := by
  have hww := wide_of_range w hw
  have hnun : ∀ c ∈ x, notUnderscoreNewline c = true :=
    fun c hc => notUnderscoreNewline_of_ne c (hx c hc).2.1 (hx c hc).2.2
  have hw95 : lit 0x5F w = false := lit_false_of_ne _ _ (by omega)
  have hdl : (0x5F :: 0x5F :: (x ++ [0x5F, 0x5F, w])).dropLast
      = 0x5F :: 0x5F :: (x ++ [0x5F, 0x5F]) := by
    have : 0x5F :: 0x5F :: (x ++ [0x5F, 0x5F, w]) = (0x5F :: 0x5F :: (x ++ [0x5F, 0x5F])) ++ [w] := by
      simp
    rw [this, List.dropLast_concat]
  have hdl2 : (0x2A :: 0x2A :: (x ++ [0x2A, 0x2A, w])).dropLast
      = 0x2A :: 0x2A :: (x ++ [0x2A, 0x2A]) := by
    have : 0x2A :: 0x2A :: (x ++ [0x2A, 0x2A, w]) = (0x2A :: 0x2A :: (x ++ [0x2A, 0x2A])) ++ [w] := by
      simp
    rw [this, List.dropLast_concat]
  have hlast : ∀ c ∈ (0x5F :: 0x5F :: (x ++ [0x5F, 0x5F, w])).dropLast, wide c = false := by
    rw [hdl]
    exact forall_mem_wrap _ [0x5F, 0x5F] x [0x5F, 0x5F] (by decide)
      (fun c hc => wide_false_of_ascii c (hx c hc).1) (by decide)
  have r1 : ∀ tpl, replaceAll rule1 tpl (0x5F :: 0x5F :: (x ++ [0x5F, 0x5F, w]))
      = 0x5F :: 0x5F :: (x ++ [0x5F, 0x5F, w]) := fun tpl =>
    replaceAll_eq_self_last wide (lit 0x5F) [us, us, .gopen, .star notUnderscoreNewline]
      [.star notUnderscoreNewline, .gclose] [us] tpl _ hlast
  have r2 : ∀ tpl, replaceAll rule2 tpl (0x5F :: 0x5F :: (x ++ [0x5F, 0x5F, w]))
      = 0x5F :: 0x5F :: (x ++ [0x5F, 0x5F, w]) := fun tpl =>
    replaceAll_eq_self_last wide (lit 0x5F) [.gopen] [.gclose]
      [us, .gopen, .plus notUnderscoreNewline, .gclose, us, us] tpl _ hlast
  have r3 : replaceAll rule3 [.lit (utf16 "**"), .group 1, .lit (utf16 "**"), .group 2]
      (0x5F :: 0x5F :: (x ++ [0x5F, 0x5F, w])) = 0x2A :: 0x2A :: (x ++ [0x2A, 0x2A, w]) := by
    rw [replaceAll_whole rule3 _ _ _ _ (rule3_match w x hww hne hnun) (by decide), utf16_stars]
    simp [expand]
  have hno : ∀ c ∈ 0x2A :: 0x2A :: (x ++ [0x2A, 0x2A, w]), lit 0x5F c = false :=
    forall_mem_wrap _ [0x2A, 0x2A] x [0x2A, 0x2A, w] (by decide)
      (fun c hc => lit_false_of_ne _ _ (hx c hc).2.1) (by simp [hw95]; decide)
  obtain ⟨_, _, _, r4, r5, r6⟩ := rules_need_underscore _ hno
  have r7 : replaceAll rule7 strongTpl (0x2A :: 0x2A :: (x ++ [0x2A, 0x2A, w]))
      = 0x2A :: 0x2A :: (x ++ [0x2A, 0x2A, w]) := by
    refine replaceAll_eq_self_last cjkPunct cjkPunct [ast, ast, .gopen] [.star notStarNewline]
      [.gclose, ast, ast] strongTpl _ ?_
    rw [hdl2]
    exact forall_mem_wrap _ [0x2A, 0x2A] x [0x2A, 0x2A] (by decide)
      (fun c hc => cjkPunct_false_of_ascii c (hx c hc).1) (by decide)
  simp only [normalizeMultibyteEmphasis, underscoreRules, r1, r2, r3, r4, r5, r6, r7]

/-- Third form: `w_x_` becomes `w*x*`. -/
theorem adjacent_before_single (w : Nat) (x : List Nat) (hw : 0x80 ≤ w ∧ w ≤ 0xFFFF)
    (hne : x ≠ []) (hx : ∀ c ∈ x, c < 0x80 ∧ c ≠ 0x5F ∧ c ≠ 0x0A) :
    normalizeMultibyteEmphasis (w :: 0x5F :: (x ++ [0x5F])) = w :: 0x2A :: (x ++ [0x2A]) := by
  have hww := wide_of_range w hw
  have hnun : ∀ c ∈ x, notUnderscoreNewline c = true :=
    fun c hc => notUnderscoreNewline_of_ne c (hx c hc).2.1 (hx c hc).2.2
  have hw95 : lit 0x5F w = false := lit_false_of_ne _ _ (by omega)
  have hw42 : lit 0x2A w = false := lit_false_of_ne _ _ (by omega)
  have htail : ∀ d ∈ 0x5F :: (x ++ [0x5F]), wide d = false :=
    forall_mem_wrap _ [0x5F] x [0x5F] (by decide)
      (fun c hc => wide_false_of_ascii c (hx c hc).1) (by decide)
  have r1 : ∀ tpl, replaceAll rule1 tpl (w :: 0x5F :: (x ++ [0x5F]))
      = w :: 0x5F :: (x ++ [0x5F]) := fun tpl =>
    replaceAll_cons_eq_self wide [us, us, .gopen, .star notUnderscoreNewline]
      [.star notUnderscoreNewline, .gclose, us, us] tpl w _
      (matchHere_one_neg _ _ _ _ _ _ hw95) htail
  have hm2 : matchHere rule2 (w :: 0x5F :: (x ++ [0x5F])) [] [] = none := by
    obtain ⟨c, y, rfl⟩ := List.exists_cons_of_ne_nil hne
    unfold rule2 us
    rw [matchHere, matchHere_one_pos _ _ _ _ _ _ hww, matchHere,
      matchHere_one_pos _ _ _ _ _ _ (by decide), List.cons_append]
    exact matchHere_one_neg _ _ _ _ _ _
      (lit_false_of_ne _ _ (hx c (List.mem_cons_self _ _)).2.1)
  have r2 : ∀ tpl, replaceAll rule2 tpl (w :: 0x5F :: (x ++ [0x5F]))
      = w :: 0x5F :: (x ++ [0x5F]) := fun tpl =>
    replaceAll_cons_eq_self wide [.gopen]
      [.gclose, us, us, .gopen, .plus notUnderscoreNewline, .gclose, us, us] tpl w _ hm2 htail
  have r3 : ∀ tpl, replaceAll rule3 tpl (w :: 0x5F :: (x ++ [0x5F]))
      = w :: 0x5F :: (x ++ [0x5F]) := fun tpl =>
    replaceAll_cons_eq_self wide
      [us, us, .gopen, .plus notUnderscoreNewline, .gclose, us, us, .gopen] [.gclose] tpl w _
      (matchHere_one_neg _ _ _ _ _ _ hw95) htail
  have r4 : ∀ tpl, replaceAll rule4 tpl (w :: 0x5F :: (x ++ [0x5F]))
      = w :: 0x5F :: (x ++ [0x5F]) := fun tpl =>
    replaceAll_cons_eq_self wide [us, .gopen, .star notUnderscoreNewline]
      [.star notUnderscoreNewline, .gclose, us] tpl w _
      (matchHere_one_neg _ _ _ _ _ _ hw95) htail
  have r5 : replaceAll rule5 [.group 1, .lit (utf16 "*"), .group 2, .lit (utf16 "*")]
      (w :: 0x5F :: (x ++ [0x5F])) = w :: 0x2A :: (x ++ [0x2A]) := by
    have hstar : utf16 "*" = [0x2A] := by decide
    rw [replaceAll_whole rule5 _ _ _ _ (rule5_match w x hww hne hnun) (by decide), hstar]
    simp [expand]
  have hno : ∀ c ∈ w :: 0x2A :: (x ++ [0x2A]), lit 0x5F c = false :=
    forall_mem_wrap _ [w, 0x2A] x [0x2A] (by simp [hw95]; decide)
      (fun c hc => lit_false_of_ne _ _ (hx c hc).2.1) (by decide)
  obtain ⟨_, _, _, _, _, r6⟩ := rules_need_underscore _ hno
  have r7 : replaceAll rule7 strongTpl (w :: 0x2A :: (x ++ [0x2A]))
      = w :: 0x2A :: (x ++ [0x2A]) :=
    replaceAll_cons_eq_self cjkPunct [ast, ast, .gopen]
      [.star notStarNewline, .one cjkPunct, .gclose, ast, ast] strongTpl w _
      (matchHere_one_neg _ _ _ _ _ _ hw42)
      (forall_mem_wrap _ [0x2A] x [0x2A] (by decide)
        (fun c hc => cjkPunct_false_of_ascii c (hx c hc).1) (by decide))
  simp only [normalizeMultibyteEmphasis, underscoreRules, r1, r2, r3, r4, r5, r6, r7]

/-- Fourth form: `_x_w` becomes `*x*w`. -/
theorem adjacent_after_single (w : Nat) (x : List Nat) (hw : 0x80 ≤ w ∧ w ≤ 0xFFFF)
    (hne : x ≠ []) (hx : ∀ c ∈ x, c < 0x80 ∧ c ≠ 0x5F ∧ c ≠ 0x0A) :
    normalizeMultibyteEmphasis (0x5F :: (x ++ [0x5F, w])) = 0x2A :: (x ++ [0x2A, w]) := by
  have hww := wide_of_range w hw
  have hnun : ∀ c ∈ x, notUnderscoreNewline c = true :=
    fun c hc => notUnderscoreNewline_of_ne c (hx c hc).2.1 (hx c hc).2.2
  have hw95 : lit 0x5F w = false := lit_false_of_ne _ _ (by omega)
  have hdl : (0x5F :: (x ++ [0x5F, w])).dropLast = 0x5F :: (x ++ [0x5F]) := by
    have : 0x5F :: (x ++ [0x5F, w]) = (0x5F :: (x ++ [0x5F])) ++ [w] := by simp
    rw [this, List.dropLast_concat]
  have hdl2 : (0x2A :: (x ++ [0x2A, w])).dropLast = 0x2A :: (x ++ [0x2A]) := by
    have : 0x2A :: (x ++ [0x2A, w]) = (0x2A :: (x ++ [0x2A])) ++ [w] := by simp
    rw [this, List.dropLast_concat]
  have hlast : ∀ c ∈ (0x5F :: (x ++ [0x5F, w])).dropLast, wide c = false := by
    rw [hdl]
    exact forall_mem_wrap _ [0x5F] x [0x5F] (by decide)
      (fun c hc => wide_false_of_ascii c (hx c hc).1) (by decide)
  have r1 : ∀ tpl, replaceAll rule1 tpl (0x5F :: (x ++ [0x5F, w]))
      = 0x5F :: (x ++ [0x5F, w]) := fun tpl =>
    replaceAll_eq_self_last wide (lit 0x5F) [us, us, .gopen, .star notUnderscoreNewline]
      [.star notUnderscoreNewline, .gclose] [us] tpl _ hlast
  have r2 : ∀ tpl, replaceAll rule2 tpl (0x5F :: (x ++ [0x5F, w]))
      = 0x5F :: (x ++ [0x5F, w]) := fun tpl =>
    replaceAll_eq_self_last wide (lit 0x5F) [.gopen] [.gclose]
      [us, .gopen, .plus notUnderscoreNewline, .gclose, us, us] tpl _ hlast
  have hchain : List.Chain' (fun a b : Nat => ¬ (a = 0x5F ∧ b = 0x5F))
      (0x5F :: (x ++ [0x5F, w])) := by
    obtain ⟨c, y, rfl⟩ := List.exists_cons_of_ne_nil hne
    have hc := (hx c (List.mem_cons_self _ _)).2.1
    have htl : List.Chain' (fun a b : Nat => ¬ (a = 0x5F ∧ b = 0x5F)) [0x5F, w] := by
      simp only [List.chain'_cons, List.chain'_singleton, and_true]
      intro h
      omega
    have := chain_no_double_append (c :: y) [0x5F, w] (fun d hd => (hx d hd).2.1) htl
    rw [List.cons_append] at this ⊢
    rw [List.chain'_cons]
    exact ⟨fun h => hc h.2, this⟩
  have r3 : ∀ tpl, replaceAll rule3 tpl (0x5F :: (x ++ [0x5F, w]))
      = 0x5F :: (x ++ [0x5F, w]) := fun tpl => rule3_eq_self_of_no_double tpl _ hchain
  have r4 : ∀ tpl, replaceAll rule4 tpl (0x5F :: (x ++ [0x5F, w]))
      = 0x5F :: (x ++ [0x5F, w]) := fun tpl =>
    replaceAll_eq_self_last wide (lit 0x5F) [us, .gopen, .star notUnderscoreNewline]
      [.star notUnderscoreNewline, .gclose] [] tpl _ hlast
  have r5 : ∀ tpl, replaceAll rule5 tpl (0x5F :: (x ++ [0x5F, w]))
      = 0x5F :: (x ++ [0x5F, w]) := fun tpl =>
    replaceAll_eq_self_last wide (lit 0x5F) [.gopen] [.gclose]
      [.gopen, .plus notUnderscoreNewline, .gclose, us] tpl _ hlast
  have r6 : replaceAll rule6 [.lit (utf16 "*"), .group 1, .lit (utf16 "*"), .group 2]
      (0x5F :: (x ++ [0x5F, w])) = 0x2A :: (x ++ [0x2A, w]) := by
    have hstar : utf16 "*" = [0x2A] := by decide
    rw [replaceAll_whole rule6 _ _ _ _ (rule6_match w x hww hne hnun) (by decide), hstar]
    simp [expand]
  have r7 : replaceAll rule7 strongTpl (0x2A :: (x ++ [0x2A, w]))
      = 0x2A :: (x ++ [0x2A, w]) := by
    refine replaceAll_eq_self_last cjkPunct cjkPunct [ast, ast, .gopen] [.star notStarNewline]
      [.gclose, ast, ast] strongTpl _ ?_
    rw [hdl2]
    exact forall_mem_wrap _ [0x2A] x [0x2A] (by decide)
      (fun c hc => cjkPunct_false_of_ascii c (hx c hc).1) (by decide)
  simp only [normalizeMultibyteEmphasis, underscoreRules, r1, r2, r3, r4, r5, r6, r7]

/-- C12: adjacency triggers conversion.  For every code unit `w` in U+0080..U+FFFF and every
non-empty ASCII-only string `x` with no underscore and no newline,
`w + "__" + x + "__"` becomes `w + "**" + x + "**"`, `"__" + x + "__" + w` becomes
`"**" + x + "**" + w`, `w + "_" + x + "_"` becomes `w + "*" + x + "*"` and
`"_" + x + "_" + w` becomes `"*" + x + "*" + w`. -/
theorem normalizeMultibyteEmphasis_adjacent (w : Nat) (x : List Nat)
    (hw : 0x80 ≤ w ∧ w ≤ 0xFFFF) (hne : x ≠ [])
    (hx : ∀ c ∈ x, c < 0x80 ∧ c ≠ 0x5F ∧ c ≠ 0x0A) :
    normalizeMultibyteEmphasis ([w] ++ utf16 "__" ++ x ++ utf16 "__")
      = [w] ++ utf16 "**" ++ x ++ utf16 "**" ∧
    normalizeMultibyteEmphasis (utf16 "__" ++ x ++ utf16 "__" ++ [w])
      = utf16 "**" ++ x ++ utf16 "**" ++ [w] ∧
    normalizeMultibyteEmphasis ([w] ++ utf16 "_" ++ x ++ utf16 "_")
      = [w] ++ utf16 "*" ++ x ++ utf16 "*" ∧
    normalizeMultibyteEmphasis (utf16 "_" ++ x ++ utf16 "_" ++ [w])
      = utf16 "*" ++ x ++ utf16 "*" ++ [w] := by
  have hu1 : utf16 "_" = [0x5F] := by decide
  have hs1 : utf16 "*" = [0x2A] := by decide
  have h1 := adjacent_before_double w x hw hne hx
  have h2 := adjacent_after_double w x hw hne hx
  have h3 := adjacent_before_single w x hw hne hx
  have h4 := adjacent_after_single w x hw hne hx
  rw [utf16_underscores, utf16_stars, hu1, hs1]
  simp only [List.cons_append, List.nil_append, List.append_assoc, List.singleton_append]
  exact ⟨h1, h2, h3, h4⟩

theorem normalizeMultibyteEmphasis_adjacent_witness :
    (0x80 ≤ 0x3042 ∧ 0x3042 ≤ 0xFFFF) ∧ utf16 "text" ≠ [] ∧
    (∀ c ∈ utf16 "text", c < 0x80 ∧ c ≠ 0x5F ∧ c ≠ 0x0A) ∧
    (normalizeMultibyteEmphasis ([0x3042] ++ utf16 "__" ++ utf16 "text" ++ utf16 "__")
      = [0x3042] ++ utf16 "**" ++ utf16 "text" ++ utf16 "**" ∧
    normalizeMultibyteEmphasis (utf16 "__" ++ utf16 "text" ++ utf16 "__" ++ [0x3042])
      = utf16 "**" ++ utf16 "text" ++ utf16 "**" ++ [0x3042] ∧
    normalizeMultibyteEmphasis ([0x3042] ++ utf16 "_" ++ utf16 "text" ++ utf16 "_")
      = [0x3042] ++ utf16 "*" ++ utf16 "text" ++ utf16 "*" ∧
    normalizeMultibyteEmphasis (utf16 "_" ++ utf16 "text" ++ utf16 "_" ++ [0x3042])
      = utf16 "*" ++ utf16 "text" ++ utf16 "*" ++ [0x3042]) :=
  ⟨by decide, by decide, by decide,
    normalizeMultibyteEmphasis_adjacent 0x3042 (utf16 "text") (by decide) (by decide)
      (by decide)⟩

/-! ### Counting the iterations -/

/-- A step shorter than half the target height is followed by a step that ends at least a
whole target height after the offset at which the short step began. -/
theorem small_then_far (cs : List Child) (t cur : ℚ) (ht : 0 < t)
    (hsmall : nextBreakPoint cs t cur - cur < t * (1 / 2)) :
    cur + t ≤ nextBreakPoint cs t (nextBreakPoint cs t cur) := by
  obtain ⟨e, hfe, hbe, hlt, h1, h2⟩ := small_step_inv cs t cur ht hsmall
  have hbig := small_then_big cs t cur ht hsmall
  rw [hbe] at hbig ⊢
  rcases nextBreakPoint_cases cs t e.offsetTop with ⟨_, h⟩ | ⟨g, hfg, _, hsg, ⟨_, h⟩ | ⟨hgt, h⟩⟩
  · rw [h]; linarith
  · rw [h]; linarith
  · rw [h] at hbig ⊢
    unfold Straddles at hsg
    rcases chooseBreak_cases e.offsetTop t g with ⟨h3, hc⟩ | ⟨_, _, hc⟩ | ⟨h3, _, hc⟩
    · rw [hc] at hbig hgt ⊢
      by_contra hcon
      have hpg : (fun c => decide (Straddles (cur + t) c)) g = true := by
        simp only [decide_eq_true_eq]
        unfold Straddles
        constructor <;> linarith
      have hqe : (fun c => decide (Straddles (e.offsetTop + t) c)) e = true := by
        simp only [decide_eq_true_eq]
        unfold Straddles
        constructor <;> linarith
      have heq := find_first_unique _ _ cs e g hfe hfg hpg hqe
      rw [heq] at hgt
      exact lt_irrefl _ hgt
    · rw [hc]; linarith
    · rw [hc] at hbig
      linarith

/-- Progress invariant at the start of iteration `i`: the offset is at least `i` half target
heights, or it is one short step behind and the coming step makes up for it. -/
theorem progress_step (cs : List Child) (t a : ℚ) (ht : 0 < t) (i : ℕ)
    (hinv : (i : ℚ) * (t * (1 / 2)) ≤ a ∨
      (((i : ℚ) + 1) * (t * (1 / 2)) ≤ nextBreakPoint cs t a ∧
        (i : ℚ) * (t * (1 / 2)) ≤ a + t * (1 / 2))) :
    (((i + 1 : ℕ) : ℚ) * (t * (1 / 2)) ≤ nextBreakPoint cs t a ∨
      ((((i + 1 : ℕ) : ℚ) + 1) * (t * (1 / 2)) ≤ nextBreakPoint cs t (nextBreakPoint cs t a) ∧
        ((i + 1 : ℕ) : ℚ) * (t * (1 / 2)) ≤ nextBreakPoint cs t a + t * (1 / 2))) := by
  push_cast
  rcases hinv with h | ⟨h, _⟩
  · by_cases hstep : t * (1 / 2) ≤ nextBreakPoint cs t a - a
    · left
      linarith
    · right
      have hfar := small_then_far cs t a ht (lt_of_not_ge hstep)
      have hgt := nextBreakPoint_gt cs t a ht
      constructor <;> linarith
  · left
    exact h

/-- A chain of `n` iterations that starts under the progress invariant at index `i` has its
last iteration begin at least `i + n - 1` half target heights in, where the loop condition
still held: so `i + n` half target heights lie below the total height. -/
theorem chain_length_bound (cs : List Child) (t total : ℚ) (ht : 0 < t) :
    ∀ (s : List ℚ) (a : ℚ) (i : ℕ), List.Chain (LoopStep cs t total) a s →
      ((i : ℚ) * (t * (1 / 2)) ≤ a ∨
        (((i : ℚ) + 1) * (t * (1 / 2)) ≤ nextBreakPoint cs t a ∧
          (i : ℚ) * (t * (1 / 2)) ≤ a + t * (1 / 2))) →
      s ≠ [] → ((i + s.length : ℕ) : ℚ) * (t * (1 / 2)) < total := by
  intro s
  induction s with
  | nil => intro a i _ _ h; exact absurd rfl h
  | cons b s ih =>
    intro a i hch hinv _
    rw [List.chain_cons] at hch
    obtain ⟨⟨hloop, hb⟩, hrest⟩ := hch
    by_cases hs : s = []
    · subst hs
      have hlow : (i : ℚ) * (t * (1 / 2)) ≤ a + t * (1 / 2) := by
        rcases hinv with h | ⟨_, h⟩
        · linarith
        · exact h
      simp only [List.length_singleton]
      push_cast
      linarith
    · have hnext := progress_step cs t a ht i hinv
      rw [← hb] at hnext
      have := ih b (i + 1) hrest hnext hs
      have he : i + (b :: s).length = i + 1 + s.length := by
        simp only [List.length_cons]
        omega
      rw [he]
      exact this

/-- A chain of iterations that ends where the loop condition fails is what the loop
produces, within any budget at least the length of the chain. -/
theorem mainLoop_of_chain (cs : List Child) (t total : ℚ) :
    ∀ (s : List ℚ) (a : ℚ) (acc : List ℚ) (fuel : ℕ),
      List.Chain (LoopStep cs t total) a s →
      ¬ ((a :: s).getLast (List.cons_ne_nil _ _) + t < total) → s.length ≤ fuel →
      mainLoop cs t total fuel a acc = some (acc ++ s) := by
  intro s
  induction s with
  | nil =>
    intro a acc fuel _ hlast _
    rw [mainLoop_exit cs t total fuel a acc (by simpa using hlast)]
    simp
  | cons b s ih =>
    intro a acc fuel hch hlast hfuel
    rw [List.chain_cons] at hch
    obtain ⟨⟨hloop, hb⟩, hrest⟩ := hch
    obtain ⟨f, rfl⟩ : ∃ f, fuel = f + 1 := ⟨fuel - 1, by simp only [List.length_cons] at hfuel; omega⟩
    rw [mainLoop_step cs t total a f acc hloop, ← hb]
    rw [List.getLast_cons_cons] at hlast
    rw [ih b (acc ++ [b]) f hrest hlast (by simpa using hfuel)]
    simp

/-- C21: bound on the number of cuts.  For every `targetHeight > 0`, `totalHeight ≥ 0` and
every non-empty list of children, the main loop of `findOptimalBreakPoints` runs at most
`ceil(totalHeight / (targetHeight * MIN_CONTENT_RATIO)) = ceil(2 * totalHeight / targetHeight)`
iterations: a budget of that many iterations is enough for the result, and the returned
array has at most `1 + ceil(2 * totalHeight / targetHeight)` entries. -/
theorem findOptimalBreakPoints_iteration_count (children : List Child)
    (targetHeight totalHeight : ℚ) (ht : 0 < targetHeight) (hT : 0 ≤ totalHeight)
    (hne : children ≠ []) :
    ⌈totalHeight / (targetHeight * MIN_CONTENT_RATIO)⌉ = ⌈2 * totalHeight / targetHeight⌉ ∧
    ∃ r, (∀ fuel, ⌈2 * totalHeight / targetHeight⌉.toNat ≤ fuel →
            findOptimalBreakPoints fuel children targetHeight totalHeight = some r) ∧
      (r.length : ℤ) ≤ 1 + ⌈2 * totalHeight / targetHeight⌉ := by
  constructor
  · congr 1
    unfold MIN_CONTENT_RATIO
    field_simp
    ring
  obtain ⟨r, _, hshape⟩ := findOptimalBreakPoints_run children targetHeight totalHeight ht
  rcases hshape with ⟨hnil, _⟩ | ⟨_, s, rfl, hch, hlast⟩
  · exact absurd hnil hne
  · have hceil0 : 0 ≤ ⌈2 * totalHeight / targetHeight⌉ := by
      apply Int.ceil_nonneg
      positivity
    have hcount : (s.length : ℤ) ≤ ⌈2 * totalHeight / targetHeight⌉ := by
      by_cases hs : s = []
      · subst hs
        simpa using hceil0
      · have hb := chain_length_bound children targetHeight totalHeight ht s 0 0 hch
          (Or.inl (by simp)) hs
        simp only [Nat.zero_add] at hb
        have hlt : ((s.length : ℤ) : ℚ) < 2 * totalHeight / targetHeight := by
          rw [lt_div_iff₀ ht]
          push_cast
          linarith
        exact (Int.lt_ceil.mpr hlt).le
    refine ⟨0 :: s, ?_, ?_⟩
    · intro fuel hfuel
      have hlen : s.length ≤ fuel := by omega
      have hcs : children.length ≠ 0 := by
        intro h
        exact hne (List.length_eq_zero.mp h)
      unfold findOptimalBreakPoints
      rw [if_neg hcs]
      exact mainLoop_of_chain children targetHeight totalHeight s 0 [0] fuel hch hlast hlen
    · simp only [List.length_cons]
      push_cast
      omega

theorem findOptimalBreakPoints_iteration_count_witness :
    (0 : ℚ) < 20 ∧ (0 : ℚ) ≤ 50 ∧ [(⟨0, 50⟩ : Child)] ≠ [] ∧
    (⌈(50 : ℚ) / (20 * MIN_CONTENT_RATIO)⌉ = ⌈2 * (50 : ℚ) / 20⌉ ∧
    ∃ r, (∀ fuel, ⌈2 * (50 : ℚ) / 20⌉.toNat ≤ fuel →
            findOptimalBreakPoints fuel [⟨0, 50⟩] 20 50 = some r) ∧
      (r.length : ℤ) ≤ 1 + ⌈2 * (50 : ℚ) / 20⌉) :=
  ⟨by norm_num, by norm_num, by simp,
    findOptimalBreakPoints_iteration_count [⟨0, 50⟩] 20 50 (by norm_num) (by norm_num)
      (by simp)⟩

/-! ### A second pass -/

theorem cjkPunct_false_of_not_wide (c : Nat) (h : wide c = false) : cjkPunct c = false := by
  simp only [wide, Bool.and_eq_false_imp, decide_eq_true_eq, decide_eq_false_iff_not,
    not_le] at h
  simp only [cjkPunct, Bool.or_eq_false_iff, Bool.and_eq_false_imp, decide_eq_true_eq,
    decide_eq_false_iff_not, not_le]
  constructor <;> intro h1 <;> have := h (by omega) <;> omega

/-- A text without a wide code unit, or with neither an underscore nor a CJK punctuation
code unit, is left unchanged: the underscore rules need an underscore and a wide code unit,
the seventh rule needs CJK punctuation. -/
theorem normalizeMultibyteEmphasis_fixed (t : List Nat)
    (h : (∀ c ∈ t, wide c = false) ∨
      ((∀ c ∈ t, lit 0x5F c = false) ∧ ∀ c ∈ t, cjkPunct c = false)) :
    normalizeMultibyteEmphasis t = t := by
  unfold normalizeMultibyteEmphasis
  rcases h with h | ⟨h1, h2⟩
  · rw [underscoreRules_eq_self_of_no_wide t h]
    exact replaceAll_eq_self cjkPunct [ast, ast, .gopen]
      [.star notStarNewline, .one cjkPunct, .gclose, ast, ast] strongTpl t
      (fun c hc => cjkPunct_false_of_not_wide c (h c hc))
  · rw [underscoreRules_eq_self_of_no_underscore t h1]
    exact replaceAll_eq_self cjkPunct [ast, ast, .gopen]
      [.star notStarNewline, .one cjkPunct, .gclose, ast, ast] strongTpl t h2

/-- C22, as stated, fails: the rules run once, in order, and a later rule can leave text
that an earlier rule matches on the next pass.  `_a_あ_b_` becomes `_a*あ*b_` (the fourth
rule converts `_あ_`), and a second pass turns that into `*a*あ*b*`. -/
theorem second_pass_changes_result :
    normalizeMultibyteEmphasis (utf16 "_a_あ_b_") = utf16 "_a*あ*b_" ∧
    normalizeMultibyteEmphasis (normalizeMultibyteEmphasis (utf16 "_a_あ_b_"))
      = utf16 "*a*あ*b*" ∧
    normalizeMultibyteEmphasis (normalizeMultibyteEmphasis (utf16 "_a_あ_b_"))
      ≠ normalizeMultibyteEmphasis (utf16 "_a_あ_b_") := by
  refine ⟨by decide, by decide, by decide⟩

/-- C22, amended: `normalizeMultibyteEmphasis(normalizeMultibyteEmphasis(s))` equals
`normalizeMultibyteEmphasis(s)` for every string `s` whose result contains no code unit in
U+0080..U+FFFF, or contains neither an underscore nor a code unit in U+3000..U+303F or
U+FF00..U+FFEF: on such a result no rule can match. -/
theorem normalizeMultibyteEmphasis_idempotent_when_settled (s : List Nat)
    (h : (∀ c ∈ normalizeMultibyteEmphasis s, ¬ (0x80 ≤ c ∧ c ≤ 0xFFFF)) ∨
      ((∀ c ∈ normalizeMultibyteEmphasis s, c ≠ 0x5F) ∧
        ∀ c ∈ normalizeMultibyteEmphasis s,
          ¬ ((0x3000 ≤ c ∧ c ≤ 0x303F) ∨ (0xFF00 ≤ c ∧ c ≤ 0xFFEF)))) :
    normalizeMultibyteEmphasis (normalizeMultibyteEmphasis s) = normalizeMultibyteEmphasis s := by
  apply normalizeMultibyteEmphasis_fixed
  rcases h with h | ⟨h1, h2⟩
  · left
    intro c hc
    have := h c hc
    simp only [wide, Bool.and_eq_false_imp, decide_eq_true_eq, decide_eq_false_iff_not]
    intro h80 hff
    exact this ⟨h80, hff⟩
  · right
    refine ⟨fun c hc => lit_false_of_ne _ _ (h1 c hc), ?_⟩
    intro c hc
    have := h2 c hc
    by_contra hne
    have hcj : cjkPunct c = true := by simpa using hne
    simp only [cjkPunct, Bool.or_eq_true, Bool.and_eq_true, decide_eq_true_eq] at hcj
    exact this hcj

theorem normalizeMultibyteEmphasis_idempotent_when_settled_witness :
    ((∀ c ∈ normalizeMultibyteEmphasis (utf16 "日本語__text__中文_word_한글"),
        ¬ (0x80 ≤ c ∧ c ≤ 0xFFFF)) ∨
      ((∀ c ∈ normalizeMultibyteEmphasis (utf16 "日本語__text__中文_word_한글"), c ≠ 0x5F) ∧
        ∀ c ∈ normalizeMultibyteEmphasis (utf16 "日本語__text__中文_word_한글"),
          ¬ ((0x3000 ≤ c ∧ c ≤ 0x303F) ∨ (0xFF00 ≤ c ∧ c ≤ 0xFFEF)))) ∧
    normalizeMultibyteEmphasis
        (normalizeMultibyteEmphasis (utf16 "日本語__text__中文_word_한글"))
      = normalizeMultibyteEmphasis (utf16 "日本語__text__中文_word_한글") :=
  ⟨Or.inr (by decide),
    normalizeMultibyteEmphasis_idempotent_when_settled
      (utf16 "日本語__text__中文_word_한글") (Or.inr (by decide))⟩

/-! ### Rounded arithmetic -/

theorem scanChildrenR_id (cur t ideal : ℚ) (cs : List Child) :
    scanChildrenR id cur t ideal cs = scanChildren cur t ideal cs := by
  induction cs with
  | nil => rfl
  | cons c rest ih =>
    simp only [scanChildrenR, scanChildren, id_eq, ih]

theorem nextBreakPointR_id (cs : List Child) (t cur : ℚ) :
    nextBreakPointR id cs t cur = nextBreakPoint cs t cur := by
  simp only [nextBreakPointR, nextBreakPoint, id_eq, scanChildrenR_id]

theorem mainLoopR_id (cs : List Child) (t total : ℚ) :
    ∀ (fuel : Nat) (cur : ℚ) (acc : List ℚ),
      mainLoopR id cs t total fuel cur acc = mainLoop cs t total fuel cur acc := by
  intro fuel
  induction fuel with
  | zero => intro cur acc; rfl
  | succ n ih =>
    intro cur acc
    simp only [mainLoopR, mainLoop, id_eq, nextBreakPointR_id, ih]

/-- Without rounding the rounded definitions are the exact ones. -/
theorem findOptimalBreakPointsR_id (fuel : Nat) (cs : List Child) (t total : ℚ) :
    findOptimalBreakPointsR id fuel cs t total = findOptimalBreakPoints fuel cs t total := by
  simp only [findOptimalBreakPointsR, findOptimalBreakPoints, mainLoopR_id, fixedIntervalsR,
    fixedIntervals, id_eq]

theorem fixedIntervalsR_length (rnd : ℚ → ℚ) (t total : ℚ) :
    (fixedIntervalsR rnd t total).length = ⌈rnd (total / t)⌉.toNat - 1 + 1 := by
  simp [fixedIntervalsR]

theorem fixedIntervalsR_getElem_succ (rnd : ℚ → ℚ) (t total : ℚ) (i : Nat)
    (h : i + 1 < (fixedIntervalsR rnd t total).length) :
    (fixedIntervalsR rnd t total)[i + 1] = rnd (((i + 1 : ℕ) : ℚ) * t) := by
  simp only [fixedIntervalsR, List.getElem_cons_succ, List.getElem_map, List.getElem_range']
  congr 2
  push_cast
  ring

/-- C3: for a container without children and every `targetHeight > 0`, `totalHeight ≥ 0`,
`findOptimalBreakPoints` returns `[0, 1 * targetHeight, ..., (n-1) * targetHeight]` with
`n = ceil(totalHeight / targetHeight)`, just `[0]` when `n ≤ 1`, the quotient and the
products being those of the program's arithmetic: for every rounding `rnd` of the
operations (`binary64` for doubles, the identity for exact arithmetic) the result has
`max 1 ⌈rnd (totalHeight / targetHeight)⌉` entries, entry 0 is 0 and entry `i ≥ 1` is
`rnd (i * targetHeight)`.  On doubles target 100 and total 250 give `[0, 100, 200]`. -/
theorem findOptimalBreakPointsR_no_children (rnd : ℚ → ℚ) (targetHeight totalHeight : ℚ)
    (_ht : 0 < targetHeight) (_hT : 0 ≤ totalHeight) :
    (∃ r, (∀ fuel, findOptimalBreakPointsR rnd fuel [] targetHeight totalHeight = some r) ∧
      (r.length : ℤ) = max 1 ⌈rnd (totalHeight / targetHeight)⌉ ∧
      r[0]? = some 0 ∧
      ∀ (i : Nat) (h : i < r.length), 0 < i → r[i] = rnd ((i : ℚ) * targetHeight)) ∧
    ∀ fuel, findOptimalBreakPointsR binary64 fuel [] 100 250 = some [0, 100, 200] := by
  refine ⟨⟨fixedIntervalsR rnd targetHeight totalHeight,
    fun fuel => by simp [findOptimalBreakPointsR], ?_, by simp [fixedIntervalsR], ?_⟩, ?_⟩
  · rw [fixedIntervalsR_length]
    rcases le_total 1 ⌈rnd (totalHeight / targetHeight)⌉ with h | h
    · rw [max_eq_right h]
      have := Int.toNat_of_nonneg (le_trans zero_le_one h)
      omega
    · rw [max_eq_left h]
      omega
  · intro i h hi
    obtain ⟨j, rfl⟩ : ∃ j, i = j + 1 := ⟨i - 1, by omega⟩
    exact fixedIntervalsR_getElem_succ rnd targetHeight totalHeight j h
  · intro fuel
    have h : findOptimalBreakPointsR binary64 0 [] 100 250 = some [0, 100, 200] := by decide!
    simpa [findOptimalBreakPointsR] using h

theorem findOptimalBreakPointsR_no_children_witness :
    (0 : ℚ) < binary64 (6753 / 10) ∧ (0 : ℚ) ≤ 6753 ∧
    ((∃ r, (∀ fuel, findOptimalBreakPointsR binary64 fuel [] (binary64 (6753 / 10)) 6753
          = some r) ∧
      (r.length : ℤ) = max 1 ⌈binary64 (6753 / binary64 (6753 / 10))⌉ ∧
      r[0]? = some 0 ∧
      ∀ (i : Nat) (h : i < r.length), 0 < i →
        r[i] = binary64 ((i : ℚ) * binary64 (6753 / 10))) ∧
    ∀ fuel, findOptimalBreakPointsR binary64 fuel [] 100 250 = some [0, 100, 200]) :=
  ⟨by decide!, by decide!,
    findOptimalBreakPointsR_no_children binary64 (binary64 (6753 / 10)) 6753 (by decide!)
      (by decide!)⟩

/-- On doubles the quotient `6753 / 675.3` rounds to 10, so the fallback returns 10
entries, where the exact ceiling of the quotient of the two doubles is 11. -/
theorem fixed_intervals_on_doubles :
    ⌈binary64 (6753 / binary64 (6753 / 10))⌉ = 10 ∧
    ⌈(6753 : ℚ) / binary64 (6753 / 10)⌉ = 11 ∧
    (findOptimalBreakPointsR binary64 0 [] (binary64 (6753 / 10)) 6753).map List.length
      = some 10 ∧
    (findOptimalBreakPoints 0 [] (binary64 (6753 / 10)) 6753).map List.length = some 11 := by
  refine ⟨by decide!, by decide!, by decide!, by decide!⟩

/-- C6, as stated, fails on doubles.  Without children, target 675.3 and total 6753 give ten
entries, the last one 6077.7, and `6753 - 6077.7` is above 675.3, exactly and as a double
(675.3000000000002).  With the child `{0,0}`, target 600.4 and total 3002 the loop stops at
2401.6, and `3002 - 2401.6` is above 600.4. -/
theorem last_slice_exceeds_target_on_doubles :
    ((0 : ℚ) < binary64 (6753 / 10) ∧
      findOptimalBreakPointsR binary64 (iterationBound (binary64 (6753 / 10)) 6753) []
          (binary64 (6753 / 10)) 6753
        = some ((List.range 10).map (fun (i : ℕ) => binary64 ((i : ℚ) * binary64 (6753 / 10)))) ∧
      ((List.range 10).map (fun (i : ℕ) => binary64 ((i : ℚ) * binary64 (6753 / 10)))).getLast?
        = some (binary64 (60777 / 10)) ∧
      ¬ (6753 - binary64 (60777 / 10) ≤ binary64 (6753 / 10)) ∧
      ¬ (binary64 (6753 - binary64 (60777 / 10)) ≤ binary64 (6753 / 10))) ∧
    ((0 : ℚ) < binary64 (6004 / 10) ∧
      (findOptimalBreakPointsR binary64 (iterationBound (binary64 (6004 / 10)) 3002) [⟨0, 0⟩]
          (binary64 (6004 / 10)) 3002).map List.length = some 5 ∧
      (findOptimalBreakPointsR binary64 (iterationBound (binary64 (6004 / 10)) 3002) [⟨0, 0⟩]
          (binary64 (6004 / 10)) 3002).bind List.getLast? = some (binary64 (24016 / 10)) ∧
      ¬ (3002 - binary64 (24016 / 10) ≤ binary64 (6004 / 10)) ∧
      ¬ (binary64 (3002 - binary64 (24016 / 10)) ≤ binary64 (6004 / 10))) := by
  refine ⟨⟨by decide!, by decide!, by decide!, by decide!, by decide!⟩,
    ⟨by decide!, by decide!, by decide!, by decide!, by decide!⟩⟩

/-- C20, as stated, fails on doubles.  The child `{0,0}` straddles nothing, target 0.1 and
total 1: the loop adds 0.1 ten times, reaches 0.9999999999999999 and pushes it, eleven
entries, while the fallback multiplies and returns ten. -/
theorem loop_and_fallback_differ_on_doubles :
    (0 : ℚ) < binary64 (1 / 10) ∧ (0 : ℚ) ≤ 1 ∧ [(⟨0, 0⟩ : Child)] ≠ [] ∧
    (∀ k : ℕ, 0 < k → (k : ℚ) * binary64 (1 / 10) < 1 → ∀ c ∈ [(⟨0, 0⟩ : Child)],
      ¬ (c.offsetTop < (k : ℚ) * binary64 (1 / 10) ∧
          (k : ℚ) * binary64 (1 / 10) < c.offsetTop + c.offsetHeight)) ∧
    (findOptimalBreakPointsR binary64 (iterationBound (binary64 (1 / 10)) 1) [⟨0, 0⟩]
        (binary64 (1 / 10)) 1).map List.length = some 11 ∧
    (findOptimalBreakPointsR binary64 (iterationBound (binary64 (1 / 10)) 1) [⟨0, 0⟩]
        (binary64 (1 / 10)) 1).bind List.getLast? = some (1 - 1 / 2 ^ 53) ∧
    (findOptimalBreakPointsR binary64 (iterationBound (binary64 (1 / 10)) 1) []
        (binary64 (1 / 10)) 1).map List.length = some 10 ∧
    findOptimalBreakPointsR binary64 (iterationBound (binary64 (1 / 10)) 1) [⟨0, 0⟩]
        (binary64 (1 / 10)) 1
      ≠ findOptimalBreakPointsR binary64 (iterationBound (binary64 (1 / 10)) 1) []
        (binary64 (1 / 10)) 1 := by
  refine ⟨by decide!, by decide!, by simp, ?_, by decide!, by decide!, by decide!, by decide!⟩
  intro k _ _ c hc
  simp only [List.mem_singleton] at hc
  subst hc
  intro h
  have h1 := h.1
  have h2 := h.2
  simp only [add_zero] at h2
  exact lt_irrefl _ (lt_trans h1 h2)

/-! ### Properties of the binary64 rounding -/

theorem log2Fuel_spec :
    ∀ (fuel n : Nat), 1 ≤ n → n ≤ fuel →
      2 ^ log2Fuel fuel n ≤ n ∧ n < 2 ^ (log2Fuel fuel n + 1) := by
  intro fuel
  induction fuel with
  | zero => intro n h1 h2; omega
  | succ f ih =>
    intro n h1 h2
    unfold log2Fuel
    split_ifs with hn
    · have : n = 1 := by omega
      subst this
      simp
    · obtain ⟨ha, hb⟩ := ih (n / 2) (by omega) (by omega)
      rw [pow_succ] at hb ⊢
      rw [pow_succ]
      constructor <;> omega

/-- The exponent found for `q ≠ 0` brackets `|q|` between two consecutive powers of two. -/
theorem log2Floor_spec (q : ℚ) (hq : q ≠ 0) :
    (2 : ℚ) ^ log2Floor q ≤ |q| ∧ |q| < (2 : ℚ) ^ (log2Floor q + 1) := by
  have hnum : q.num.natAbs ≠ 0 := by
    simpa using Rat.num_ne_zero.mpr hq
  have hden : 1 ≤ q.den := q.den_pos
  obtain ⟨ha1, ha2⟩ := log2Fuel_spec q.num.natAbs q.num.natAbs (by omega) (le_refl _)
  obtain ⟨hb1, hb2⟩ := log2Fuel_spec q.den q.den hden (le_refl _)
  have habs : |q| = (q.num.natAbs : ℚ) / (q.den : ℚ) := by
    conv_lhs => rw [← Rat.num_div_den q]
    rw [abs_div, Nat.abs_cast]
    congr 1
    rw [Nat.cast_natAbs, Int.cast_abs]
  have hdpos : (0 : ℚ) < (q.den : ℚ) := by exact_mod_cast hden
  have ha1q : (2 : ℚ) ^ (log2Fuel q.num.natAbs q.num.natAbs) ≤ (q.num.natAbs : ℚ) := by
    exact_mod_cast ha1
  have ha2q : (q.num.natAbs : ℚ) < (2 : ℚ) ^ (log2Fuel q.num.natAbs q.num.natAbs + 1) := by
    exact_mod_cast ha2
  have hb1q : (2 : ℚ) ^ (log2Fuel q.den q.den) ≤ (q.den : ℚ) := by exact_mod_cast hb1
  have hb2q : (q.den : ℚ) < (2 : ℚ) ^ (log2Fuel q.den q.den + 1) := by exact_mod_cast hb2
  set a := log2Fuel q.num.natAbs q.num.natAbs with ha
  set b := log2Fuel q.den q.den with hb
  have h2 : (0 : ℚ) < 2 := by norm_num
  have hupper : |q| < (2 : ℚ) ^ ((a : ℤ) - (b : ℤ) + 1) := by
    rw [habs, div_lt_iff₀ hdpos]
    have e : (2 : ℚ) ^ ((a : ℤ) - (b : ℤ) + 1) = (2 : ℚ) ^ (a + 1) / (2 : ℚ) ^ b := by
      rw [show (a : ℤ) - (b : ℤ) + 1 = ((a + 1 : ℕ) : ℤ) - ((b : ℕ) : ℤ) by push_cast; ring]
      rw [zpow_sub₀ (by norm_num : (2 : ℚ) ≠ 0), zpow_natCast, zpow_natCast]
    rw [e]
    have hbpos : (0 : ℚ) < (2 : ℚ) ^ b := by positivity
    calc (q.num.natAbs : ℚ) < (2 : ℚ) ^ (a + 1) := ha2q
      _ = (2 : ℚ) ^ (a + 1) / (2 : ℚ) ^ b * (2 : ℚ) ^ b := by field_simp
      _ ≤ (2 : ℚ) ^ (a + 1) / (2 : ℚ) ^ b * (q.den : ℚ) := by
        apply mul_le_mul_of_nonneg_left hb1q
        positivity
  have hlower : (2 : ℚ) ^ ((a : ℤ) - (b : ℤ) - 1) ≤ |q| := by
    rw [habs, le_div_iff₀ hdpos]
    have e : (2 : ℚ) ^ ((a : ℤ) - (b : ℤ) - 1) = (2 : ℚ) ^ a / (2 : ℚ) ^ (b + 1) := by
      rw [show (a : ℤ) - (b : ℤ) - 1 = ((a : ℕ) : ℤ) - ((b + 1 : ℕ) : ℤ) by push_cast; ring]
      rw [zpow_sub₀ (by norm_num : (2 : ℚ) ≠ 0), zpow_natCast, zpow_natCast]
    rw [e]
    have hbpos : (0 : ℚ) < (2 : ℚ) ^ (b + 1) := by positivity
    calc (2 : ℚ) ^ a / (2 : ℚ) ^ (b + 1) * (q.den : ℚ)
        ≤ (2 : ℚ) ^ a / (2 : ℚ) ^ (b + 1) * (2 : ℚ) ^ (b + 1) := by
          apply mul_le_mul_of_nonneg_left hb2q.le
          positivity
      _ = (2 : ℚ) ^ a := by field_simp
      _ ≤ (q.num.natAbs : ℚ) := ha1q
  unfold log2Floor
  simp only [← ha, ← hb]
  split_ifs with hk
  · exact ⟨hk, hupper⟩
  · refine ⟨hlower, ?_⟩
    rw [show (a : ℤ) - (b : ℤ) - 1 + 1 = (a : ℤ) - (b : ℤ) by ring]
    exact lt_of_not_ge hk

theorem roundHalfEven_intCast (n : ℤ) : roundHalfEven (n : ℚ) = n := by
  unfold roundHalfEven
  simp

theorem roundHalfEven_error (q : ℚ) : |((roundHalfEven q : ℤ) : ℚ) - q| ≤ 1 / 2 := by
  unfold roundHalfEven
  have h1 : ((⌊q⌋ : ℤ) : ℚ) ≤ q := Int.floor_le q
  have h2 : q < ((⌊q⌋ : ℤ) : ℚ) + 1 := Int.lt_floor_add_one q
  simp only []
  split_ifs with ha hb hc
  · rw [abs_le]
    constructor <;> linarith
  · rw [abs_le]
    push_cast
    constructor <;> linarith
  · rw [abs_le]
    constructor <;> linarith
  · rw [abs_le]
    push_cast
    constructor <;> linarith
/-! ### Whole-pixel inputs: no operation rounds -/

theorem exactOnHalves_int {rnd : ℚ → ℚ} (h : ExactOnHalves rnd) (z : ℤ) (hz : |z| < 2 ^ 52) :
    rnd (z : ℚ) = (z : ℚ) := by
  have h2 : |2 * z| < 2 ^ 53 := by
    rw [abs_mul]
    have : |(2 : ℤ)| = 2 := by decide
    rw [this]
    linarith
  have := h (2 * z) h2
  have e : (((2 * z : ℤ)) : ℚ) / 2 = (z : ℚ) := by
    push_cast
    ring
  rwa [e] at this

theorem scanChildrenR_pixel {rnd : ℚ → ℚ} (h : ExactOnHalves rnd) (t ideal cur : ℚ)
    (ht : IsPixel t) (zc : ℤ) (hc : cur = (zc : ℚ)) (hzc : |zc| ≤ 2 ^ 50) :
    ∀ cs : List Child, (∀ c ∈ cs, IsPixel c.offsetTop ∧ IsPixel c.offsetHeight) →
      scanChildrenR rnd cur t ideal cs = scanChildren cur t ideal cs := by
  obtain ⟨zt, hzt, hbt⟩ := ht
  have e4 : rnd (t * MIN_CONTENT_RATIO) = t * MIN_CONTENT_RATIO := by
    have := h zt (by linarith)
    unfold MIN_CONTENT_RATIO
    rw [hzt, show (zt : ℚ) * (1 / 2) = (zt : ℚ) / 2 by ring]
    exact this
  have e5 : rnd (t * MAX_CONTENT_RATIO) = t * MAX_CONTENT_RATIO := by
    have h3 : |3 * zt| < 2 ^ 53 := by
      rw [abs_mul]
      have : |(3 : ℤ)| = 3 := by decide
      rw [this]
      linarith
    have := h (3 * zt) h3
    unfold MAX_CONTENT_RATIO
    rw [hzt, show (zt : ℚ) * (3 / 2) = (((3 * zt : ℤ)) : ℚ) / 2 by push_cast; ring]
    exact this
  intro cs
  induction cs with
  | nil => intro _; rfl
  | cons c rest ih =>
    intro hcs
    obtain ⟨⟨za, hza, hba⟩, ⟨zb, hzb, hbb⟩⟩ := hcs c (List.mem_cons_self _ _)
    have ih2 := ih (fun d hd => hcs d (List.mem_cons_of_mem _ hd))
    have hab := abs_add za zb
    have e1 : rnd (c.offsetTop + c.offsetHeight) = c.offsetTop + c.offsetHeight := by
      rw [hza, hzb, ← Int.cast_add]
      exact exactOnHalves_int h _ (by linarith)
    have e2 : rnd (c.offsetTop - cur) = c.offsetTop - cur := by
      rw [hza, hc, ← Int.cast_sub]
      have := abs_sub za zc
      exact exactOnHalves_int h _ (by linarith)
    have e3 : rnd (c.offsetTop + c.offsetHeight - cur) = c.offsetTop + c.offsetHeight - cur := by
      rw [hza, hzb, hc, ← Int.cast_add, ← Int.cast_sub]
      have := abs_sub (za + zb) zc
      exact exactOnHalves_int h _ (by linarith)
    simp only [scanChildrenR, scanChildren, e1, e2, e3, e4, e5, ih2]

theorem nextBreakPointR_pixel {rnd : ℚ → ℚ} (h : ExactOnHalves rnd) (cs : List Child)
    (t cur : ℚ) (hcs : ∀ c ∈ cs, IsPixel c.offsetTop ∧ IsPixel c.offsetHeight)
    (ht : IsPixel t) (zc : ℤ) (hc : cur = (zc : ℚ)) (hzc : |zc| ≤ 2 ^ 50) :
    nextBreakPointR rnd cs t cur = nextBreakPoint cs t cur := by
  have e : rnd (cur + t) = cur + t := by
    obtain ⟨zt, hzt, hbt⟩ := ht
    rw [hzt, hc, ← Int.cast_add]
    have := abs_add zc zt
    exact exactOnHalves_int h _ (by linarith)
  simp only [nextBreakPointR, nextBreakPoint, e,
    scanChildrenR_pixel h t (cur + t) cur ht zc hc hzc cs hcs]

theorem nextBreakPoint_pixel (cs : List Child) (t total cur : ℚ)
    (hp : PixelInputs cs t total) (ht0 : 0 < t) (zc : ℤ) (hc : cur = (zc : ℚ))
    (hzc : |zc| ≤ 2 ^ 50) (hloop : cur + t < total) :
    ∃ z : ℤ, nextBreakPoint cs t cur = (z : ℚ) ∧ |z| ≤ 2 ^ 50 := by
  obtain ⟨hcs, ⟨zt, hzt, hbt⟩, ⟨zT, hzT, hbT⟩⟩ := hp
  have hsum : ∃ z : ℤ, cur + t = (z : ℚ) ∧ |z| ≤ 2 ^ 50 := by
    refine ⟨zc + zt, by rw [hc, hzt]; push_cast; rfl, ?_⟩
    have h1 : zc + zt < zT := by
      have : ((zc + zt : ℤ) : ℚ) < (zT : ℚ) := by
        push_cast
        rw [← hc, ← hzt, ← hzT]
        exact hloop
      exact_mod_cast this
    have h2 : 0 < zt := by
      have : (0 : ℚ) < (zt : ℚ) := by rw [← hzt]; exact ht0
      exact_mod_cast this
    have h3 := le_abs_self zT
    have h4 := neg_abs_le zc
    rw [abs_le]
    constructor <;> linarith
  rcases nextBreakPoint_cases cs t cur with ⟨_, hn⟩ | ⟨e, _, hmem, _, hn | hn⟩
  · rw [hn]; exact hsum
  · rw [hn.2]; exact hsum
  · rw [hn.2]
    obtain ⟨⟨za, hza, hba⟩, ⟨zb, hzb, hbb⟩⟩ := hcs e hmem
    have htop : ∃ z : ℤ, e.offsetTop = (z : ℚ) ∧ |z| ≤ 2 ^ 50 := ⟨za, hza, by linarith⟩
    have hbot : ∃ z : ℤ, e.offsetTop + e.offsetHeight = (z : ℚ) ∧ |z| ≤ 2 ^ 50 := by
      refine ⟨za + zb, by rw [hza, hzb]; push_cast; rfl, ?_⟩
      have := abs_add za zb
      linarith
    rcases chooseBreak_cases cur t e with ⟨_, hk⟩ | ⟨_, _, hk⟩ | ⟨_, _, hk⟩
    · rw [hk]; exact htop
    · rw [hk]; exact hbot
    · rw [hk]; exact htop

theorem mainLoopR_pixel {rnd : ℚ → ℚ} (h : ExactOnHalves rnd) (cs : List Child)
    (t total : ℚ) (hp : PixelInputs cs t total) (ht0 : 0 < t) :
    ∀ (fuel : Nat) (cur : ℚ) (acc : List ℚ) (zc : ℤ), cur = (zc : ℚ) → |zc| ≤ 2 ^ 50 →
      mainLoopR rnd cs t total fuel cur acc = mainLoop cs t total fuel cur acc := by
  have e : ∀ (cur : ℚ) (zc : ℤ), cur = (zc : ℚ) → |zc| ≤ 2 ^ 50 → rnd (cur + t) = cur + t := by
    intro cur zc hc hzc
    obtain ⟨zt, hzt, hbt⟩ := hp.2.1
    rw [hzt, hc, ← Int.cast_add]
    have := abs_add zc zt
    exact exactOnHalves_int h _ (by linarith)
  intro fuel
  induction fuel with
  | zero =>
    intro cur acc zc hc hzc
    simp only [mainLoopR, mainLoop, e cur zc hc hzc]
  | succ n ih =>
    intro cur acc zc hc hzc
    simp only [mainLoopR, mainLoop, e cur zc hc hzc,
      nextBreakPointR_pixel h cs t cur hp.1 hp.2.1 zc hc hzc]
    split_ifs with hloop
    · obtain ⟨z, hz, hbz⟩ := nextBreakPoint_pixel cs t total cur hp ht0 zc hc hzc hloop
      exact ih _ _ z hz hbz
    · rfl

theorem fixedIntervalsR_pixel {rnd : ℚ → ℚ} (h : ExactOnHalves rnd)
    (hk : KeepsCeilOfQuotient rnd) (t total : ℚ) (ht : IsPixel t) (hT : IsPixel total)
    (ht0 : 0 < t) (hT0 : 0 ≤ total) :
    fixedIntervalsR rnd t total = fixedIntervals t total := by
  obtain ⟨zt, hzt, hbt⟩ := ht
  obtain ⟨zT, hzT, hbT⟩ := hT
  have hzt0 : 0 < zt := by
    have : (0 : ℚ) < (zt : ℚ) := by rw [← hzt]; exact ht0
    exact_mod_cast this
  have hzT0 : 0 ≤ zT := by
    have : (0 : ℚ) ≤ (zT : ℚ) := by rw [← hzT]; exact hT0
    exact_mod_cast this
  have hceil : ⌈rnd (total / t)⌉ = ⌈total / t⌉ := by
    rw [hzt, hzT]
    exact hk zT zt hzT0 (by have := le_abs_self zT; linarith) hzt0
  unfold fixedIntervalsR fixedIntervals
  simp only [hceil]
  congr 1
  apply List.map_congr_left
  intro i hi
  rw [List.mem_range'_1] at hi
  have hle : (i : ℚ) * t ≤ total := by
    have h1 := pred_numImages_mul_le t total ht0 hT0
    have h2 : (i : ℚ) ≤ ((⌈total / t⌉.toNat - 1 : ℕ) : ℚ) := by
      have : i ≤ ⌈total / t⌉.toNat - 1 := by omega
      exact_mod_cast this
    have := mul_le_mul_of_nonneg_right h2 ht0.le
    linarith
  have hz : ((i : ℤ) * zt) ≤ zT := by
    have : (((i : ℤ) * zt : ℤ) : ℚ) ≤ (zT : ℚ) := by
      push_cast
      rw [← hzt, ← hzT]
      exact hle
    exact_mod_cast this
  have hnn : 0 ≤ (i : ℤ) * zt := by positivity
  have := exactOnHalves_int h ((i : ℤ) * zt) (by
    rw [abs_of_nonneg hnn]
    have := le_abs_self zT
    linarith)
  rw [hzt]
  push_cast at this
  exact this

/-- On whole-pixel inputs the function with rounded arithmetic returns what the exact one
returns, for every rounding that is exact on halves of integers below `2^53` and keeps the
ceiling of a quotient of integers. -/
theorem findOptimalBreakPointsR_pixel {rnd : ℚ → ℚ} (h : ExactOnHalves rnd)
    (hk : KeepsCeilOfQuotient rnd) (fuel : Nat) (cs : List Child) (t total : ℚ)
    (ht0 : 0 < t) (hT0 : 0 ≤ total) (hp : PixelInputs cs t total) :
    findOptimalBreakPointsR rnd fuel cs t total = findOptimalBreakPoints fuel cs t total := by
  unfold findOptimalBreakPointsR findOptimalBreakPoints
  rw [fixedIntervalsR_pixel h hk t total hp.2.1 hp.2.2 ht0 hT0,
    mainLoopR_pixel h cs t total hp ht0 fuel 0 [0] 0 (by simp) (by simp)]
/-- A number `m * 2^s` with `|m| < 2^53` is a double: rounding leaves it unchanged. -/
theorem binary64_dyadic (m s : ℤ) (hm : |m| < 2 ^ 53) :
    binary64 ((m : ℚ) * 2 ^ s) = (m : ℚ) * 2 ^ s := by
  have h2 : (2 : ℚ) ≠ 0 := by norm_num
  by_cases hm0 : m = 0
  · subst hm0
    simp [binary64]
  have hx : (m : ℚ) * 2 ^ s ≠ 0 := by
    apply mul_ne_zero
    · exact_mod_cast hm0
    · exact zpow_ne_zero _ h2
  obtain ⟨hlo, _⟩ := log2Floor_spec _ hx
  set L := log2Floor ((m : ℚ) * 2 ^ s) with hL
  have habs : |(m : ℚ) * 2 ^ s| < (2 : ℚ) ^ (53 + s) := by
    rw [abs_mul, abs_of_pos (zpow_pos (by norm_num : (0 : ℚ) < 2) s), zpow_add₀ h2]
    apply mul_lt_mul_of_pos_right _ (zpow_pos (by norm_num : (0 : ℚ) < 2) s)
    have : ((|m| : ℤ) : ℚ) < ((2 ^ 53 : ℤ) : ℚ) := by exact_mod_cast hm
    rw [Int.cast_abs] at this
    rw [show ((53 : ℤ)) = ((53 : ℕ) : ℤ) by rfl, zpow_natCast]
    exact_mod_cast this
  have hLlt : L < 53 + s := by
    have := lt_of_le_of_lt hlo habs
    exact (zpow_lt_zpow_iff_right₀ (by norm_num : (1 : ℚ) < 2)).mp this
  have hes : 0 ≤ s - (L - 52) := by omega
  obtain ⟨n, hn⟩ := Int.eq_ofNat_of_zero_le hes
  have hscale : (m : ℚ) * 2 ^ s / 2 ^ (L - 52) = ((m * 2 ^ n : ℤ) : ℚ) := by
    rw [mul_div_assoc, ← zpow_sub₀ h2, hn, zpow_natCast]
    push_cast
    rfl
  unfold binary64
  rw [if_neg hx]
  simp only [← hL]
  rw [hscale, roundHalfEven_intCast]
  push_cast
  rw [mul_assoc, ← zpow_natCast, ← hn, ← zpow_add₀ h2]
  congr 2
  ring

theorem binary64_exactOnHalves : ExactOnHalves binary64 := by
  intro k hk
  have := binary64_dyadic k (-1) hk
  have e : (k : ℚ) * 2 ^ (-1 : ℤ) = (k : ℚ) / 2 := by
    rw [zpow_neg_one]
    rfl
  rwa [e] at this

/-- The relative error of the rounding is at most `2^-53`. -/
theorem binary64_error (x : ℚ) : |binary64 x - x| ≤ |x| / 2 ^ 53 := by
  have h2 : (2 : ℚ) ≠ 0 := by norm_num
  by_cases hx : x = 0
  · subst hx
    simp [binary64]
  obtain ⟨hlo, _⟩ := log2Floor_spec x hx
  unfold binary64
  rw [if_neg hx]
  simp only []
  set L := log2Floor x with hL
  have hpos : (0 : ℚ) < 2 ^ (L - 52) := zpow_pos (by norm_num) _
  have herr := roundHalfEven_error (x / 2 ^ (L - 52))
  have e : ((roundHalfEven (x / 2 ^ (L - 52)) : ℤ) : ℚ) * 2 ^ (L - 52) - x
      = (((roundHalfEven (x / 2 ^ (L - 52)) : ℤ) : ℚ) - x / 2 ^ (L - 52)) * 2 ^ (L - 52) := by
    field_simp
  rw [e, abs_mul, abs_of_pos hpos]
  have hscale : (2 : ℚ) ^ (L - 52) = 2 ^ L / 2 ^ 52 := by
    rw [zpow_sub₀ h2]
    norm_num
  have h1 : |((roundHalfEven (x / 2 ^ (L - 52)) : ℤ) : ℚ) - x / 2 ^ (L - 52)| * 2 ^ (L - 52)
      ≤ 1 / 2 * 2 ^ (L - 52) := mul_le_mul_of_nonneg_right herr hpos.le
  have h3 : (1 : ℚ) / 2 * 2 ^ (L - 52) ≤ |x| / 2 ^ 53 := by
    rw [hscale]
    have : (1 : ℚ) / 2 * (2 ^ L / 2 ^ 52) = 2 ^ L / 2 ^ 53 := by
      rw [show (2 : ℚ) ^ 53 = 2 * 2 ^ 52 by norm_num]
      field_simp
    rw [this]
    exact div_le_div_of_nonneg_right hlo (by positivity)
  exact le_trans h1 h3

theorem binary64_keepsCeilOfQuotient : KeepsCeilOfQuotient binary64 := by
  intro a b ha ha53 hb
  have hbq : (0 : ℚ) < (b : ℚ) := by exact_mod_cast hb
  have haq : (0 : ℚ) ≤ (a : ℚ) := by exact_mod_cast ha
  set q : ℚ := (a : ℚ) / b with hq
  set n : ℤ := ⌈q⌉ with hn
  have hqn : q ≤ (n : ℚ) := Int.le_ceil q
  have hnq : ((n : ℚ)) - 1 < q := by
    have := Int.ceil_lt_add_one q
    linarith
  have hq0 : 0 ≤ q := div_nonneg haq hbq.le
  rw [Int.ceil_eq_iff]
  by_cases hint : q = (n : ℚ)
  · have hn0 : 0 ≤ n := by
      have : (0 : ℚ) ≤ (n : ℚ) := by rw [← hint]; exact hq0
      exact_mod_cast this
    have hna : n ≤ a := by
      have h1 : q ≤ (a : ℚ) := by
        rw [hq, div_le_iff₀ hbq]
        have : (1 : ℚ) ≤ (b : ℚ) := by exact_mod_cast hb
        nlinarith
      have : (n : ℚ) ≤ (a : ℚ) := by rw [← hint]; exact h1
      exact_mod_cast this
    have hd := binary64_dyadic n 0 (by rw [abs_of_nonneg hn0]; linarith)
    simp only [zpow_zero, mul_one] at hd
    rw [hint, hd]
    constructor <;> linarith
  · have hlt : q < (n : ℚ) := lt_of_le_of_ne hqn hint
    have h1 : q + 1 / (b : ℚ) ≤ (n : ℚ) := by
      have : a < n * b := by
        have : (a : ℚ) < (n : ℚ) * (b : ℚ) := by
          rw [hq, div_lt_iff₀ hbq] at hlt
          exact hlt
        exact_mod_cast this
      have h' : (a : ℚ) + 1 ≤ (n : ℚ) * (b : ℚ) := by
        have : a + 1 ≤ n * b := by omega
        exact_mod_cast this
      rw [hq, ← add_div, div_le_iff₀ hbq]
      exact h'
    have h2 : (n : ℚ) - 1 + 1 / (b : ℚ) ≤ q := by
      have : (n - 1) * b < a := by
        have : ((n : ℚ) - 1) * (b : ℚ) < (a : ℚ) := by
          rw [hq, lt_div_iff₀ hbq] at hnq
          exact hnq
        exact_mod_cast this
      have h' : ((n : ℚ) - 1) * (b : ℚ) + 1 ≤ (a : ℚ) := by
        have : (n - 1) * b + 1 ≤ a := by omega
        exact_mod_cast this
      rw [hq, le_div_iff₀ hbq]
      have : ((n : ℚ) - 1 + 1 / (b : ℚ)) * (b : ℚ) = ((n : ℚ) - 1) * (b : ℚ) + 1 := by
        field_simp
      rw [this]
      exact h'
    have herr := binary64_error q
    have hsmall : |q| / 2 ^ 53 < 1 / (b : ℚ) := by
      rw [abs_of_nonneg hq0, hq, div_div, div_lt_div_iff₀ (by positivity) hbq]
      have : (a : ℚ) < 2 ^ 53 := by exact_mod_cast ha53
      nlinarith
    have hab := abs_le.mp herr
    constructor <;> linarith [hab.1, hab.2]
/-- On whole-pixel inputs the program on doubles returns what exact arithmetic returns. -/
theorem findOptimalBreakPointsR_binary64_pixel (fuel : Nat) (cs : List Child) (t total : ℚ)
    (ht0 : 0 < t) (hT0 : 0 ≤ total) (hp : PixelInputs cs t total) :
    findOptimalBreakPointsR binary64 fuel cs t total = findOptimalBreakPoints fuel cs t total :=
  findOptimalBreakPointsR_pixel binary64_exactOnHalves binary64_keepsCeilOfQuotient fuel cs t
    total ht0 hT0 hp

theorem isPixel_intCast (z : ℤ) (h : |z| ≤ 2 ^ 49) : IsPixel (z : ℚ) := ⟨z, rfl, h⟩

/-- C6, amended: on doubles and whole-pixel inputs no slice exceeds `MAX_CONTENT_RATIO` of
the target.  For every list of children whose `offsetTop` and `offsetHeight` are integers,
every integer `targetHeight > 0` and integer `totalHeight ≥ 0`, all of magnitude at most
`2^49`, the function computed in binary64 arithmetic returns an array in which each gap
`result[i+1] - result[i]` is at most `1.5 * targetHeight` and the implicit last slice
satisfies `totalHeight - last(result) ≤ targetHeight`. -/
theorem findOptimalBreakPointsR_slice_bounds (children : List Child)
    (targetHeight totalHeight : ℚ) (ht : 0 < targetHeight) (hT : 0 ≤ totalHeight)
    (hp : PixelInputs children targetHeight totalHeight) :
    ∃ r, (∀ fuel, iterationBound targetHeight totalHeight ≤ fuel →
            findOptimalBreakPointsR binary64 fuel children targetHeight totalHeight = some r) ∧
      (∀ (i : Nat) (h : i + 1 < r.length), r[i + 1] - r[i] ≤ MAX_CONTENT_RATIO * targetHeight) ∧
      ∃ last, r.getLast? = some last ∧ totalHeight - last ≤ targetHeight := by
  obtain ⟨r, hr, hgap, hlast⟩ :=
    findOptimalBreakPoints_slice_bounds children targetHeight totalHeight ht hT
  refine ⟨r, ?_, hgap, hlast⟩
  intro fuel hfuel
  rw [findOptimalBreakPointsR_binary64_pixel fuel children targetHeight totalHeight ht hT hp]
  exact hr fuel hfuel

theorem findOptimalBreakPointsR_slice_bounds_witness :
    (0 : ℚ) < 100 ∧ (0 : ℚ) ≤ 250 ∧
    PixelInputs [⟨0, 10⟩, ⟨10, 100⟩, ⟨110, 140⟩] 100 250 ∧
    ∃ r, (∀ fuel, iterationBound 100 250 ≤ fuel →
            findOptimalBreakPointsR binary64 fuel [⟨0, 10⟩, ⟨10, 100⟩, ⟨110, 140⟩] 100 250
              = some r) ∧
      (∀ (i : Nat) (h : i + 1 < r.length), r[i + 1] - r[i] ≤ MAX_CONTENT_RATIO * 100) ∧
      ∃ last, r.getLast? = some last ∧ 250 - last ≤ 100 :=
  have hp : PixelInputs [⟨0, 10⟩, ⟨10, 100⟩, ⟨110, 140⟩] 100 250 := by
    refine ⟨?_, ⟨100, by norm_num, by norm_num⟩, ⟨250, by norm_num, by norm_num⟩⟩
    intro c hc
    simp only [List.mem_cons, List.mem_singleton, List.not_mem_nil, or_false] at hc
    rcases hc with rfl | rfl | rfl
    · exact ⟨⟨0, by norm_num, by norm_num⟩, ⟨10, by norm_num, by norm_num⟩⟩
    · exact ⟨⟨10, by norm_num, by norm_num⟩, ⟨100, by norm_num, by norm_num⟩⟩
    · exact ⟨⟨110, by norm_num, by norm_num⟩, ⟨140, by norm_num, by norm_num⟩⟩
  ⟨by norm_num, by norm_num, hp,
    findOptimalBreakPointsR_slice_bounds [⟨0, 10⟩, ⟨10, 100⟩, ⟨110, 140⟩] 100 250
      (by norm_num) (by norm_num) hp⟩

/-- C20, amended: on doubles and whole-pixel inputs, when nothing straddles, the structured
path equals the fixed-interval fallback.  For every non-empty list of children whose
`offsetTop` and `offsetHeight` are integers, every integer `targetHeight > 0` and integer
`totalHeight ≥ 0`, all of magnitude at most `2^49`, such that no child satisfies
`offsetTop < k * targetHeight < offsetTop + offsetHeight` for a positive integer `k` with
`k * targetHeight < totalHeight`, the function computed in binary64 arithmetic returns
`[0, targetHeight, ..., (n-1) * targetHeight]` with `n = ceil(totalHeight / targetHeight)`
(the ceiling of the double quotient, which here is the exact one), the array it returns for
the empty list.  Children `{0,100}`, `{100,100}` at 100/200 give `[0, 100]`. -/
theorem findOptimalBreakPointsR_no_straddle_eq_fixed (children : List Child)
    (targetHeight totalHeight : ℚ) (ht : 0 < targetHeight) (hT : 0 ≤ totalHeight)
    (hne : children ≠ []) (hp : PixelInputs children targetHeight totalHeight)
    (hns : ∀ k : ℕ, 0 < k → (k : ℚ) * targetHeight < totalHeight → ∀ c ∈ children,
      ¬ (c.offsetTop < (k : ℚ) * targetHeight ∧
          (k : ℚ) * targetHeight < c.offsetTop + c.offsetHeight)) :
    (∃ r, (∀ fuel, iterationBound targetHeight totalHeight ≤ fuel →
            findOptimalBreakPointsR binary64 fuel children targetHeight totalHeight = some r) ∧
        (∀ fuel, findOptimalBreakPointsR binary64 fuel [] targetHeight totalHeight = some r) ∧
        (r.length : ℤ) = max 1 ⌈binary64 (totalHeight / targetHeight)⌉ ∧
        ⌈binary64 (totalHeight / targetHeight)⌉ = ⌈totalHeight / targetHeight⌉ ∧
        ∀ (i : ℕ) (h : i < r.length), r[i] = (i : ℚ) * targetHeight ∧
          binary64 ((i : ℚ) * targetHeight) = (i : ℚ) * targetHeight) ∧
    findOptimalBreakPointsR binary64 (iterationBound 100 200) [⟨0, 100⟩, ⟨100, 100⟩] 100 200
      = some [0, 100] := by
  refine ⟨?_, by decide!⟩
  obtain ⟨⟨r, hr, hempty, hlen, hget⟩, _⟩ :=
    findOptimalBreakPoints_no_straddle_eq_fixed children targetHeight totalHeight ht hT hne hns
  have hp0 : PixelInputs [] targetHeight totalHeight :=
    ⟨fun c hc => absurd hc (List.not_mem_nil c), hp.2.1, hp.2.2⟩
  obtain ⟨zt, hzt, hbt⟩ := hp.2.1
  obtain ⟨zT, hzT, hbT⟩ := hp.2.2
  have hzt0 : 0 < zt := by
    have : (0 : ℚ) < (zt : ℚ) := by rw [← hzt]; exact ht
    exact_mod_cast this
  have hzT0 : 0 ≤ zT := by
    have : (0 : ℚ) ≤ (zT : ℚ) := by rw [← hzT]; exact hT
    exact_mod_cast this
  have hceil : ⌈binary64 (totalHeight / targetHeight)⌉ = ⌈totalHeight / targetHeight⌉ := by
    rw [hzt, hzT]
    exact binary64_keepsCeilOfQuotient zT zt hzT0 (by have := le_abs_self zT; linarith) hzt0
  have hrfix : r = fixedIntervals targetHeight totalHeight := by
    have := hempty 0
    simpa [findOptimalBreakPoints] using this.symm
  refine ⟨r, ?_, ?_, ?_, hceil, ?_⟩
  · intro fuel hfuel
    rw [findOptimalBreakPointsR_binary64_pixel fuel children targetHeight totalHeight ht hT hp]
    exact hr fuel hfuel
  · intro fuel
    rw [findOptimalBreakPointsR_binary64_pixel fuel [] targetHeight totalHeight ht hT hp0]
    exact hempty fuel
  · rw [hceil]
    exact hlen
  · intro i h
    refine ⟨hget i h, ?_⟩
    have hle : (i : ℚ) * targetHeight ≤ totalHeight := by
      have h1 := pred_numImages_mul_le targetHeight totalHeight ht hT
      have h2 : (i : ℚ) ≤ ((⌈totalHeight / targetHeight⌉.toNat - 1 : ℕ) : ℚ) := by
        have hl : r.length = ⌈totalHeight / targetHeight⌉.toNat - 1 + 1 := by
          rw [hrfix]
          simp [fixedIntervals]
        have : i ≤ ⌈totalHeight / targetHeight⌉.toNat - 1 := by omega
        exact_mod_cast this
      have := mul_le_mul_of_nonneg_right h2 ht.le
      linarith
    have hz : ((i : ℤ) * zt) ≤ zT := by
      have : (((i : ℤ) * zt : ℤ) : ℚ) ≤ (zT : ℚ) := by
        push_cast
        rw [← hzt, ← hzT]
        exact hle
      exact_mod_cast this
    have hnn : 0 ≤ (i : ℤ) * zt := by positivity
    have := exactOnHalves_int binary64_exactOnHalves ((i : ℤ) * zt) (by
      rw [abs_of_nonneg hnn]
      have := le_abs_self zT
      linarith)
    rw [hzt]
    push_cast at this
    exact this

theorem findOptimalBreakPointsR_no_straddle_eq_fixed_witness :
    (0 : ℚ) < 100 ∧ (0 : ℚ) ≤ 250 ∧ [(⟨0, 100⟩ : Child), ⟨100, 100⟩, ⟨200, 50⟩] ≠ [] ∧
    PixelInputs [⟨0, 100⟩, ⟨100, 100⟩, ⟨200, 50⟩] 100 250 ∧
    (∀ k : ℕ, 0 < k → (k : ℚ) * 100 < 250 → ∀ c ∈ [(⟨0, 100⟩ : Child), ⟨100, 100⟩, ⟨200, 50⟩],
      ¬ (c.offsetTop < (k : ℚ) * 100 ∧ (k : ℚ) * 100 < c.offsetTop + c.offsetHeight)) ∧
    ((∃ r, (∀ fuel, iterationBound 100 250 ≤ fuel →
            findOptimalBreakPointsR binary64 fuel [⟨0, 100⟩, ⟨100, 100⟩, ⟨200, 50⟩] 100 250
              = some r) ∧
        (∀ fuel, findOptimalBreakPointsR binary64 fuel [] 100 250 = some r) ∧
        (r.length : ℤ) = max 1 ⌈binary64 ((250 : ℚ) / 100)⌉ ∧
        ⌈binary64 ((250 : ℚ) / 100)⌉ = ⌈(250 : ℚ) / 100⌉ ∧
        ∀ (i : ℕ) (h : i < r.length), r[i] = (i : ℚ) * 100 ∧
          binary64 ((i : ℚ) * 100) = (i : ℚ) * 100) ∧
    findOptimalBreakPointsR binary64 (iterationBound 100 200) [⟨0, 100⟩, ⟨100, 100⟩] 100 200
      = some [0, 100]) :=
  have hp : PixelInputs [⟨0, 100⟩, ⟨100, 100⟩, ⟨200, 50⟩] 100 250 := by
    refine ⟨?_, ⟨100, by norm_num, by norm_num⟩, ⟨250, by norm_num, by norm_num⟩⟩
    intro c hc
    simp only [List.mem_cons, List.mem_singleton, List.not_mem_nil, or_false] at hc
    rcases hc with rfl | rfl | rfl
    · exact ⟨⟨0, by norm_num, by norm_num⟩, ⟨100, by norm_num, by norm_num⟩⟩
    · exact ⟨⟨100, by norm_num, by norm_num⟩, ⟨100, by norm_num, by norm_num⟩⟩
    · exact ⟨⟨200, by norm_num, by norm_num⟩, ⟨50, by norm_num, by norm_num⟩⟩
  have hns : ∀ k : ℕ, 0 < k → (k : ℚ) * 100 < 250 →
      ∀ c ∈ [(⟨0, 100⟩ : Child), ⟨100, 100⟩, ⟨200, 50⟩],
      ¬ (c.offsetTop < (k : ℚ) * 100 ∧ (k : ℚ) * 100 < c.offsetTop + c.offsetHeight) := by
    intro k hk hlt c hc
    have hk3 : k < 3 := by
      by_contra hge
      have : (3 : ℚ) ≤ (k : ℚ) := by exact_mod_cast not_lt.mp hge
      linarith
    simp only [List.mem_cons, List.mem_singleton, List.not_mem_nil, or_false] at hc
    interval_cases k <;> rcases hc with rfl | rfl | rfl <;> norm_num
  ⟨by norm_num, by norm_num, by simp, hp, hns,
    findOptimalBreakPointsR_no_straddle_eq_fixed [⟨0, 100⟩, ⟨100, 100⟩, ⟨200, 50⟩] 100 250
      (by norm_num) (by norm_num) (by simp) hp hns⟩

end Text2Image
